import Mathlib

/-!
# ztool (esptool2): section aggregation and image encoders

A shallow embedding of `src/ztool.c`.

Conventions of the embedding.

* A byte is a natural number; the bytes of a well-formed input are below 256.
  A C `uint32_t` is a natural number reduced modulo `2 ^ 32` wherever the C code
  can wrap, a `uint8_t` is reduced modulo 256 where it is stored.
* The host is little-endian (the ESP8266 tool chain targets one and the image
  formats are little-endian): a `uint32_t` in memory is its four bytes, least
  significant first, and the two image-header structs have no padding bytes.
* The output stream `FILE` is the list of bytes written so far together with the
  room left on the device; `fwrite` appends as many bytes as there is room for
  and returns that count, as a short write does.
* The ELF reader declared in `ztool_elf.h` is an external collaborator: its
  entry points `LoadElf`, `GetElfSection` and `GetElfSectionData` are fields of
  `Host` and of `MyElf_File`, to be instantiated by any reader that honours the
  header. A section list is a Lean list; its count is the length of the list.
* The heap satisfies every request: `malloc` and `realloc` never return `NULL`.
* A write through a `NULL` pointer ends the process: the call it happens in
  returns nothing, which `WResult.fault` records.
-/

set_option maxRecDepth 100000

namespace Ztool

/-! ## Constants of `ztool.c` -/

def IMAGE_PADDING : Nat := 16
def SECTION_PADDING : Nat := 4
def CHECKSUM_INIT : Nat := 0xEF
def BIN_MAGIC_FLASH : Nat := 0xE9
def ZBOOT_MAGIC : Nat := 0x279bfbf1
def ZBOOT_DEFAULT_BUILD_VERSION : Nat := 0x00000001
def SECONDS_BETWEEN_1970_AND_2000 : Nat := 946684800

/-- The bytes of a C string literal or argument (without the terminator). -/
def cstr (s : String) : List Nat := s.toList.map Char.toNat

def ZBOOT_DEFAULT_BUILD_DESCRIPTION : List Nat := cstr "zboot application"

/-! ## Machine words and memory images -/

/-- The four bytes of a `uint32_t` in memory, least significant first. -/
def u32le (v : Nat) : List Nat :=
  [v % 256, v / 256 % 256, v / 65536 % 256, v / 16777216 % 256]

/-- The `uint32_t` read from four bytes in memory. -/
def le32 (b0 b1 b2 b3 : Nat) : Nat :=
  b0 + 256 * b1 + 65536 * b2 + 16777216 * b3

/-! ## The ELF reader interface (`ztool_elf.h`) -/

structure MyElf_Section where
  offset : Nat
  address : Nat
  size : Nat
  name : String
deriving DecidableEq, Repr

/-- An open ELF object: the entry address of its header, and what the reader
answers for it (`GetElfSection`, `GetElfSectionData` with `pad = 0`; `none` is
the `NULL` result). -/
structure MyElf_File where
  e_entry : Nat
  GetElfSection : String → Option MyElf_Section
  GetElfSectionData : MyElf_Section → Option (List Nat)

/-! ## The output stream -/

/-- An output stream: the bytes written so far, and how many more the device
takes (`none`: as many as are written). -/
structure FILE where
  bytes : List Nat
  room : Option Nat
deriving DecidableEq, Repr

/-- What `fwrite(buf, 1, buf.length, fd)` does: the count written and the stream
afterwards. -/
def fwrite (buf : List Nat) (fd : FILE) : Nat × FILE :=
  match fd.room with
  | none => (buf.length, { bytes := fd.bytes ++ buf, room := none })
  | some r =>
    (min buf.length r, { bytes := fd.bytes ++ buf.take r, room := some (r - min buf.length r) })

/-- Formatted output `fprintf(fd, ...)` of an already formatted text; its result
is never looked at by the callers. -/
def fprintf (fd : FILE) (text : List Char) : FILE :=
  (fwrite (text.map Char.toNat) fd).2

/-- The stream position `ftell(fd)` of a stream opened with "wb". -/
def ftell (fd : FILE) : Nat := fd.bytes.length

/-- The file system and ELF loader the tool runs on: `LoadElf` of a path, and
for `fopen(path, "wb")` whether the file opens and with how much room. -/
structure Host where
  LoadElf : String → Option MyElf_File
  openRoom : String → Option (Option Nat)

/-- The call `fopen(path, "wb")`: an empty stream, or `none` for `NULL`. -/
def fopen (host : Host) (path : String) : Option FILE :=
  (host.openRoom path).map fun r => { bytes := [], room := r }

/-! ## Helper functions -/

/-- `GetZbootTimestamp`, with the result of `time(NULL)` as argument. -/
def GetZbootTimestamp (time : Nat) : Nat :=
  let current := time % 2 ^ 32
  if current < SECONDS_BETWEEN_1970_AND_2000 then 0
  else current - SECONDS_BETWEEN_1970_AND_2000

/-- The local variables of `WriteElfSection` that its phases update. -/
structure WState where
  success : Bool
  data : List Nat
  totalSize : Nat
  address : Nat
deriving DecidableEq, Repr

/-- The first loop of `WriteElfSection` ("Get the information for all sections"),
from the current name on. The buffer `data` holds `totalSize` bytes; `memcpy`
appends the `sectionSize` bytes of the section behind them. -/
def readSections (elf : MyElf_File) (zeroAddress : Bool) : List String → WState → WState
  | [], st => st
  | sectionName :: rest, st =>
    if st.success = false then st
    else
      match elf.GetElfSection sectionName with
      | none => readSections elf zeroAddress rest st
      | some sec =>
        let sectionSize := sec.size
        if sectionSize = 0 then readSections elf zeroAddress rest st
        else
          let address :=
            if zeroAddress = false ∧ st.address = 0 then sec.address % 2 ^ 32 else st.address
          let totalSize := (st.totalSize + sectionSize) % 2 ^ 32
          match elf.GetElfSectionData sec with
          | none =>
            readSections elf zeroAddress rest
              { success := false, data := st.data, totalSize := totalSize, address := address }
          | some buffer =>
            readSections elf zeroAddress rest
              { success := true, data := st.data ++ buffer.take sectionSize,
                totalSize := totalSize, address := address }

/-- The second phase of `WriteElfSection` ("Determine padding (if any)"). -/
def padSection (padto : Nat) (st : WState) : WState :=
  if st.success = true ∧ padto > 0 then
    let pad := st.totalSize % padto
    if pad > 0 then
      let pad := padto - pad
      { st with data := st.data ++ List.replicate pad 0xa5,
                totalSize := (st.totalSize + pad) % 2 ^ 32 }
    else st
  else st

/-- The 32-bit checksum loop: every little-endian word of the buffer is added to
the accumulator. The loop reads whole words; where the buffer ends inside a word
(never the case after padding to a multiple of 4) the C code reads indeterminate
bytes, taken as 0 here. -/
def sum32 (chk : Nat) : List Nat → Nat
  | [] => chk
  | [b0] => (chk + le32 b0 0 0 0) % 2 ^ 32
  | [b0, b1] => (chk + le32 b0 b1 0 0) % 2 ^ 32
  | [b0, b1, b2] => (chk + le32 b0 b1 b2 0) % 2 ^ 32
  | b0 :: b1 :: b2 :: b3 :: rest => sum32 ((chk + le32 b0 b1 b2 b3) % 2 ^ 32) rest

/-- The 8-bit checksum loop: every byte of the buffer is XORed into the
accumulator. -/
def xor8 (chk : Nat) (data : List Nat) : Nat :=
  data.foldl (fun c b => c ^^^ b) chk

/-- The third phase of `WriteElfSection` ("Calculate checksum of data"): the
success flag and the accumulator afterwards (`none` is the `NULL` pointer). -/
def checksumData (st : WState) (chksum : Option Nat) (checksumSize : Nat) : Bool × Option Nat :=
  if st.success = true then
    match chksum with
    | none => (st.success, none)
    | some c =>
      if checksumSize = 4 then (st.success, some (sum32 c (st.data.take st.totalSize)))
      else if checksumSize = 1 then (st.success, some (xor8 c (st.data.take st.totalSize)))
      else (false, some c)
  else (st.success, chksum)

/-- The result of `WriteElfSection`: its return value, the stream and the
accumulator behind `chksum` afterwards. Where the C code dereferences the `NULL`
accumulator the process ends inside the call and nothing is returned: `fault` is
set, `success` is false and `fd` is the stream as of the fault. -/
structure WResult where
  success : Bool
  fd : FILE
  chksum : Option Nat
  fault : Bool := false
deriving DecidableEq, Repr

/-- The fourth phase of `WriteElfSection`: the section header, written in front
of the data and, for a 32-bit checksum, added to the accumulator. The addition
`*chksum += ...` has no `NULL` test (the checksum phase has one): with the width
4 and no accumulator the header is handed to `fwrite` and the call faults. -/
def writeHeader (st : WState) (success : Bool) (fd : FILE) (addHeader : Bool)
    (chksum : Option Nat) (checksumSize : Nat) : WResult :=
  if success = true ∧ addHeader = true then
    let sechead := u32le st.address ++ u32le st.totalSize
    let w := fwrite sechead fd
    let success := if w.1 ≠ 8 then false else success
    -- 32-bit checksums include the section header data
    if checksumSize = 4 then
      match chksum with
      | none => { success := false, fd := w.2, chksum := none, fault := true }
      | some c =>
        { success := success, fd := w.2,
          chksum := some ((((c + st.address) % 2 ^ 32) + st.totalSize) % 2 ^ 32) }
    else { success := success, fd := w.2, chksum := chksum }
  else { success := success, fd := fd, chksum := chksum }

/-- The last phase of `WriteElfSection`: the `totalSize` bytes of the buffer. -/
def writeData (st : WState) (r : WResult) : WResult :=
  if r.success = true ∧ st.totalSize > 0 then
    let w := fwrite (st.data.take st.totalSize) r.fd
    { success := if w.1 ≠ st.totalSize then false else r.success, fd := w.2, chksum := r.chksum,
      fault := r.fault }
  else r

/-- `WriteElfSection`: write the named sections of an ELF object to an open
stream, optionally with a section header, padded, and folded into a checksum. -/
def WriteElfSection (elf : MyElf_File) (fd : FILE) (sectionNameList : List String)
    (addHeader zeroAddress : Bool) (padto : Nat) (chksum : Option Nat) (checksumSize : Nat) :
    WResult :=
  if sectionNameList.length = 0 then { success := true, fd := fd, chksum := chksum }
  else
    let st := readSections elf zeroAddress sectionNameList
      { success := true, data := [], totalSize := 0, address := 0 }
    let st := padSection padto st
    let c := checksumData st chksum checksumSize
    writeData st (writeHeader st c.1 fd addHeader c.2 checksumSize)

/-! ## Operations -/

/-- `ExportElfSection`: export one section without header, padding or checksum.
The result is the return value and, where the output was opened, the file
written. -/
def ExportElfSection (host : Host) (inFile outFile sectionName : String) : Bool × Option FILE :=
  match host.LoadElf inFile with
  | none => (false, none)
  | some elf =>
    match fopen host outFile with
    | none => (false, none)
    | some fd =>
      let w := WriteElfSection elf fd [sectionName] false false 0 none 0
      (w.success, some w.fd)

/-- One lower-case hexadecimal digit. -/
def hexDigit (d : Nat) : Char :=
  if d < 10 then Char.ofNat (48 + d) else Char.ofNat (87 + d)

/-- The last `w` hexadecimal digits of `v`, zero filled: the conversions `%08x`
and `%02x` for a value that fits. -/
def hexDigits : Nat → Nat → List Char
  | 0, _ => []
  | w + 1, v => hexDigits w (v / 16) ++ [hexDigit (v % 16)]

/-- The conversion `%d` applied to a `uint32_t`, which `printf` reads as an
`int`. -/
def fmtInt (v : Nat) : List Char :=
  let v := v % 2 ^ 32
  if v < 2 ^ 31 then (Nat.repr v).toList else '-' :: (Nat.repr (2 ^ 32 - v)).toList

/-- The identifier `CreateHeaderFile` makes of a section name: `strncpy` into
`char name[31]`, then every '.' up to `strlen(name)` becomes '_'. A name of 31
characters or more fills the array without a terminator; the embedding stops the
identifier at the end of the array. -/
def fixName (name : String) : List Char :=
  (name.toList.take 31).map fun c => if c = '.' then '_' else c

/-- The array initialiser written for the bytes of a section, from index `j`
on: 16 bytes per line. -/
def dataLines : Nat → List Nat → List Char
  | _, [] => []
  | j, b :: rest =>
    (if j % 16 = 0 then "\r\n  0x".toList else " 0x".toList) ++ hexDigits 2 (b % 256) ++ [','] ++
      dataLines (j + 1) rest

/-- The three declarations `CreateHeaderFile` starts a section with. -/
def sectionDecls (sect : MyElf_Section) : List Char :=
  let name := fixName sect.name
  "\nconst uint32_t ".toList ++ name ++ "_addr = 0x".toList ++ hexDigits 8 (sect.address % 2 ^ 32) ++
    ";\nconst uint32_t ".toList ++ name ++ "_len = ".toList ++ fmtInt sect.size ++
    ";\nconst uint8_t  ".toList ++ name ++ "_data[] = \x7b".toList

/-- The loop of `CreateHeaderFile` over the section names, from the current name
on. -/
def headerSections (elf : MyElf_File) : List String → Bool × FILE → Bool × FILE
  | [], r => r
  | sectionName :: rest, (success, fd) =>
    if success = false then (success, fd)
    else
      match elf.GetElfSection sectionName with
      | none => headerSections elf rest (false, fd)
      | some sect =>
        let fd := fprintf fd (sectionDecls sect)
        match elf.GetElfSectionData sect with
        | none => headerSections elf rest (false, fd)
        | some bindata =>
          let fd := fprintf fd (dataLines 0 (bindata.take (sect.size % 2 ^ 32)))
          let fd := fprintf fd "\r\n\x7d;\r\n".toList
          headerSections elf rest (success, fd)

/-- `CreateHeaderFile`: write the named sections as C arrays. -/
def CreateHeaderFile (host : Host) (inFile outFile : String) (sections : List String) :
    Bool × Option FILE :=
  match host.LoadElf inFile with
  | none => (false, none)
  | some elf =>
    match fopen host outFile with
    | none => (false, none)
    | some fd =>
      let fd := fprintf fd "#include <stdint.h>\n".toList
      let fd := fprintf fd
        ("const uint32_t entry_addr = 0x".toList ++ hexDigits 8 (elf.e_entry % 2 ^ 32) ++ ";\n".toList)
      let r := headerSections elf sections (true, fd)
      (r.1, some r.2)

/-- The loop of `CreateBinFile` and of `CreateZbootFile` over the other
sections, one `WriteElfSection` call with a header for each name. -/
def writeOtherSections (elf : MyElf_File) (checksumSize : Nat) : List String → WResult → WResult
  | [], r => r
  | sectionName :: rest, r =>
    if r.success = false then r
    else
      writeOtherSections elf checksumSize rest
        (WriteElfSection elf r.fd [sectionName] true false SECTION_PADDING r.chksum checksumSize)

/-- The ROM sections of `CreateBinFile` and of `CreateZbootFile`: all of them
first, with just one header for all. -/
def writeRomSections (elf : MyElf_File) (checksumSize : Nat) (romSectionList : List String)
    (r : WResult) : WResult :=
  if r.success = true ∧ romSectionList.length > 0 then
    WriteElfSection elf r.fd romSectionList true true SECTION_PADDING r.chksum checksumSize
  else r

/-- The memory image of the `tImageHeader` that `CreateBinFile` fills in. -/
def binImageHeader (elf : MyElf_File) (flashMode flashClock flashSize : Nat)
    (romSectionCount otherSectionCount : Nat) : List Nat :=
  [BIN_MAGIC_FLASH,
   (otherSectionCount + (if romSectionCount > 0 then 1 else 0)) % 256,
   flashMode % 256,
   ((flashSize <<< 4) ||| (flashClock &&& 0xf)) % 256] ++ u32le elf.e_entry

/-- The part of `CreateBinFile` between opening the files and padding the image:
the image header, the ROM sections and the other sections. -/
def binSections (elf : MyElf_File) (fd : FILE) (flashMode flashClock flashSize : Nat)
    (romSectionList otherSectionList : List String) : WResult :=
  let imageHeader := binImageHeader elf flashMode flashClock flashSize
    romSectionList.length otherSectionList.length
  let (n, fd) := fwrite imageHeader fd
  let r : WResult := { success := if n ≠ 8 then false else true, fd := fd, chksum := some CHECKSUM_INIT }
  let r := writeRomSections elf 1 romSectionList r
  writeOtherSections elf 1 otherSectionList r

/-- The end of `CreateBinFile`: the image is padded so that its size with the
checksum is a multiple of `IMAGE_PADDING`, then the checksum byte is written. -/
def binTrailer (r : WResult) : Bool × FILE :=
  if r.success = true then
    let len := ftell r.fd + 1
    let pad := len % IMAGE_PADDING
    let (success, fd) :=
      if pad > 0 then
        let pad := IMAGE_PADDING - pad
        let (n, fd) := fwrite (List.replicate pad 0) r.fd
        (if n ≠ pad then false else true, fd)
      else (true, r.fd)
    if success = true then
      let (n, fd) := fwrite [r.chksum.getD 0] fd
      (if n ≠ 1 then false else true, fd)
    else (success, fd)
  else (false, r.fd)

/-- `CreateBinFile`: the flash image for the ESP8266 boot ROM. -/
def CreateBinFile (host : Host) (inFile outFile : String) (flashMode flashClock flashSize : Nat)
    (romSectionList otherSectionList : List String) : Bool × Option FILE :=
  match host.LoadElf inFile with
  | none => (false, none)
  | some elf =>
    match fopen host outFile with
    | none => (false, none)
    | some fd =>
      let r := binTrailer
        (binSections elf fd flashMode flashClock flashSize romSectionList otherSectionList)
      (r.1, some r.2)

/-- `strncpy(dst, src, n)` into a field of `n` bytes: the string up to its
terminator, cut at `n` bytes, NUL filled. -/
def strncpy (src : List Nat) (n : Nat) : List Nat :=
  let s := src.takeWhile (fun b => b ≠ 0)
  s.take n ++ List.replicate (n - s.length) 0

/-- `strcpy(dst, src)`: the string and its terminator over the start of `dst`. -/
def strcpy (dst src : List Nat) : List Nat :=
  let s := src.takeWhile (fun b => b ≠ 0)
  s ++ [0] ++ dst.drop (s.length + 1)

/-- The memory image of the `tzImageHeader` that `CreateZbootFile` fills in
after `memset` to 0. -/
def zbootImageHeader (elf : MyElf_File) (buildVersion buildDate : Nat)
    (buildDescription : Option (List Nat)) (romSectionCount otherSectionCount : Nat) : List Nat :=
  u32le ZBOOT_MAGIC ++
  u32le (otherSectionCount + (if romSectionCount > 0 then 1 else 0)) ++
  u32le elf.e_entry ++
  u32le buildVersion ++
  u32le buildDate ++
  (u32le 0 ++ u32le 0 ++ u32le 0) ++
  (match buildDescription with
   | some d => strncpy d 88
   | none => strcpy (List.replicate 88 0) ZBOOT_DEFAULT_BUILD_DESCRIPTION)

/-- The part of `CreateZbootFile` between opening the files and writing the
checksum: the image header, folded into the checksum, and the sections. -/
def zbootSections (elf : MyElf_File) (fd : FILE) (buildVersion buildDate : Nat)
    (buildDescription : Option (List Nat)) (romSectionList otherSectionList : List String) :
    WResult :=
  let imageHeader := zbootImageHeader elf buildVersion buildDate buildDescription
    romSectionList.length otherSectionList.length
  let (n, fd) := fwrite imageHeader fd
  let r : WResult :=
    { success := if n ≠ 120 then false else true, fd := fd, chksum := some (sum32 0 imageHeader) }
  let r := writeRomSections elf 4 romSectionList r
  writeOtherSections elf 4 otherSectionList r

/-- `CreateZbootFile`: the image for the zboot bootloader. -/
def CreateZbootFile (host : Host) (inFile outFile : String) (buildVersion buildDate : Nat)
    (buildDescription : Option (List Nat)) (romSectionList otherSectionList : List String) :
    Bool × Option FILE :=
  match host.LoadElf inFile with
  | none => (false, none)
  | some elf =>
    match fopen host outFile with
    | none => (false, none)
    | some fd =>
      let r := zbootSections elf fd buildVersion buildDate buildDescription
        romSectionList otherSectionList
      if r.success = true then
        let (n, fd) := fwrite (u32le (r.chksum.getD 0)) r.fd
        (if n ≠ 4 then false else true, some fd)
      else (false, some r.fd)

/-! ## The layout the formats prescribe

The notions of the format description, stated on their own; the theorems below
relate the code to them. -/

/-- What one name contributes to a group: the bytes of the section it resolves
to, and nothing when the name is absent or the section has size zero. -/
def sectionBytes (elf : MyElf_File) (name : String) : List Nat :=
  match elf.GetElfSection name with
  | none => []
  | some sec => if sec.size = 0 then [] else (elf.GetElfSectionData sec).getD []

/-- The bytes of a group before padding: the contributions of its names in list
order. -/
def concatSections (elf : MyElf_File) : List String → List Nat
  | [] => []
  | name :: rest => sectionBytes elf name ++ concatSections elf rest

/-- The number of padding bytes for length `L` and alignment `A`. -/
def padCount (A L : Nat) : Nat := (A - L % A) % A

/-- The payload of a group: its bytes, then the padding of value `0xA5`. -/
def groupPayload (elf : MyElf_File) (names : List String) (A : Nat) : List Nat :=
  concatSections elf names ++ List.replicate (padCount A (concatSections elf names).length) 0xA5

/-- The load address of the first name that resolves to a non-empty section with
a non-zero load address, 0 when there is none. -/
def firstAddress (elf : MyElf_File) : List String → Nat
  | [] => 0
  | name :: rest =>
    match elf.GetElfSection name with
    | none => firstAddress elf rest
    | some sec =>
      if sec.size = 0 then firstAddress elf rest
      else if sec.address % 2 ^ 32 = 0 then firstAddress elf rest
      else sec.address % 2 ^ 32

/-- The address field of a group. -/
def groupAddress (elf : MyElf_File) (names : List String) (zeroAddress : Bool) : Nat :=
  if zeroAddress = true then 0 else firstAddress elf names

/-- A chunk of an image: the 8-byte header (address, size) and the payload. -/
def chunk (elf : MyElf_File) (names : List String) (zeroAddress : Bool) : List Nat :=
  u32le (groupAddress elf names zeroAddress) ++
    u32le (groupPayload elf names SECTION_PADDING).length ++
    groupPayload elf names SECTION_PADDING

/-- The size of the section a name resolves to, 0 for an absent name. -/
def sectionSizeOf (elf : MyElf_File) (name : String) : Nat :=
  match elf.GetElfSection name with
  | none => 0
  | some sec => sec.size

/-- The total size of the sections a group resolves to. -/
def groupSize (elf : MyElf_File) : List String → Nat
  | [] => 0
  | name :: rest => sectionSizeOf elf name + groupSize elf rest

/-- Every data read of the group succeeds: a name that resolves to a non-empty
section has its bytes returned by `GetElfSectionData`. -/
def readable (elf : MyElf_File) : List String → Bool
  | [] => true
  | name :: rest =>
    (match elf.GetElfSection name with
     | none => true
     | some sec => sec.size = 0 || (elf.GetElfSectionData sec).isSome) && readable elf rest

/-- The contract of `GetElfSectionData` on the names of a group: the buffer
returned for a section holds `size` bytes. -/
def dataSized (elf : MyElf_File) : List String → Bool
  | [] => true
  | name :: rest =>
    (match elf.GetElfSection name with
     | none => true
     | some sec =>
       match elf.GetElfSectionData sec with
       | none => true
       | some buffer => buffer.length = sec.size) && dataSized elf rest

/-- The checksum accumulator after a successful `WriteElfSection` call, in terms
of the group's address field and payload. -/
def foldedChecksum (chksum : Option Nat) (checksumSize : Nat) (addHeader : Bool) (address : Nat)
    (payload : List Nat) : Option Nat :=
  match chksum with
  | none => none
  | some c =>
    if checksumSize = 4 then
      some (if addHeader = true then
              ((sum32 c payload + address) % 2 ^ 32 + payload.length) % 2 ^ 32
            else sum32 c payload)
    else some (xor8 c payload)

/-- The chunks of the other sections of an image: one chunk for each name. -/
def otherChunks (elf : MyElf_File) : List String → List Nat
  | [] => []
  | name :: rest => chunk elf [name] false ++ otherChunks elf rest

/-- The payloads of the other sections of an image, one after another. -/
def otherPayloads (elf : MyElf_File) : List String → List Nat
  | [] => []
  | name :: rest => groupPayload elf [name] SECTION_PADDING ++ otherPayloads elf rest

/-- The chunk of the ROM sections of an image: none for an empty list. -/
def romChunk (elf : MyElf_File) (romSectionList : List String) : List Nat :=
  if romSectionList = [] then [] else chunk elf romSectionList true

/-- Each of the other sections, padded, fits a 32-bit size. -/
def otherFit (elf : MyElf_File) : List String → Bool
  | [] => true
  | name :: rest => decide (sectionSizeOf elf name + SECTION_PADDING < 2 ^ 32) && otherFit elf rest

/-- The sizes of an image's groups fit the 32-bit arithmetic of the tool: the
ROM sections together and each other section, with room for the padding. -/
def sectionsFit (elf : MyElf_File) (romSectionList otherSectionList : List String) : Bool :=
  decide (groupSize elf romSectionList + SECTION_PADDING < 2 ^ 32) && otherFit elf otherSectionList

/-- The little-endian 32-bit words of a byte sequence (a last incomplete word
is completed with zero bytes). -/
def words32 : List Nat → List Nat
  | [] => []
  | [b0] => [le32 b0 0 0 0]
  | [b0, b1] => [le32 b0 b1 0 0]
  | [b0, b1, b2] => [le32 b0 b1 b2 0]
  | b0 :: b1 :: b2 :: b3 :: rest => le32 b0 b1 b2 b3 :: words32 rest

/-- The sum modulo `2 ^ 32` of the little-endian 32-bit words of a byte
sequence, starting from 0. -/
def wordSum (bytes : List Nat) : Nat := (words32 bytes).sum % 2 ^ 32

/-- Every data read of the header-file exporter succeeds: a name that resolves
to a section, empty or not, has its bytes returned by `GetElfSectionData`. -/
def headerReadable (elf : MyElf_File) : List String → Bool
  | [] => true
  | name :: rest =>
    (match elf.GetElfSection name with
     | none => true
     | some sec => (elf.GetElfSectionData sec).isSome) && headerReadable elf rest

/-! ## Sample inputs -/

/-- The ELF object of end-to-end scenario 1: one section "A" of 10 bytes at
address 0x1000. -/
def scenario1Elf : MyElf_File :=
  { e_entry := 0x40100000,
    GetElfSection := fun n => if n = "A" then some ⟨0x34, 0x1000, 10, "A"⟩ else none,
    GetElfSectionData := fun s => if s.name = "A" then some [1, 2, 3, 4, 5, 6, 7, 8, 9, 10] else none }

/-- The ELF object of end-to-end scenario 2: one section "B" of 4 bytes. -/
def scenario2Elf : MyElf_File :=
  { e_entry := 0x40100000,
    GetElfSection := fun n => if n = "B" then some ⟨0x34, 0x3ffe8000, 4, "B"⟩ else none,
    GetElfSectionData := fun s => if s.name = "B" then some [0xde, 0xad, 0xbe, 0xef] else none }

/-- The sections of a small application: name, load address and bytes. -/
def appSections : List (MyElf_Section × List Nat) :=
  [(⟨0x1000, 0x40210000, 6, ".irom0.text"⟩, [0x12, 0xc1, 0xf0, 0x09, 0x01, 0x0d]),
   (⟨0x2000, 0x40100000, 5, ".text"⟩, [0x36, 0x41, 0x00, 0x1d, 0xf0]),
   (⟨0x3000, 0x3ffe8000, 4, ".data"⟩, [0x01, 0x00, 0x00, 0x80]),
   (⟨0x3004, 0x3ffe8004, 0, ".rodata"⟩, [])]

/-- A small application with four sections, one of them empty. -/
def appElf : MyElf_File :=
  { e_entry := 0x40100004,
    GetElfSection := fun n => (appSections.find? fun s => s.1.name = n).map Prod.fst,
    GetElfSectionData := fun sec => (appSections.find? fun s => s.1 = sec).map Prod.snd }

/-- A host with the three ELF objects above; the output "/ro/out" does not
open, the output "small.bin" takes 16 bytes, any other output takes all that is
written. -/
def sampleHost : Host :=
  { LoadElf := fun p =>
      if p = "scenario1.elf" then some scenario1Elf
      else if p = "scenario2.elf" then some scenario2Elf
      else if p = "app.elf" then some appElf
      else none,
    openRoom := fun p =>
      if p = "/ro/out" then none else if p = "small.bin" then some (some 16) else some none }

/-- The load address of the first name that resolves to a non-empty section, 0
when there is none: the address the format description gives a group. -/
def firstNonEmptyAddress (elf : MyElf_File) : List String → Nat
  | [] => 0
  | name :: rest =>
    match elf.GetElfSection name with
    | none => firstNonEmptyAddress elf rest
    | some sec => if sec.size = 0 then firstNonEmptyAddress elf rest else sec.address % 2 ^ 32

/-- A reader of an image at a chunk: it takes the 8-byte chunk header, reads the
size field and skips that many bytes; the result is what is left to read, `none`
when the image ends before. -/
def skipChunk : List Nat → Option (List Nat)
  | _ :: _ :: _ :: _ :: s0 :: s1 :: s2 :: s3 :: rest =>
    if le32 s0 s1 s2 s3 ≤ rest.length then some (rest.drop (le32 s0 s1 s2 s3)) else none
  | _ => none

/-- The identifier the format description gives a section name: its first 30
characters with every '.' replaced by '_'. -/
def identifierOf (name : String) : List Char :=
  (name.toList.take 30).map fun c => if c = '.' then '_' else c

/-- Folding the chunks of a buffer into an 8-bit checksum one after another, as
the flash encoder does with one `WriteElfSection` call per section. -/
def xor8Chunks (chk : Nat) (chunks : List (List Nat)) : Nat :=
  chunks.foldl xor8 chk

/-- An ELF object whose first section is loaded at address 0. -/
def zeroBaseElf : MyElf_File :=
  { e_entry := 0x40100000,
    GetElfSection := fun n =>
      if n = ".vectors" then some ⟨0x34, 0, 4, ".vectors"⟩
      else if n = ".text" then some ⟨0x38, 0x40100000, 4, ".text"⟩
      else none,
    GetElfSectionData := fun s =>
      if s.name = ".vectors" then some [1, 2, 3, 4]
      else if s.name = ".text" then some [5, 6, 7, 8]
      else none }

/-- A reader of an image at a run of chunks: `skipChunk`, `count` times. -/
def skipChunks : Nat → List Nat → Option (List Nat)
  | 0, bytes => some bytes
  | count + 1, bytes =>
    match skipChunk bytes with
    | none => none
    | some rest => skipChunks count rest

/-- The groups of an image in the order they are written: the ROM sections as
one group when there are any, then each other section as a group of its own. -/
def imageGroups (romSectionList otherSectionList : List String) : List (List String) :=
  (if romSectionList = [] then [] else [romSectionList]) ++ otherSectionList.map fun n => [n]

/-- A name gives a group no address: it is absent, or resolves to an empty
section, or to a section whose load address is 0. -/
def givesNoAddress (elf : MyElf_File) (name : String) : Bool :=
  match elf.GetElfSection name with
  | none => true
  | some sec => sec.size = 0 || sec.address % 2 ^ 32 = 0

/-- A name gives a group no bytes: it is absent, or resolves to a section of size
zero. -/
def givesNoBytes (elf : MyElf_File) (name : String) : Bool :=
  match elf.GetElfSection name with
  | none => true
  | some sec => sec.size = 0

/-- The sections of the small application linked at other load addresses: the
same names, sizes and bytes. -/
def movedSections : List (MyElf_Section × List Nat) :=
  [(⟨0x1000, 0x40220000, 6, ".irom0.text"⟩, [0x12, 0xc1, 0xf0, 0x09, 0x01, 0x0d]),
   (⟨0x2000, 0x40108000, 5, ".text"⟩, [0x36, 0x41, 0x00, 0x1d, 0xf0]),
   (⟨0x3000, 0x3ffe9000, 4, ".data"⟩, [0x01, 0x00, 0x00, 0x80]),
   (⟨0x3004, 0x3ffe9004, 0, ".rodata"⟩, [])]

/-- The small application linked at other load addresses, with another entry
address. -/
def movedElf : MyElf_File :=
  { e_entry := 0x40108004,
    GetElfSection := fun n => (movedSections.find? fun s => s.1.name = n).map Prod.fst,
    GetElfSectionData := fun sec => (movedSections.find? fun s => s.1 = sec).map Prod.snd }

/-- A host that loads the relinked application from any path and takes all that
is written. -/
def movedHost : Host :=
  { LoadElf := fun _ => some movedElf,
    openRoom := fun _ => some none }

/-! ## The section reader -/

theorem readSections_failed (elf : MyElf_File) (za : Bool) (names : List String) (st : WState)
    (h : st.success = false) : readSections elf za names st = st := by
  cases names with
  | nil => rfl
  | cons n rest => simp [readSections, h]

theorem readSections_spec (elf : MyElf_File) (za : Bool) :
    ∀ (names : List String) (st : WState), st.success = true →
      dataSized elf names = true → st.data.length = st.totalSize →
      st.totalSize + groupSize elf names < 2 ^ 32 →
      (readSections elf za names st).success = readable elf names ∧
      ((readSections elf za names st).success = true →
        (readSections elf za names st).data = st.data ++ concatSections elf names ∧
        (readSections elf za names st).totalSize = st.totalSize + groupSize elf names ∧
        (readSections elf za names st).address =
          if za = true then st.address
          else if st.address = 0 then firstAddress elf names else st.address) := by
  intro names
  induction names with
  | nil =>
    intro st hs _ _ _
    simp only [readSections, readable, concatSections, groupSize, firstAddress, hs,
      List.append_nil, Nat.add_zero, true_and, and_self]
    intro _
    split_ifs <;> simp_all
  | cons n rest ih =>
    intro st hs hd hl hf
    simp only [dataSized, Bool.and_eq_true] at hd
    obtain ⟨hd1, hd2⟩ := hd
    simp only [groupSize, sectionSizeOf] at hf
    cases hsec : elf.GetElfSection n with
    | none =>
      simp only [hsec] at hf
      have := ih st hs hd2 hl (by omega)
      simpa [readSections, readable, concatSections, sectionBytes, groupSize, sectionSizeOf,
        firstAddress, hs, hsec] using this
    | some sec =>
      simp only [hsec] at hf hd1
      by_cases hz : sec.size = 0
      · have := ih st hs hd2 hl (by omega)
        simpa [readSections, readable, concatSections, sectionBytes, groupSize, sectionSizeOf,
          firstAddress, hs, hsec, hz] using this
      · cases hbuf : elf.GetElfSectionData sec with
        | none =>
          simp [readSections, readable, hs, hsec, hz, hbuf, readSections_failed]
        | some buffer =>
          simp only [hbuf, decide_eq_true_eq] at hd1
          have hmod : (st.totalSize + sec.size) % 2 ^ 32 = st.totalSize + sec.size :=
            Nat.mod_eq_of_lt (by omega)
          have hstep : readSections elf za (n :: rest) st =
              readSections elf za rest
                { success := true, data := st.data ++ buffer,
                  totalSize := st.totalSize + sec.size,
                  address := if za = false ∧ st.address = 0 then sec.address % 2 ^ 32
                             else st.address } := by
            have ht : buffer.take sec.size = buffer := by rw [← hd1]; exact List.take_length _
            have hmod2 : (st.totalSize + sec.size) % 4294967296 = st.totalSize + sec.size := hmod
            simp [readSections, hs, hsec, hz, hbuf, hmod2, ht]
          have := ih { success := true, data := st.data ++ buffer,
                       totalSize := st.totalSize + sec.size,
                       address := if za = false ∧ st.address = 0 then sec.address % 2 ^ 32
                                  else st.address } rfl hd2
            (by simp [hd1, hl]) (by simp only []; omega)
          rw [hstep]
          obtain ⟨h1, h2⟩ := this
          refine ⟨by simpa [readable, hsec, hz, hbuf] using h1, ?_⟩
          intro hsucc
          obtain ⟨e1, e2, e3⟩ := h2 hsucc
          refine ⟨?_, ?_, ?_⟩
          · rw [e1]; simp [concatSections, sectionBytes, hsec, hz, hbuf]
          · rw [e2]; simp only [groupSize, sectionSizeOf, hsec]; omega
          · rw [e3]
            simp only [firstAddress, hsec, hz, if_false]
            cases za <;> by_cases ha : st.address = 0 <;>
              by_cases hb : sec.address % 2 ^ 32 = 0 <;> simp [ha, hb]

/-! ## Writes to the output stream -/

theorem fwrite_unbounded (buf : List Nat) (fd : FILE) (h : fd.room = none) :
    fwrite buf fd = (buf.length, { bytes := fd.bytes ++ buf, room := none }) := by
  simp [fwrite, h]

theorem fwrite_complete (buf : List Nat) (fd : FILE) (h : (fwrite buf fd).1 = buf.length) :
    (fwrite buf fd).2.bytes = fd.bytes ++ buf := by
  unfold fwrite at h ⊢
  cases hr : fd.room with
  | none => simp
  | some r =>
    simp only [hr] at h ⊢
    have : buf.length ≤ r := by omega
    simp [List.take_of_length_le this]

/-! ## Padding -/

theorem padCount_lt (A L : Nat) (hA : 0 < A) : padCount A L < A :=
  Nat.mod_lt _ hA

theorem padCount_zero (L : Nat) : padCount 0 L = 0 := by
  simp [padCount]

theorem padCount_aligned (A L : Nat) (hA : 0 < A) : (L + padCount A L) % A = 0 := by
  · unfold padCount
    have hlt : L % A < A := Nat.mod_lt _ hA
    by_cases h0 : L % A = 0
    · simp [h0]
    · have h1 : (A - L % A) % A = A - L % A := Nat.mod_eq_of_lt (by omega)
      rw [h1]
      have h2 : L + (A - L % A) = A * (L / A) + A := by
        have := Nat.div_add_mod L A
        omega
      rw [h2]
      simp

theorem padSection_spec (padto : Nat) (st : WState) (hs : st.success = true)
    (hf : st.totalSize + padto < 2 ^ 32) :
    padSection padto st =
      { st with data := st.data ++ List.replicate (padCount padto st.totalSize) 0xa5,
                totalSize := st.totalSize + padCount padto st.totalSize } := by
  obtain ⟨s, d, t, a⟩ := st
  simp only at hs hf
  subst hs
  unfold padSection
  simp only
  rcases Nat.eq_zero_or_pos padto with hA | hA
  · subst hA; simp [padCount]
  · have hlt : t % padto < padto := Nat.mod_lt _ hA
    by_cases h0 : t % padto = 0
    · simp [hA, h0, padCount]
    · have h1 : (padto - t % padto) % padto = padto - t % padto :=
        Nat.mod_eq_of_lt (by omega)
      have h2 : (t + (padto - t % padto)) % 4294967296 =
          t + (padto - t % padto) := Nat.mod_eq_of_lt (by omega)
      have h3 : 0 < t % padto := Nat.pos_of_ne_zero h0
      simp [hA, h3, padCount, h1, h2]

theorem padSection_failed (padto : Nat) (st : WState) (hs : st.success = false) :
    padSection padto st = st := by
  simp [padSection, hs]

/-! ## The phases of `WriteElfSection` -/

theorem u32le_length (v : Nat) : (u32le v).length = 4 := rfl

theorem checksumData_success (st : WState) (chk : Option Nat) (csz : Nat)
    (h : (checksumData st chk csz).1 = true) :
    st.success = true ∧ (chk = none ∨ csz = 4 ∨ csz = 1) ∧
    (checksumData st chk csz).2 =
      match chk with
      | none => none
      | some c => if csz = 4 then some (sum32 c (st.data.take st.totalSize))
                  else some (xor8 c (st.data.take st.totalSize)) := by
  unfold checksumData at h ⊢
  by_cases hs : st.success = true
  · cases chk with
    | none => simp [hs]
    | some c =>
      by_cases h4 : csz = 4
      · simp [hs, h4]
      · by_cases h1 : csz = 1
        · simp [hs, h1]
        · simp [hs, h4, h1] at h
  · simp [hs] at h

theorem writeHeader_success (st : WState) (s : Bool) (fd : FILE) (ah : Bool) (chk : Option Nat)
    (csz : Nat) (h : (writeHeader st s fd ah chk csz).success = true) :
    s = true ∧
    (writeHeader st s fd ah chk csz).fd.bytes =
      fd.bytes ++ (if ah = true then u32le st.address ++ u32le st.totalSize else []) ∧
    (writeHeader st s fd ah chk csz).chksum =
      if ah = true ∧ csz = 4 then
        chk.map fun c => (((c + st.address) % 2 ^ 32) + st.totalSize) % 2 ^ 32
      else chk := by
  unfold writeHeader at h ⊢
  by_cases hs : s = true
  · subst hs
    cases ah with
    | false => simp
    | true =>
      simp only [and_self, if_true] at h ⊢
      by_cases h4 : csz = 4
      · cases chk with
        | none => simp [h4] at h
        | some c =>
          by_cases hn : (fwrite (u32le st.address ++ u32le st.totalSize) fd).1 = 8
          · refine ⟨trivial, ?_, ?_⟩
            · simp only [h4, if_true]
              exact fwrite_complete _ _ hn
            · simp [h4]
          · simp [hn, h4] at h
      · by_cases hn : (fwrite (u32le st.address ++ u32le st.totalSize) fd).1 = 8
        · refine ⟨trivial, ?_, ?_⟩
          · simp only [h4, if_false]
            exact fwrite_complete _ _ hn
          · simp [h4]
        · simp [hn, h4] at h
  · simp only [Bool.not_eq_true] at hs
    subst hs
    simp at h

theorem writeData_success (st : WState) (r : WResult) (hl : st.data.length = st.totalSize)
    (h : (writeData st r).success = true) :
    r.success = true ∧ (writeData st r).fd.bytes = r.fd.bytes ++ st.data ∧
    (writeData st r).chksum = r.chksum := by
  unfold writeData at h ⊢
  have ht : st.data.take st.totalSize = st.data := by rw [← hl]; exact List.take_length _
  by_cases hs : r.success = true
  · by_cases hz : st.totalSize > 0
    · simp only [hs, hz, and_self, if_true, ht] at h ⊢
      by_cases hn : (fwrite st.data r.fd).1 = st.totalSize
      · refine ⟨trivial, ?_, trivial⟩
        exact fwrite_complete _ _ (by rw [hn, hl])
      · simp [hn] at h
    · have : st.data = [] := by
        apply List.eq_nil_of_length_eq_zero; omega
      simp [hs, hz, this]
  · simp only [hs, false_and, if_false] at h
    exact absurd h hs

theorem writeData_success_flag (st : WState) (r : WResult)
    (h : (writeData st r).success = true) : r.success = true := by
  unfold writeData at h
  by_cases hs : r.success = true
  · exact hs
  · simp only [hs, false_and, if_false] at h
    exact absurd h hs

theorem padSection_success (padto : Nat) (st : WState) :
    (padSection padto st).success = st.success := by
  unfold padSection
  simp only []
  split_ifs <;> rfl

theorem concatSections_length (elf : MyElf_File) :
    ∀ names : List String, readable elf names = true → dataSized elf names = true →
      (concatSections elf names).length = groupSize elf names := by
  intro names
  induction names with
  | nil => intro _ _; rfl
  | cons n rest ih =>
    intro hr hd
    simp only [readable, dataSized, Bool.and_eq_true] at hr hd
    have := ih hr.2 hd.2
    simp only [concatSections, groupSize, sectionBytes, sectionSizeOf, List.length_append, this]
    cases hsec : elf.GetElfSection n with
    | none => simp
    | some sec =>
      by_cases hz : sec.size = 0
      · simp [hz]
      · cases hbuf : elf.GetElfSectionData sec with
        | none => simp [hsec, hz, hbuf] at hr
        | some buffer =>
          have := hd.1
          simp only [hsec, hbuf, decide_eq_true_eq] at this
          simp [hz, this, hbuf]

/-! ## What a successful `WriteElfSection` call writes -/

theorem WriteElfSection_spec (elf : MyElf_File) (fd : FILE) (names : List String)
    (ah za : Bool) (padto : Nat) (chk : Option Nat) (csz : Nat)
    (hne : names ≠ []) (hd : dataSized elf names = true)
    (hf : groupSize elf names + padto < 2 ^ 32)
    (hok : (WriteElfSection elf fd names ah za padto chk csz).success = true) :
    readable elf names = true ∧ (chk = none ∨ csz = 4 ∨ csz = 1) ∧
    (WriteElfSection elf fd names ah za padto chk csz).fd.bytes =
      fd.bytes ++
        (if ah = true then
          u32le (groupAddress elf names za) ++ u32le (groupPayload elf names padto).length
         else []) ++ groupPayload elf names padto ∧
    (WriteElfSection elf fd names ah za padto chk csz).chksum =
      foldedChecksum chk csz ah (groupAddress elf names za) (groupPayload elf names padto) := by
  have hlen : ¬ names.length = 0 := by
    intro h; exact hne (List.eq_nil_of_length_eq_zero h)
  have hW : WriteElfSection elf fd names ah za padto chk csz =
      writeData (padSection padto (readSections elf za names ⟨true, [], 0, 0⟩))
        (writeHeader (padSection padto (readSections elf za names ⟨true, [], 0, 0⟩))
          (checksumData (padSection padto (readSections elf za names ⟨true, [], 0, 0⟩)) chk csz).1
          fd ah
          (checksumData (padSection padto (readSections elf za names ⟨true, [], 0, 0⟩)) chk csz).2
          csz) := by
    simp only [WriteElfSection, hlen, if_false]
  rw [hW] at hok ⊢
  have h1 := writeData_success_flag _ _ hok
  have h2 := writeHeader_success _ _ _ _ _ _ h1
  have h3 := checksumData_success _ _ _ h2.1
  have h4 : (readSections elf za names ⟨true, [], 0, 0⟩).success = true := by
    rw [← padSection_success padto]; exact h3.1
  obtain ⟨hr1, hr2⟩ := readSections_spec elf za names ⟨true, [], 0, 0⟩ rfl hd rfl
    (by simp only [Nat.zero_add]; omega)
  have hrd : readable elf names = true := by rw [← hr1]; exact h4
  obtain ⟨e1, e2, e3⟩ := hr2 h4
  simp only [List.nil_append, Nat.zero_add] at e1 e2
  have hcl := concatSections_length elf names hrd hd
  have hpad := padSection_spec padto (readSections elf za names ⟨true, [], 0, 0⟩) h4
    (by rw [e2]; exact hf)
  rw [e1, e2] at hpad
  have haddr : (readSections elf za names ⟨true, [], 0, 0⟩).address = groupAddress elf names za := by
    rw [e3]; cases za <;> simp [groupAddress]
  -- the padded state
  have hdata : (padSection padto (readSections elf za names ⟨true, [], 0, 0⟩)).data =
      groupPayload elf names padto := by
    rw [hpad]; simp [groupPayload, hcl]
  have htot : (padSection padto (readSections elf za names ⟨true, [], 0, 0⟩)).totalSize =
      (groupPayload elf names padto).length := by
    rw [hpad]; simp [groupPayload, hcl]
  have hadr : (padSection padto (readSections elf za names ⟨true, [], 0, 0⟩)).address =
      groupAddress elf names za := by
    rw [hpad]; exact haddr
  clear hW hpad
  generalize padSection padto (readSections elf za names ⟨true, [], 0, 0⟩) = st at *
  obtain ⟨s, d, t, a⟩ := st
  simp only at hdata htot hadr
  subst hdata htot hadr
  have h5 := writeData_success _ _ rfl hok
  refine ⟨hrd, h3.2.1, ?_, ?_⟩
  · rw [h5.2.1, h2.2.1]
  · rw [h5.2.2, h2.2.2, h3.2.2]
    simp only [List.take_length]
    cases chk with
    | none => cases ah <;> simp [foldedChecksum]
    | some c =>
      by_cases hc4 : csz = 4
      · cases ah <;> simp [foldedChecksum, hc4]
      · cases ah <;> simp [foldedChecksum, hc4]

/-! ## The accumulator stays in place -/

theorem checksumData_isSome (st : WState) (chk : Option Nat) (csz : Nat) :
    (checksumData st chk csz).2.isSome = chk.isSome := by
  unfold checksumData
  cases chk with
  | none => split_ifs <;> rfl
  | some c => split_ifs <;> rfl

theorem WriteElfSection_isSome (elf : MyElf_File) (fd : FILE) (names : List String)
    (ah za : Bool) (padto : Nat) (chk : Option Nat) (csz : Nat) :
    (WriteElfSection elf fd names ah za padto chk csz).chksum.isSome = chk.isSome := by
  unfold WriteElfSection
  by_cases hlen : names.length = 0
  · simp [hlen]
  · simp only [hlen, if_false]
    have hd : ∀ (st : WState) (r : WResult), (writeData st r).chksum = r.chksum := by
      intro st r; unfold writeData; split_ifs <;> rfl
    have hh : ∀ (st : WState) (s : Bool) (fd : FILE) (ah : Bool) (chk : Option Nat) (csz : Nat),
        (writeHeader st s fd ah chk csz).chksum.isSome = chk.isSome := by
      intro st s fd ah chk csz; unfold writeHeader
      cases chk <;> split_ifs <;> simp
    rw [hd, hh, checksumData_isSome]

theorem writeOtherSections_isSome (elf : MyElf_File) (csz : Nat) :
    ∀ (other : List String) (r : WResult),
      (writeOtherSections elf csz other r).chksum.isSome = r.chksum.isSome := by
  intro other
  induction other with
  | nil => intro r; rfl
  | cons n rest ih =>
    intro r
    simp only [writeOtherSections]
    split_ifs
    · rfl
    · rw [ih, WriteElfSection_isSome]

theorem writeRomSections_isSome (elf : MyElf_File) (csz : Nat) (rom : List String) (r : WResult) :
    (writeRomSections elf csz rom r).chksum.isSome = r.chksum.isSome := by
  unfold writeRomSections
  split_ifs
  · rw [WriteElfSection_isSome]
  · rfl

theorem binSections_isSome (elf : MyElf_File) (fd : FILE) (fm fc fs : Nat)
    (rom other : List String) :
    (binSections elf fd fm fc fs rom other).chksum.isSome = true := by
  unfold binSections
  simp only
  rw [writeOtherSections_isSome, writeRomSections_isSome]
  rfl

/-! ## Success of `WriteElfSection` on an unbounded device -/

theorem checksumData_flag (st : WState) (chk : Option Nat) (csz : Nat)
    (hs : st.success = true) (hc : chk = none ∨ csz = 4 ∨ csz = 1) :
    (checksumData st chk csz).1 = true := by
  unfold checksumData
  rcases hc with h | h | h
  · simp [hs, h]
  · cases chk <;> simp [hs, h]
  · cases chk <;> simp [hs, h]

theorem writeHeader_unbounded (st : WState) (s : Bool) (fd : FILE) (ah : Bool) (chk : Option Nat)
    (csz : Nat) (hroom : fd.room = none)
    (hnf : ah = false ∨ csz ≠ 4 ∨ chk.isSome = true) :
    (writeHeader st s fd ah chk csz).success = s ∧
    (writeHeader st s fd ah chk csz).fd.room = none := by
  unfold writeHeader
  by_cases h : s = true ∧ ah = true
  · by_cases h4 : csz = 4
    · cases chk with
      | none =>
        rcases hnf with h1 | h1 | h1
        · rw [h1] at h; exact absurd h.2 (by decide)
        · exact absurd h4 h1
        · exact absurd h1 (by decide)
      | some c => simp [h, h4, fwrite_unbounded _ _ hroom, u32le]
    · simp [h, h4, fwrite_unbounded _ _ hroom, u32le]
  · simp [h, hroom]

theorem writeData_unbounded (st : WState) (r : WResult) (hl : st.data.length = st.totalSize)
    (hroom : r.fd.room = none) :
    (writeData st r).success = r.success ∧ (writeData st r).fd.room = none := by
  unfold writeData
  have ht : st.data.take st.totalSize = st.data := by rw [← hl]; exact List.take_length _
  by_cases h : r.success = true ∧ st.totalSize > 0
  · simp [h, ht, fwrite_unbounded _ _ hroom, hl]
  · simp [h, hroom]

theorem WriteElfSection_unbounded (elf : MyElf_File) (fd : FILE) (names : List String)
    (ah za : Bool) (padto : Nat) (chk : Option Nat) (csz : Nat)
    (hroom : fd.room = none) (hr : readable elf names = true)
    (hd : dataSized elf names = true) (hf : groupSize elf names + padto < 2 ^ 32)
    (hc : chk = none ∨ csz = 4 ∨ csz = 1)
    (hnf : ah = false ∨ csz ≠ 4 ∨ chk.isSome = true) :
    (WriteElfSection elf fd names ah za padto chk csz).success = true ∧
    (WriteElfSection elf fd names ah za padto chk csz).fd.room = none := by
  by_cases hlen : names.length = 0
  · simp [WriteElfSection, hlen, hroom]
  have hW : WriteElfSection elf fd names ah za padto chk csz =
      writeData (padSection padto (readSections elf za names ⟨true, [], 0, 0⟩))
        (writeHeader (padSection padto (readSections elf za names ⟨true, [], 0, 0⟩))
          (checksumData (padSection padto (readSections elf za names ⟨true, [], 0, 0⟩)) chk csz).1
          fd ah
          (checksumData (padSection padto (readSections elf za names ⟨true, [], 0, 0⟩)) chk csz).2
          csz) := by
    simp only [WriteElfSection, hlen, if_false]
  rw [hW]
  obtain ⟨hr1, hr2⟩ := readSections_spec elf za names ⟨true, [], 0, 0⟩ rfl hd rfl
    (by simp only [Nat.zero_add]; omega)
  have h4 : (readSections elf za names ⟨true, [], 0, 0⟩).success = true := by rw [hr1]; exact hr
  obtain ⟨e1, e2, _⟩ := hr2 h4
  simp only [List.nil_append, Nat.zero_add] at e1 e2
  have hcl := concatSections_length elf names hr hd
  have hpad := padSection_spec padto (readSections elf za names ⟨true, [], 0, 0⟩) h4
    (by rw [e2]; exact hf)
  rw [e1, e2] at hpad
  have hlen2 : (padSection padto (readSections elf za names ⟨true, [], 0, 0⟩)).data.length =
      (padSection padto (readSections elf za names ⟨true, [], 0, 0⟩)).totalSize := by
    rw [hpad]; simp [hcl]
  have hsucc : (padSection padto (readSections elf za names ⟨true, [], 0, 0⟩)).success = true := by
    rw [padSection_success]; exact h4
  have hh := writeHeader_unbounded
    (padSection padto (readSections elf za names ⟨true, [], 0, 0⟩))
    (checksumData (padSection padto (readSections elf za names ⟨true, [], 0, 0⟩)) chk csz).1
    fd ah
    (checksumData (padSection padto (readSections elf za names ⟨true, [], 0, 0⟩)) chk csz).2
    csz hroom (by rw [checksumData_isSome]; exact hnf)
  have hw := writeData_unbounded _ _ hlen2 hh.2
  refine ⟨?_, hw.2⟩
  rw [hw.1, hh.1]
  exact checksumData_flag _ _ _ hsucc hc

/-! ## The loops of the image encoders -/

theorem xor8_append (c : Nat) (a b : List Nat) : xor8 c (a ++ b) = xor8 (xor8 c a) b := by
  simp [xor8, List.foldl_append]

theorem groupSize_single (elf : MyElf_File) (n : String) :
    groupSize elf [n] = sectionSizeOf elf n := by
  simp [groupSize]

theorem dataSized_single (elf : MyElf_File) (n : String) (rest : List String)
    (h : dataSized elf (n :: rest) = true) :
    dataSized elf [n] = true ∧ dataSized elf rest = true := by
  simp only [dataSized, Bool.and_eq_true, Bool.and_true] at h ⊢
  exact h

theorem dataSized_append (elf : MyElf_File) (a b : List String) :
    dataSized elf (a ++ b) = (dataSized elf a && dataSized elf b) := by
  induction a with
  | nil => simp [dataSized]
  | cons n rest ih => simp [dataSized, ih, Bool.and_assoc]

theorem readable_append (elf : MyElf_File) (a b : List String) :
    readable elf (a ++ b) = (readable elf a && readable elf b) := by
  induction a with
  | nil => simp [readable]
  | cons n rest ih => simp [readable, ih, Bool.and_assoc]

theorem writeOtherSections_failed (elf : MyElf_File) (csz : Nat) (other : List String)
    (r : WResult) (h : r.success = false) : writeOtherSections elf csz other r = r := by
  cases other with
  | nil => rfl
  | cons n rest => simp [writeOtherSections, h]

/-- The accumulator after the loop over the other sections. -/
theorem writeOtherSections_spec (elf : MyElf_File) (csz : Nat) :
    ∀ (other : List String) (r : WResult),
      dataSized elf other = true → otherFit elf other = true →
      (writeOtherSections elf csz other r).success = true →
      r.success = true ∧ readable elf other = true ∧
      (writeOtherSections elf csz other r).fd.bytes = r.fd.bytes ++ otherChunks elf other := by
  intro other
  induction other with
  | nil =>
    intro r _ _ h
    simpa [writeOtherSections, readable, otherChunks] using h
  | cons n rest ih =>
    intro r hd hf h
    by_cases hs : r.success = true
    · have hstep : writeOtherSections elf csz (n :: rest) r =
          writeOtherSections elf csz rest
            (WriteElfSection elf r.fd [n] true false SECTION_PADDING r.chksum csz) := by
        simp [writeOtherSections, hs]
      rw [hstep] at h ⊢
      obtain ⟨hd1, hd2⟩ := dataSized_single elf n rest hd
      simp only [otherFit, Bool.and_eq_true, decide_eq_true_eq] at hf
      obtain ⟨h1, h2, h3⟩ := ih _ hd2 hf.2 h
      obtain ⟨w1, _, w3, _⟩ := WriteElfSection_spec elf r.fd [n] true false SECTION_PADDING
        r.chksum csz (by simp) hd1 (by rw [groupSize_single]; exact hf.1) h1
      refine ⟨hs, ?_, ?_⟩
      · have := readable_append elf [n] rest
        simp only [List.singleton_append] at this
        rw [this, w1, h2]; rfl
      · rw [h3, w3]
        simp [otherChunks, chunk]
    · simp only [Bool.not_eq_true] at hs
      rw [writeOtherSections_failed elf csz _ r hs] at h
      rw [hs] at h
      exact absurd h (by simp)

theorem writeOtherSections_xor (elf : MyElf_File) :
    ∀ (other : List String) (r : WResult) (c : Nat),
      dataSized elf other = true → otherFit elf other = true → r.chksum = some c →
      (writeOtherSections elf 1 other r).success = true →
      (writeOtherSections elf 1 other r).chksum = some (xor8 c (otherPayloads elf other)) := by
  intro other
  induction other with
  | nil =>
    intro r c _ _ hc _
    simpa [writeOtherSections, otherPayloads, xor8] using hc
  | cons n rest ih =>
    intro r c hd hf hc h
    obtain ⟨hs, _, _⟩ := writeOtherSections_spec elf 1 (n :: rest) r hd hf h
    have hstep : writeOtherSections elf 1 (n :: rest) r =
        writeOtherSections elf 1 rest
          (WriteElfSection elf r.fd [n] true false SECTION_PADDING r.chksum 1) := by
      simp [writeOtherSections, hs]
    rw [hstep] at h ⊢
    obtain ⟨hd1, hd2⟩ := dataSized_single elf n rest hd
    simp only [otherFit, Bool.and_eq_true, decide_eq_true_eq] at hf
    obtain ⟨h1, _, _⟩ := writeOtherSections_spec elf 1 rest _ hd2 hf.2 h
    obtain ⟨_, _, _, w4⟩ := WriteElfSection_spec elf r.fd [n] true false SECTION_PADDING
      r.chksum 1 (by simp) hd1 (by rw [groupSize_single]; exact hf.1) h1
    have hc2 : (WriteElfSection elf r.fd [n] true false SECTION_PADDING r.chksum 1).chksum =
        some (xor8 c (groupPayload elf [n] SECTION_PADDING)) := by
      rw [w4, hc]; simp [foldedChecksum]
    rw [ih _ _ hd2 hf.2 hc2 h]
    simp [otherPayloads, xor8_append]

theorem writeRomSections_spec (elf : MyElf_File) (csz : Nat) (rom : List String) (r : WResult)
    (hd : dataSized elf rom = true) (hf : groupSize elf rom + SECTION_PADDING < 2 ^ 32)
    (h : (writeRomSections elf csz rom r).success = true) :
    r.success = true ∧ readable elf rom = true ∧
    (writeRomSections elf csz rom r).fd.bytes = r.fd.bytes ++ romChunk elf rom ∧
    (writeRomSections elf csz rom r).chksum =
      if rom = [] then r.chksum
      else foldedChecksum r.chksum csz true 0 (groupPayload elf rom SECTION_PADDING) := by
  unfold writeRomSections at h ⊢
  by_cases hs : r.success = true
  · cases rom with
    | nil => simp [hs, romChunk, readable]
    | cons n rest =>
      simp only [hs, List.length_cons, gt_iff_lt, Nat.zero_lt_succ, and_self, if_true] at h ⊢
      obtain ⟨w1, _, w3, w4⟩ := WriteElfSection_spec elf r.fd (n :: rest) true true SECTION_PADDING
        r.chksum csz (by simp) hd hf h
      refine ⟨trivial, w1, ?_, ?_⟩
      · rw [w3]; simp [romChunk, chunk]
      · rw [w4]; simp [groupAddress]
  · simp only [hs, false_and, if_false] at h
    exact absurd h hs

/-! ## The flash image -/

theorem binImageHeader_length (elf : MyElf_File) (fm fc fs rc oc : Nat) :
    (binImageHeader elf fm fc fs rc oc).length = 8 := rfl

theorem binSections_spec (elf : MyElf_File) (fd : FILE) (fm fc fs : Nat)
    (rom other : List String)
    (hd : dataSized elf (rom ++ other) = true) (hf : sectionsFit elf rom other = true)
    (h : (binSections elf fd fm fc fs rom other).success = true) :
    readable elf (rom ++ other) = true ∧
    (binSections elf fd fm fc fs rom other).fd.bytes =
      fd.bytes ++ binImageHeader elf fm fc fs rom.length other.length ++
        romChunk elf rom ++ otherChunks elf other ∧
    (binSections elf fd fm fc fs rom other).chksum =
      some (xor8 CHECKSUM_INIT (groupPayload elf rom SECTION_PADDING ++ otherPayloads elf other)) := by
  rw [dataSized_append, Bool.and_eq_true] at hd
  simp only [sectionsFit, Bool.and_eq_true, decide_eq_true_eq] at hf
  unfold binSections at h ⊢
  simp only at h ⊢
  obtain ⟨o1, o2, o3⟩ := writeOtherSections_spec elf 1 other _ hd.2 hf.2 h
  obtain ⟨r1, r2, r3, r4⟩ := writeRomSections_spec elf 1 rom _ hd.1 hf.1 o1
  simp only at r1 r3 r4
  have hn : (fwrite (binImageHeader elf fm fc fs rom.length other.length) fd).1 = 8 := by
    by_contra hne
    simp [hne] at r1
  have hb := fwrite_complete _ fd (by rw [hn, binImageHeader_length])
  refine ⟨by rw [readable_append, r2, o2]; rfl, ?_, ?_⟩
  · rw [o3, r3, hb]
  · have hc : (writeRomSections elf 1 rom
        { success := if (fwrite (binImageHeader elf fm fc fs rom.length other.length) fd).1 ≠ 8
                     then false else true,
          fd := (fwrite (binImageHeader elf fm fc fs rom.length other.length) fd).2,
          chksum := some CHECKSUM_INIT }).chksum =
        some (xor8 CHECKSUM_INIT (groupPayload elf rom SECTION_PADDING)) := by
      rw [r4]
      by_cases hrom : rom = []
      · subst hrom; simp [groupPayload, concatSections, padCount, xor8]
      · simp [hrom, foldedChecksum]
    rw [writeOtherSections_xor elf other _ _ hd.2 hf.2 hc h, xor8_append]

theorem binTrailer_spec (r : WResult) (h : (binTrailer r).1 = true) :
    r.success = true ∧
    (binTrailer r).2.bytes =
      r.fd.bytes ++ List.replicate (padCount IMAGE_PADDING (r.fd.bytes.length + 1)) 0 ++
        [r.chksum.getD 0] := by
  unfold binTrailer at h ⊢
  by_cases hs : r.success = true
  · refine ⟨hs, ?_⟩
    simp only [hs, if_true, ftell, IMAGE_PADDING] at h ⊢
    have hlt : (r.fd.bytes.length + 1) % 16 < 16 := Nat.mod_lt _ (by decide)
    by_cases hp : (r.fd.bytes.length + 1) % 16 > 0
    · have hpc : padCount 16 (r.fd.bytes.length + 1) = 16 - (r.fd.bytes.length + 1) % 16 := by
        unfold padCount; exact Nat.mod_eq_of_lt (by omega)
      simp only [hp, if_true] at h ⊢
      by_cases hn : (fwrite (List.replicate (16 - (r.fd.bytes.length + 1) % 16) 0) r.fd).1 =
          16 - (r.fd.bytes.length + 1) % 16
      · simp only [hn, ne_eq, not_true_eq_false, if_false, if_true] at h ⊢
        have hb := fwrite_complete _ r.fd (by rw [hn]; simp)
        by_cases hn2 : (fwrite [r.chksum.getD 0]
            (fwrite (List.replicate (16 - (r.fd.bytes.length + 1) % 16) 0) r.fd).2).1 = 1
        · have hb2 := fwrite_complete _ _ (by rw [hn2]; rfl)
          rw [hb2, hb, hpc]
        · simp [hn2] at h
      · simp [hn] at h
    · have hp0 : (r.fd.bytes.length + 1) % 16 = 0 := by omega
      have hpc : padCount 16 (r.fd.bytes.length + 1) = 0 := by
        unfold padCount; rw [hp0]
      simp only [hp, if_false, if_true] at h ⊢
      by_cases hn2 : (fwrite [r.chksum.getD 0] r.fd).1 = 1
      · have hb2 := fwrite_complete _ _ (by rw [hn2]; rfl)
        rw [hb2, hpc]; simp
      · simp [hn2] at h
  · simp [hs] at h

/-- The flash image a successful `CreateBinFile` writes. -/
theorem CreateBinFile_layout (host : Host) (elf : MyElf_File) (inFile outFile : String)
    (fm fc fs : Nat) (rom other : List String) (out : FILE)
    (hElf : host.LoadElf inFile = some elf)
    (hd : dataSized elf (rom ++ other) = true) (hf : sectionsFit elf rom other = true)
    (h : CreateBinFile host inFile outFile fm fc fs rom other = (true, some out)) :
    readable elf (rom ++ other) = true ∧
    out.bytes =
      binImageHeader elf fm fc fs rom.length other.length ++ romChunk elf rom ++
        otherChunks elf other ++
        List.replicate (padCount IMAGE_PADDING
          ((binImageHeader elf fm fc fs rom.length other.length ++ romChunk elf rom ++
            otherChunks elf other).length + 1)) 0 ++
        [xor8 CHECKSUM_INIT (groupPayload elf rom SECTION_PADDING ++ otherPayloads elf other)] := by
  unfold CreateBinFile at h
  simp only [hElf] at h
  cases hfd : fopen host outFile with
  | none => simp [hfd] at h
  | some fd =>
    have hfd0 : fd.bytes = [] := by
      unfold fopen at hfd
      cases hr : host.openRoom outFile with
      | none => simp [hr] at hfd
      | some r => simp [hr] at hfd; rw [← hfd]
    simp only [hfd, Prod.mk.injEq, Option.some.injEq] at h
    obtain ⟨t1, t2⟩ := binTrailer_spec _ h.1
    obtain ⟨b1, b2, b3⟩ := binSections_spec elf fd fm fc fs rom other hd hf t1
    refine ⟨b1, ?_⟩
    rw [← h.2, t2, b2, b3, hfd0]
    simp

/-! ## Word sums -/

theorem sum32_lt (c : Nat) (l : List Nat) (hc : c < 2 ^ 32) : sum32 c l < 2 ^ 32 := by
  induction c, l using sum32.induct with
  | case1 c => simpa [sum32] using hc
  | case2 c b0 => simp only [sum32]; exact Nat.mod_lt _ (by decide)
  | case3 c b0 b1 => simp only [sum32]; exact Nat.mod_lt _ (by decide)
  | case4 c b0 b1 b2 => simp only [sum32]; exact Nat.mod_lt _ (by decide)
  | case5 c b0 b1 b2 b3 rest ih =>
    simp only [sum32]; exact ih (Nat.mod_lt _ (by decide))

theorem sum32_eq (c : Nat) (l : List Nat) (hc : c < 2 ^ 32) :
    sum32 c l = (c + (words32 l).sum) % 2 ^ 32 := by
  induction c, l using sum32.induct with
  | case1 c => simp only [sum32, words32, List.sum_nil, Nat.add_zero]; omega
  | case2 c b0 => simp [sum32, words32]
  | case3 c b0 b1 => simp [sum32, words32]
  | case4 c b0 b1 b2 => simp [sum32, words32]
  | case5 c b0 b1 b2 b3 rest ih =>
    simp only [sum32, words32, List.sum_cons]
    rw [ih (Nat.mod_lt _ (by decide))]
    omega

theorem words32_append (a b : List Nat) (h : a.length % 4 = 0) :
    words32 (a ++ b) = words32 a ++ words32 b := by
  induction a using words32.induct with
  | case1 => simp [words32]
  | case2 b0 => simp at h
  | case3 b0 b1 => simp at h
  | case4 b0 b1 b2 => simp at h
  | case5 b0 b1 b2 b3 rest ih =>
    have : rest.length % 4 = 0 := by
      simp only [List.length_cons] at h; omega
    simp [words32, ih this]

theorem words32_u32le (v : Nat) : words32 (u32le v) = [v % 2 ^ 32] := by
  simp only [u32le, words32, le32]
  congr 1
  omega

theorem groupPayload_aligned (elf : MyElf_File) (names : List String) :
    (groupPayload elf names SECTION_PADDING).length % 4 = 0 := by
  simp only [groupPayload, List.length_append, List.length_replicate]
  exact padCount_aligned 4 _ (by decide)

/-- The invariant of a zboot build: the accumulator is the word sum of all the
bytes written so far, which are a whole number of words. -/
theorem zboot_step (elf : MyElf_File) (fd : FILE) (names : List String) (za : Bool) (c : Nat)
    (hne : names ≠ []) (hd : dataSized elf names = true)
    (hf : groupSize elf names + SECTION_PADDING < 2 ^ 32)
    (hc : c = wordSum fd.bytes) (hl : fd.bytes.length % 4 = 0)
    (h : (WriteElfSection elf fd names true za SECTION_PADDING (some c) 4).success = true) :
    (WriteElfSection elf fd names true za SECTION_PADDING (some c) 4).chksum =
      some (wordSum (WriteElfSection elf fd names true za SECTION_PADDING (some c) 4).fd.bytes) ∧
    (WriteElfSection elf fd names true za SECTION_PADDING (some c) 4).fd.bytes.length % 4 = 0 := by
  obtain ⟨_, _, w3, w4⟩ := WriteElfSection_spec elf fd names true za SECTION_PADDING (some c) 4
    hne hd hf h
  have hal := groupPayload_aligned elf names
  have hclt : c < 2 ^ 32 := by rw [hc]; exact Nat.mod_lt _ (by decide)
  rw [w3, w4]
  constructor
  · simp only [foldedChecksum, if_true, Option.some.injEq, wordSum]
    rw [sum32_eq _ _ hclt]
    rw [words32_append _ _ (by simp [u32le_length]; omega)]
    rw [words32_append _ _ hl]
    rw [words32_append (u32le _) _ (by rw [u32le_length])]
    simp only [words32_u32le, List.sum_append, List.sum_cons, List.sum_nil]
    rw [hc, wordSum]
    omega
  · simp only [List.length_append, u32le_length, if_true]
    omega

/-! ## The zboot image -/

theorem strncpy_length (src : List Nat) (n : Nat) : (strncpy src n).length = n := by
  simp only [strncpy, List.length_append, List.length_take, List.length_replicate]
  omega

theorem zbootImageHeader_length (elf : MyElf_File) (v d : Nat) (desc : Option (List Nat))
    (rc oc : Nat) : (zbootImageHeader elf v d desc rc oc).length = 120 := by
  cases desc with
  | none => rfl
  | some s =>
    simp only [zbootImageHeader, List.length_append, u32le_length, strncpy_length]

theorem writeOtherSections_sum (elf : MyElf_File) :
    ∀ (other : List String) (r : WResult),
      dataSized elf other = true → otherFit elf other = true →
      r.chksum = some (wordSum r.fd.bytes) → r.fd.bytes.length % 4 = 0 →
      (writeOtherSections elf 4 other r).success = true →
      (writeOtherSections elf 4 other r).chksum =
        some (wordSum (writeOtherSections elf 4 other r).fd.bytes) ∧
      (writeOtherSections elf 4 other r).fd.bytes.length % 4 = 0 := by
  intro other
  induction other with
  | nil =>
    intro r _ _ hc hl _
    exact ⟨hc, hl⟩
  | cons n rest ih =>
    intro r hd hf hc hl h
    obtain ⟨hs, _, _⟩ := writeOtherSections_spec elf 4 (n :: rest) r hd hf h
    have hstep : writeOtherSections elf 4 (n :: rest) r =
        writeOtherSections elf 4 rest
          (WriteElfSection elf r.fd [n] true false SECTION_PADDING r.chksum 4) := by
      simp [writeOtherSections, hs]
    rw [hstep] at h ⊢
    obtain ⟨hd1, hd2⟩ := dataSized_single elf n rest hd
    simp only [otherFit, Bool.and_eq_true, decide_eq_true_eq] at hf
    obtain ⟨h1, _, _⟩ := writeOtherSections_spec elf 4 rest _ hd2 hf.2 h
    rw [hc] at h1 h ⊢
    obtain ⟨z1, z2⟩ := zboot_step elf r.fd [n] false _ (by simp) hd1
      (by rw [groupSize_single]; exact hf.1) rfl hl h1
    exact ih _ hd2 hf.2 z1 z2 h

theorem writeRomSections_sum (elf : MyElf_File) (rom : List String) (r : WResult)
    (hd : dataSized elf rom = true) (hf : groupSize elf rom + SECTION_PADDING < 2 ^ 32)
    (hc : r.chksum = some (wordSum r.fd.bytes)) (hl : r.fd.bytes.length % 4 = 0)
    (h : (writeRomSections elf 4 rom r).success = true) :
    (writeRomSections elf 4 rom r).chksum =
      some (wordSum (writeRomSections elf 4 rom r).fd.bytes) ∧
    (writeRomSections elf 4 rom r).fd.bytes.length % 4 = 0 := by
  unfold writeRomSections at h ⊢
  by_cases hs : r.success = true ∧ rom.length > 0
  · simp only [hs, and_self, if_true] at h ⊢
    rw [hc] at h ⊢
    have hne : rom ≠ [] := by
      intro e; rw [e] at hs; simp at hs
    exact zboot_step elf r.fd rom true _ hne hd hf rfl hl h
  · simp only [hs, if_false]
    exact ⟨hc, hl⟩

theorem zbootSections_spec (elf : MyElf_File) (fd : FILE) (v d : Nat) (desc : Option (List Nat))
    (rom other : List String) (hfd : fd.bytes = [])
    (hd : dataSized elf (rom ++ other) = true) (hf : sectionsFit elf rom other = true)
    (h : (zbootSections elf fd v d desc rom other).success = true) :
    readable elf (rom ++ other) = true ∧
    (zbootSections elf fd v d desc rom other).fd.bytes =
      zbootImageHeader elf v d desc rom.length other.length ++
        romChunk elf rom ++ otherChunks elf other ∧
    (zbootSections elf fd v d desc rom other).chksum =
      some (wordSum (zbootSections elf fd v d desc rom other).fd.bytes) ∧
    (zbootSections elf fd v d desc rom other).fd.bytes.length % 4 = 0 := by
  rw [dataSized_append, Bool.and_eq_true] at hd
  simp only [sectionsFit, Bool.and_eq_true, decide_eq_true_eq] at hf
  unfold zbootSections at h ⊢
  simp only at h ⊢
  obtain ⟨o1, o2, o3⟩ := writeOtherSections_spec elf 4 other _ hd.2 hf.2 h
  obtain ⟨r1, r2, r3, _⟩ := writeRomSections_spec elf 4 rom _ hd.1 hf.1 o1
  simp only at r1 r3
  have hn : (fwrite (zbootImageHeader elf v d desc rom.length other.length) fd).1 = 120 := by
    by_contra hne
    simp [hne] at r1
  have hb := fwrite_complete _ fd (by rw [hn, zbootImageHeader_length])
  rw [hfd, List.nil_append] at hb
  have hc0 : sum32 0 (zbootImageHeader elf v d desc rom.length other.length) =
      wordSum (zbootImageHeader elf v d desc rom.length other.length) := by
    rw [sum32_eq _ _ (by decide), wordSum, Nat.zero_add]
  obtain ⟨s1, s2⟩ := writeRomSections_sum elf rom _ hd.1 hf.1
    (by simp only [hb, hc0]) (by simp only [hb, zbootImageHeader_length]) o1
  obtain ⟨s3, s4⟩ := writeOtherSections_sum elf other _ hd.2 hf.2 s1 s2 h
  refine ⟨by rw [readable_append, r2, o2]; rfl, ?_, s3, s4⟩
  rw [o3, r3, hb]

/-! ## Success of the image encoders on an unbounded device -/

theorem writeOtherSections_unbounded (elf : MyElf_File) (csz : Nat) (hc : csz = 4 ∨ csz = 1) :
    ∀ (other : List String) (r : WResult),
      r.success = true → r.fd.room = none → r.chksum.isSome = true →
      readable elf other = true →
      dataSized elf other = true → otherFit elf other = true →
      (writeOtherSections elf csz other r).success = true ∧
      (writeOtherSections elf csz other r).fd.room = none := by
  intro other
  induction other with
  | nil => intro r hs hroom _ _ _ _; exact ⟨hs, hroom⟩
  | cons n rest ih =>
    intro r hs hroom hsome hr hd hf
    have hstep : writeOtherSections elf csz (n :: rest) r =
        writeOtherSections elf csz rest
          (WriteElfSection elf r.fd [n] true false SECTION_PADDING r.chksum csz) := by
      simp [writeOtherSections, hs]
    rw [hstep]
    obtain ⟨hd1, hd2⟩ := dataSized_single elf n rest hd
    simp only [otherFit, Bool.and_eq_true, decide_eq_true_eq] at hf
    have hr' := readable_append elf [n] rest
    simp only [List.singleton_append, hr] at hr'
    have hr2 : readable elf [n] = true ∧ readable elf rest = true := by
      simpa using hr'.symm
    obtain ⟨w1, w2⟩ := WriteElfSection_unbounded elf r.fd [n] true false SECTION_PADDING
      r.chksum csz hroom hr2.1 hd1 (by rw [groupSize_single]; exact hf.1) (Or.inr hc)
      (Or.inr (Or.inr hsome))
    exact ih _ w1 w2 (by rw [WriteElfSection_isSome]; exact hsome) hr2.2 hd2 hf.2

theorem writeRomSections_unbounded (elf : MyElf_File) (csz : Nat) (hc : csz = 4 ∨ csz = 1)
    (rom : List String) (r : WResult)
    (hs : r.success = true) (hroom : r.fd.room = none) (hsome : r.chksum.isSome = true)
    (hr : readable elf rom = true)
    (hd : dataSized elf rom = true) (hf : groupSize elf rom + SECTION_PADDING < 2 ^ 32) :
    (writeRomSections elf csz rom r).success = true ∧
    (writeRomSections elf csz rom r).fd.room = none := by
  unfold writeRomSections
  by_cases h : r.success = true ∧ rom.length > 0
  · simp only [h, and_self, if_true]
    exact WriteElfSection_unbounded elf r.fd rom true true SECTION_PADDING r.chksum csz hroom hr hd
      hf (Or.inr hc) (Or.inr (Or.inr hsome))
  · simp only [h, if_false]
    exact ⟨hs, hroom⟩

theorem binSections_unbounded (elf : MyElf_File) (fd : FILE) (fm fc fs : Nat)
    (rom other : List String) (hroom : fd.room = none)
    (hr : readable elf (rom ++ other) = true)
    (hd : dataSized elf (rom ++ other) = true) (hf : sectionsFit elf rom other = true) :
    (binSections elf fd fm fc fs rom other).success = true ∧
    (binSections elf fd fm fc fs rom other).fd.room = none := by
  rw [dataSized_append, Bool.and_eq_true] at hd
  rw [readable_append, Bool.and_eq_true] at hr
  simp only [sectionsFit, Bool.and_eq_true, decide_eq_true_eq] at hf
  unfold binSections
  simp only [fwrite_unbounded _ _ hroom, binImageHeader_length]
  obtain ⟨r1, r2⟩ := writeRomSections_unbounded elf 1 (Or.inr rfl) rom
    { success := if 8 ≠ 8 then false else true,
      fd := { bytes := fd.bytes ++ binImageHeader elf fm fc fs rom.length other.length,
              room := none },
      chksum := some CHECKSUM_INIT } (by simp) rfl rfl hr.1 hd.1 hf.1
  exact writeOtherSections_unbounded elf 1 (Or.inr rfl) other _ r1 r2
    (by rw [writeRomSections_isSome]; rfl) hr.2 hd.2 hf.2

theorem binTrailer_unbounded (r : WResult) (hs : r.success = true) (hroom : r.fd.room = none) :
    (binTrailer r).1 = true := by
  unfold binTrailer
  simp only [hs, if_true]
  by_cases hp : (ftell r.fd + 1) % IMAGE_PADDING > 0
  · simp only [hp, if_true]
    rw [fwrite_unbounded _ _ hroom]
    simp [fwrite]
  · simp only [hp, if_false]
    rw [fwrite_unbounded _ _ hroom]
    simp

theorem CreateBinFile_unbounded (host : Host) (elf : MyElf_File) (inFile outFile : String)
    (fm fc fs : Nat) (rom other : List String)
    (hElf : host.LoadElf inFile = some elf) (hOut : host.openRoom outFile = some none)
    (hr : readable elf (rom ++ other) = true)
    (hd : dataSized elf (rom ++ other) = true) (hf : sectionsFit elf rom other = true) :
    ∃ out, CreateBinFile host inFile outFile fm fc fs rom other = (true, some out) := by
  unfold CreateBinFile
  simp only [hElf, fopen, hOut, Option.map_some']
  obtain ⟨b1, b2⟩ := binSections_unbounded elf { bytes := [], room := none } fm fc fs rom other
    rfl hr hd hf
  have := binTrailer_unbounded _ b1 b2
  exact ⟨_, by rw [this]⟩

theorem zbootSections_unbounded (elf : MyElf_File) (fd : FILE) (v d : Nat)
    (desc : Option (List Nat)) (rom other : List String) (hroom : fd.room = none)
    (hr : readable elf (rom ++ other) = true)
    (hd : dataSized elf (rom ++ other) = true) (hf : sectionsFit elf rom other = true) :
    (zbootSections elf fd v d desc rom other).success = true ∧
    (zbootSections elf fd v d desc rom other).fd.room = none := by
  rw [dataSized_append, Bool.and_eq_true] at hd
  rw [readable_append, Bool.and_eq_true] at hr
  simp only [sectionsFit, Bool.and_eq_true, decide_eq_true_eq] at hf
  unfold zbootSections
  simp only [fwrite_unbounded _ _ hroom, zbootImageHeader_length]
  obtain ⟨r1, r2⟩ := writeRomSections_unbounded elf 4 (Or.inl rfl) rom
    { success := if 120 ≠ 120 then false else true,
      fd := { bytes := fd.bytes ++ zbootImageHeader elf v d desc rom.length other.length,
              room := none },
      chksum := some (sum32 0 (zbootImageHeader elf v d desc rom.length other.length)) }
    (by simp) rfl rfl hr.1 hd.1 hf.1
  exact writeOtherSections_unbounded elf 4 (Or.inl rfl) other _ r1 r2
    (by rw [writeRomSections_isSome]; rfl) hr.2 hd.2 hf.2

theorem CreateZbootFile_unbounded (host : Host) (elf : MyElf_File) (inFile outFile : String)
    (v d : Nat) (desc : Option (List Nat)) (rom other : List String)
    (hElf : host.LoadElf inFile = some elf) (hOut : host.openRoom outFile = some none)
    (hr : readable elf (rom ++ other) = true)
    (hd : dataSized elf (rom ++ other) = true) (hf : sectionsFit elf rom other = true) :
    ∃ out, CreateZbootFile host inFile outFile v d desc rom other = (true, some out) := by
  unfold CreateZbootFile
  simp only [hElf, fopen, hOut, Option.map_some']
  obtain ⟨b1, b2⟩ := zbootSections_unbounded elf { bytes := [], room := none } v d desc rom other
    rfl hr hd hf
  simp only [b1, if_true, fwrite_unbounded _ _ b2, u32le_length]
  exact ⟨_, rfl⟩

/-! ## The zboot image, end to end -/

/-- The zboot image a successful `CreateZbootFile` writes. -/
theorem CreateZbootFile_layout (host : Host) (elf : MyElf_File) (inFile outFile : String)
    (v d : Nat) (desc : Option (List Nat)) (rom other : List String) (out : FILE)
    (hElf : host.LoadElf inFile = some elf)
    (hd : dataSized elf (rom ++ other) = true) (hf : sectionsFit elf rom other = true)
    (h : CreateZbootFile host inFile outFile v d desc rom other = (true, some out)) :
    readable elf (rom ++ other) = true ∧
    out.bytes =
      zbootImageHeader elf v d desc rom.length other.length ++ romChunk elf rom ++
        otherChunks elf other ++
        u32le (wordSum (zbootImageHeader elf v d desc rom.length other.length ++ romChunk elf rom ++
          otherChunks elf other)) ∧
    (zbootImageHeader elf v d desc rom.length other.length ++ romChunk elf rom ++
          otherChunks elf other).length % 4 = 0 := by
  unfold CreateZbootFile at h
  simp only [hElf] at h
  cases hfd : fopen host outFile with
  | none => simp [hfd] at h
  | some fd =>
    have hfd0 : fd.bytes = [] := by
      unfold fopen at hfd
      cases hr : host.openRoom outFile with
      | none => simp [hr] at hfd
      | some r => simp [hr] at hfd; rw [← hfd]
    simp only [hfd] at h
    by_cases hs : (zbootSections elf fd v d desc rom other).success = true
    · obtain ⟨z1, z2, z3, z4⟩ := zbootSections_spec elf fd v d desc rom other hfd0 hd hf hs
      simp only [hs, if_true, Prod.mk.injEq, Option.some.injEq] at h
      have hn : (fwrite (u32le ((zbootSections elf fd v d desc rom other).chksum.getD 0))
          (zbootSections elf fd v d desc rom other).fd).1 = 4 := by
        by_contra hne
        simp [hne] at h
      have hb := fwrite_complete _ _ (by rw [hn, u32le_length])
      rw [h.2, z3, z2] at hb
      rw [z2] at z4
      exact ⟨z1, by simpa using hb, z4⟩
    · simp [hs] at h

/-! ## Absent names -/

theorem readSections_cons_congr (elf : MyElf_File) (za : Bool) (m : String)
    (l1 l2 : List String)
    (h : ∀ st, readSections elf za l1 st = readSections elf za l2 st) (st : WState) :
    readSections elf za (m :: l1) st = readSections elf za (m :: l2) st := by
  simp only [readSections, h]

theorem readSections_absent (elf : MyElf_File) (za : Bool) (n : String)
    (hAbsent : elf.GetElfSection n = none) :
    ∀ (pre post : List String) (st : WState),
      readSections elf za (pre ++ n :: post) st = readSections elf za (pre ++ post) st := by
  intro pre
  induction pre with
  | nil =>
    intro post st
    by_cases hs : st.success = false
    · rw [readSections_failed _ _ _ _ hs, readSections_failed _ _ _ _ hs]
    · simp [readSections, hs, hAbsent]
  | cons m rest ih =>
    intro post st
    exact readSections_cons_congr elf za m _ _ (ih post) st

theorem WriteElfSection_absent (elf : MyElf_File) (n : String)
    (hAbsent : elf.GetElfSection n = none) (pre post : List String) (hne : pre ++ post ≠ [])
    (fd : FILE) (ah za : Bool) (padto : Nat) (chk : Option Nat) (csz : Nat) :
    WriteElfSection elf fd (pre ++ n :: post) ah za padto chk csz =
      WriteElfSection elf fd (pre ++ post) ah za padto chk csz := by
  have h1 : ¬ (pre ++ n :: post).length = 0 := by simp
  have h2 : ¬ (pre ++ post).length = 0 := by
    intro h; exact hne (List.eq_nil_of_length_eq_zero h)
  simp only [WriteElfSection, h1, h2, if_false, readSections_absent elf za n hAbsent]

theorem WriteElfSection_absent_single (elf : MyElf_File) (n : String)
    (hAbsent : elf.GetElfSection n = none) (fd : FILE) (za : Bool) (chk : Option Nat) (csz : Nat)
    (hroom : fd.room = none) (hc : chk = none ∨ csz = 4 ∨ csz = 1)
    (hnf : csz ≠ 4 ∨ chk.isSome = true) :
    (WriteElfSection elf fd [n] true za SECTION_PADDING chk csz).success = true ∧
    (WriteElfSection elf fd [n] true za SECTION_PADDING chk csz).fd.bytes =
      fd.bytes ++ List.replicate 8 0 := by
  have hst : padSection SECTION_PADDING (readSections elf za [n] ⟨true, [], 0, 0⟩) =
      ⟨true, [], 0, 0⟩ := by
    simp [readSections, hAbsent, padSection, SECTION_PADDING]
  have hck : (checksumData ⟨true, [], 0, 0⟩ chk csz).1 = true :=
    checksumData_flag _ _ _ rfl hc
  have hh := writeHeader_unbounded ⟨true, [], 0, 0⟩ (checksumData ⟨true, [], 0, 0⟩ chk csz).1 fd
    true (checksumData ⟨true, [], 0, 0⟩ chk csz).2 csz hroom
    (by rw [checksumData_isSome]; exact Or.inr hnf)
  have hb : (writeHeader ⟨true, [], 0, 0⟩ (checksumData ⟨true, [], 0, 0⟩ chk csz).1 fd
      true (checksumData ⟨true, [], 0, 0⟩ chk csz).2 csz).fd.bytes =
      fd.bytes ++ List.replicate 8 0 := by
    have := (writeHeader_success _ _ _ _ _ _ (hh.1.trans hck)).2.1
    rw [this]
    simp [u32le, List.replicate]
  simp only [WriteElfSection, List.length_singleton, one_ne_zero, if_false, hst]
  simp only [writeData, Nat.lt_irrefl, gt_iff_lt, and_false, if_false]
  exact ⟨hh.1.trans hck, hb⟩

/-! ## The header-file exporter -/

theorem headerSections_failed (elf : MyElf_File) (names : List String) (fd : FILE) :
    headerSections elf names (false, fd) = (false, fd) := by
  cases names with
  | nil => rfl
  | cons n rest => simp [headerSections]

theorem headerSections_flag (elf : MyElf_File) :
    ∀ (names : List String) (fd : FILE), headerReadable elf names = true →
      ((headerSections elf names (true, fd)).1 = false ↔
        ∃ name ∈ names, elf.GetElfSection name = none) := by
  intro names
  induction names with
  | nil => intro fd _; simp [headerSections]
  | cons n rest ih =>
    intro fd hr
    simp only [headerReadable, Bool.and_eq_true] at hr
    cases hsec : elf.GetElfSection n with
    | none =>
      simp [headerSections, hsec, headerSections_failed]
    | some sect =>
      have h1 := hr.1
      simp only [hsec] at h1
      obtain ⟨bindata, hdata⟩ := Option.isSome_iff_exists.mp h1
      have hstep : headerSections elf (n :: rest) (true, fd) =
          headerSections elf rest
            (true, fprintf (fprintf (fprintf fd (sectionDecls sect))
              (dataLines 0 (bindata.take (sect.size % 2 ^ 32)))) "\r\n\x7d;\r\n".toList) := by
        simp [headerSections, hsec, hdata]
      rw [hstep, ih _ hr.2]
      simp [hsec]

theorem headerSections_absent (elf : MyElf_File) (n : String)
    (hAbsent : elf.GetElfSection n = none) :
    ∀ (pre post : List String) (r : Bool × FILE),
      headerSections elf (pre ++ n :: post) r = (false, (headerSections elf pre r).2) := by
  intro pre
  induction pre with
  | nil =>
    intro post r
    obtain ⟨s, fd⟩ := r
    cases s with
    | false => simp [headerSections]
    | true => simp [headerSections, hAbsent, headerSections_failed]
  | cons m rest ih =>
    intro post r
    obtain ⟨s, fd⟩ := r
    cases s with
    | false => simp [headerSections]
    | true =>
      simp only [List.cons_append, headerSections]
      cases hm : elf.GetElfSection m with
      | none => simp [ih]
      | some sect =>
        cases hb : elf.GetElfSectionData sect with
        | none => simp [ih, hb]
        | some bindata => simp [ih, hb]

/-! ## The claims -/

/-- C1. For every successful zboot build the last four bytes of the output, read
as a little-endian 32-bit word, are the sum modulo `2 ^ 32`, starting from 0, of
all little-endian 32-bit words of the bytes before them: the 120-byte header,
every 8-byte chunk header and every padded payload. -/
theorem zboot_trailing_checksum (host : Host) (elf : MyElf_File) (inFile outFile : String)
    (buildVersion buildDate : Nat) (buildDescription : Option (List Nat))
    (romSectionList otherSectionList : List String) (out : FILE)
    (hElf : host.LoadElf inFile = some elf)
    (hData : dataSized elf (romSectionList ++ otherSectionList) = true)
    (hFit : sectionsFit elf romSectionList otherSectionList = true)
    (hOk : CreateZbootFile host inFile outFile buildVersion buildDate buildDescription
      romSectionList otherSectionList = (true, some out)) :
    ∃ body b0 b1 b2 b3,
      out.bytes = body ++ [b0, b1, b2, b3] ∧
      body = zbootImageHeader elf buildVersion buildDate buildDescription
          romSectionList.length otherSectionList.length ++
        romChunk elf romSectionList ++ otherChunks elf otherSectionList ∧
      body.length % 4 = 0 ∧
      le32 b0 b1 b2 b3 = wordSum body := by
  obtain ⟨_, h2, h3⟩ := CreateZbootFile_layout host elf inFile outFile buildVersion buildDate
    buildDescription romSectionList otherSectionList out hElf hData hFit hOk
  refine ⟨_, _, _, _, _, h2, rfl, h3, ?_⟩
  have hc : wordSum (zbootImageHeader elf buildVersion buildDate buildDescription
          romSectionList.length otherSectionList.length ++
        romChunk elf romSectionList ++ otherChunks elf otherSectionList) < 2 ^ 32 :=
    Nat.mod_lt _ (by decide)
  revert hc
  generalize wordSum _ = c
  intro hc
  simp only [le32]
  omega

/-- C1 at the sample application: a ROM group with an empty section, an absent name among the
other sections. -/
theorem zboot_trailing_checksum_witness :
    sampleHost.LoadElf "app.elf" = some appElf ∧
    dataSized appElf ([".irom0.text", ".rodata"] ++ [".text", ".missing", ".data"]) = true ∧
    sectionsFit appElf [".irom0.text", ".rodata"] [".text", ".missing", ".data"] = true ∧
    ∃ out,
      CreateZbootFile sampleHost "app.elf" "app.bin" 1 1000 none [".irom0.text", ".rodata"]
        [".text", ".missing", ".data"] = (true, some out) ∧
      ∃ body b0 b1 b2 b3,
        out.bytes = body ++ [b0, b1, b2, b3] ∧
        body = zbootImageHeader appElf 1 1000 none 2 3 ++
          romChunk appElf [".irom0.text", ".rodata"] ++
          otherChunks appElf [".text", ".missing", ".data"] ∧
        body.length % 4 = 0 ∧
        le32 b0 b1 b2 b3 = wordSum body :=
  ⟨rfl, by decide, by decide, _, rfl,
    zboot_trailing_checksum sampleHost appElf "app.elf" "app.bin" 1 1000 none
      [".irom0.text", ".rodata"] [".text", ".missing", ".data"] _ rfl (by decide) (by decide) rfl⟩

/-- C2, as stated, fails. In scenario 1 the image is the 8-byte header, one chunk
(header and payload), three filler bytes and the checksum byte 228, while 0xEF
XORed with every byte of the chunk, header included, is 248: the checksum byte
does not cover the chunk header. -/
theorem flash_checksum_skips_chunk_headers :
    ∃ out,
      CreateBinFile sampleHost "scenario1.elf" "out.bin" 0 0 0 [] ["A"] = (true, some out) ∧
      out.bytes = binImageHeader scenario1Elf 0 0 0 0 1 ++ chunk scenario1Elf ["A"] false ++
        [0, 0, 0] ++ [228] ∧
      xor8 CHECKSUM_INIT (chunk scenario1Elf ["A"] false) = 248 ∧
      out.bytes.getLast? ≠ some (xor8 CHECKSUM_INIT (chunk scenario1Elf ["A"] false)) :=
  ⟨_, rfl, by decide, by decide, by decide⟩

/-- C2, amended. For every successful flash binary build the trailing byte is
0xEF XORed with every byte of all section payloads that precede it (the section
bytes and their 0xA5 alignment bytes, ROM group first, then each other section);
the 8-byte chunk headers in front of the payloads are not part of it. -/
theorem flash_trailing_checksum (host : Host) (elf : MyElf_File) (inFile outFile : String)
    (flashMode flashClock flashSize : Nat) (romSectionList otherSectionList : List String)
    (out : FILE)
    (hElf : host.LoadElf inFile = some elf)
    (hData : dataSized elf (romSectionList ++ otherSectionList) = true)
    (hFit : sectionsFit elf romSectionList otherSectionList = true)
    (hOk : CreateBinFile host inFile outFile flashMode flashClock flashSize
      romSectionList otherSectionList = (true, some out)) :
    ∃ filler : List Nat,
      out.bytes =
        binImageHeader elf flashMode flashClock flashSize
            romSectionList.length otherSectionList.length ++
          romChunk elf romSectionList ++ otherChunks elf otherSectionList ++ filler ++
          [xor8 CHECKSUM_INIT
            (groupPayload elf romSectionList SECTION_PADDING ++
              otherPayloads elf otherSectionList)] ∧
      out.bytes.getLast? =
        some (xor8 CHECKSUM_INIT
          (groupPayload elf romSectionList SECTION_PADDING ++
            otherPayloads elf otherSectionList)) := by
  obtain ⟨_, h2⟩ := CreateBinFile_layout host elf inFile outFile flashMode flashClock flashSize
    romSectionList otherSectionList out hElf hData hFit hOk
  refine ⟨_, h2, ?_⟩
  rw [h2]
  simp

/-- C2 (amended) at the sample application. -/
theorem flash_trailing_checksum_witness :
    sampleHost.LoadElf "app.elf" = some appElf ∧
    dataSized appElf ([".irom0.text", ".rodata"] ++ [".text", ".missing", ".data"]) = true ∧
    sectionsFit appElf [".irom0.text", ".rodata"] [".text", ".missing", ".data"] = true ∧
    ∃ out,
      CreateBinFile sampleHost "app.elf" "app.bin" 2 15 4 [".irom0.text", ".rodata"]
        [".text", ".missing", ".data"] = (true, some out) ∧
      ∃ filler : List Nat,
        out.bytes =
          binImageHeader appElf 2 15 4 2 3 ++
            romChunk appElf [".irom0.text", ".rodata"] ++
            otherChunks appElf [".text", ".missing", ".data"] ++ filler ++
            [xor8 CHECKSUM_INIT
              (groupPayload appElf [".irom0.text", ".rodata"] SECTION_PADDING ++
                otherPayloads appElf [".text", ".missing", ".data"])] ∧
        out.bytes.getLast? =
          some (xor8 CHECKSUM_INIT
            (groupPayload appElf [".irom0.text", ".rodata"] SECTION_PADDING ++
              otherPayloads appElf [".text", ".missing", ".data"])) :=
  ⟨rfl, by decide, by decide, _, rfl,
    flash_trailing_checksum sampleHost appElf "app.elf" "app.bin" 2 15 4
      [".irom0.text", ".rodata"] [".text", ".missing", ".data"] _ rfl (by decide) (by decide) rfl⟩

/-- C3. For every successful flash binary build the output length, checksum
byte included, is a multiple of 16; what follows the image header and the
sections is a filler of 0 to 15 bytes of 0x00 and then the checksum, which is
the last byte of the file. -/
theorem flash_image_padded (host : Host) (inFile outFile : String)
    (flashMode flashClock flashSize : Nat) (romSectionList otherSectionList : List String)
    (out : FILE)
    (hOk : CreateBinFile host inFile outFile flashMode flashClock flashSize
      romSectionList otherSectionList = (true, some out)) :
    out.bytes.length % 16 = 0 ∧
    ∃ elf fd k chksum,
      host.LoadElf inFile = some elf ∧ fopen host outFile = some fd ∧
      (binSections elf fd flashMode flashClock flashSize romSectionList
        otherSectionList).chksum = some chksum ∧
      k ≤ 15 ∧
      out.bytes =
        (binSections elf fd flashMode flashClock flashSize romSectionList
          otherSectionList).fd.bytes ++ List.replicate k 0 ++ [chksum] ∧
      out.bytes.getLast? = some chksum := by
  unfold CreateBinFile at hOk
  cases hElf : host.LoadElf inFile with
  | none => simp [hElf] at hOk
  | some elf =>
    cases hfd : fopen host outFile with
    | none => simp [hElf, hfd] at hOk
    | some fd =>
      simp only [hElf, hfd, Prod.mk.injEq, Option.some.injEq] at hOk
      obtain ⟨_, t2⟩ := binTrailer_spec _ hOk.1
      rw [hOk.2] at t2
      have hsome := binSections_isSome elf fd flashMode flashClock flashSize romSectionList
        otherSectionList
      obtain ⟨c, hc⟩ := Option.isSome_iff_exists.mp hsome
      rw [hc] at t2
      simp only [Option.getD_some] at t2
      have hk : padCount IMAGE_PADDING
          ((binSections elf fd flashMode flashClock flashSize romSectionList
            otherSectionList).fd.bytes.length + 1) < 16 := padCount_lt _ _ (by decide)
      have hal := padCount_aligned IMAGE_PADDING
          ((binSections elf fd flashMode flashClock flashSize romSectionList
            otherSectionList).fd.bytes.length + 1) (by decide)
      refine ⟨?_, elf, fd, _, c, rfl, rfl, hc, by omega, t2, ?_⟩
      · rw [t2]
        simp only [List.length_append, List.length_replicate, List.length_singleton]
        simp only [IMAGE_PADDING] at hal ⊢
        omega
      · rw [t2]; simp

/-- C3 at the sample application. -/
theorem flash_image_padded_witness :
    ∃ out,
      CreateBinFile sampleHost "app.elf" "app.bin" 2 15 4 [".irom0.text", ".rodata"]
        [".text", ".missing", ".data"] = (true, some out) ∧
      out.bytes.length % 16 = 0 ∧
      ∃ elf fd k chksum,
        sampleHost.LoadElf "app.elf" = some elf ∧ fopen sampleHost "app.bin" = some fd ∧
        (binSections elf fd 2 15 4 [".irom0.text", ".rodata"]
          [".text", ".missing", ".data"]).chksum = some chksum ∧
        k ≤ 15 ∧
        out.bytes =
          (binSections elf fd 2 15 4 [".irom0.text", ".rodata"]
            [".text", ".missing", ".data"]).fd.bytes ++ List.replicate k 0 ++ [chksum] ∧
        out.bytes.getLast? = some chksum :=
  ⟨_, rfl, flash_image_padded sampleHost "app.elf" "app.bin" 2 15 4
      [".irom0.text", ".rodata"] [".text", ".missing", ".data"] _ rfl⟩

/-- C4, as stated, fails. In scenario 1 the size field of the chunk header is 12,
the payload length with its two alignment bytes, and not 10: the output does not
start with the header, the chunk header (0x1000, 10) and the payload. -/
theorem scenario1_size_field_is_padded :
    ∃ out,
      CreateBinFile sampleHost "scenario1.elf" "out.bin" 0 0 0 [] ["A"] = (true, some out) ∧
      out.bytes =
        [0xE9, 1, 0, 0x00] ++ u32le 0x40100000 ++ (u32le 0x1000 ++ u32le 12) ++
          [1, 2, 3, 4, 5, 6, 7, 8, 9, 10] ++ [0xA5, 0xA5] ++ [0, 0, 0] ++ [228] ∧
      ¬ ∃ rest,
        out.bytes =
          [0xE9, 1, 0, 0x00] ++ u32le 0x40100000 ++ (u32le 0x1000 ++ u32le 10) ++
            [1, 2, 3, 4, 5, 6, 7, 8, 9, 10] ++ rest :=
  ⟨_, rfl, by decide, by
    have hb : (binTrailer (binSections scenario1Elf ⟨[], none⟩ 0 0 0 [] ["A"])).2.bytes =
        [0xE9, 1, 0, 0x00] ++ u32le 0x40100000 ++ (u32le 0x1000 ++ u32le 12) ++
          [1, 2, 3, 4, 5, 6, 7, 8, 9, 10] ++ [0xA5, 0xA5] ++ [0, 0, 0] ++ [228] := by decide
    rintro ⟨rest, h⟩
    rw [hb] at h
    simp [u32le] at h⟩

/-- C4, amended. End-to-end scenario 1: for an ELF whose section "A" has 10 bytes
at address 0x1000, flash mode QIO (0), clock 40 (0), size 512K (0), no ROM
sections and other sections ["A"], `CreateBinFile` succeeds and the output is
the 8-byte flash header (magic 0xE9, count 1, flags1 0, flags2 0x00, entry), an
8-byte chunk header with address 0x1000 and size 12 (the padded payload length),
the 10 payload bytes, 2 filler bytes 0xA5, 3 bytes 0x00 up to the 16-byte
boundary and 1 checksum byte. -/
theorem scenario1_image (host : Host) (elf : MyElf_File) (inFile outFile : String)
    (sec : MyElf_Section) (payload : List Nat)
    (hElf : host.LoadElf inFile = some elf) (hOut : host.openRoom outFile = some none)
    (hSec : elf.GetElfSection "A" = some sec)
    (hAddr : sec.address = 0x1000) (hSize : sec.size = 10)
    (hData : elf.GetElfSectionData sec = some payload) (hLen : payload.length = 10) :
    ∃ out,
      CreateBinFile host inFile outFile 0 0 0 [] ["A"] = (true, some out) ∧
      out.bytes =
        [0xE9, 1, 0, 0x00] ++ u32le elf.e_entry ++ (u32le 0x1000 ++ u32le 12) ++
          payload ++ [0xA5, 0xA5] ++ [0, 0, 0] ++ [xor8 0xEF (payload ++ [0xA5, 0xA5])] ∧
      out.bytes.length = 32 := by
  have hr : readable elf ([] ++ ["A"]) = true := by
    simp [readable, hSec, hData]
  have hd : dataSized elf ([] ++ ["A"]) = true := by
    simp [dataSized, hSec, hData, hLen, hSize]
  have hf : sectionsFit elf [] ["A"] = true := by
    simp [sectionsFit, otherFit, groupSize, sectionSizeOf, hSec, hSize, SECTION_PADDING]
  obtain ⟨out, hout⟩ := CreateBinFile_unbounded host elf inFile outFile 0 0 0 [] ["A"]
    hElf hOut hr hd hf
  obtain ⟨_, hb⟩ := CreateBinFile_layout host elf inFile outFile 0 0 0 [] ["A"] out
    hElf hd hf hout
  have hp : groupPayload elf ["A"] SECTION_PADDING = payload ++ [0xA5, 0xA5] := by
    simp [groupPayload, concatSections, sectionBytes, hSec, hSize, hData, hLen, padCount,
      SECTION_PADDING, List.replicate]
  have hc : chunk elf ["A"] false = u32le 0x1000 ++ u32le 12 ++ (payload ++ [0xA5, 0xA5]) := by
    simp [chunk, hp, groupAddress, firstAddress, hSec, hSize, hAddr, hLen]
  have hp0 : groupPayload elf [] SECTION_PADDING = [] := by
    simp [groupPayload, concatSections, padCount]
  refine ⟨out, hout, ?_, ?_⟩
  · rw [hb]
    simp [romChunk, otherChunks, otherPayloads, hc, hp, hp0, binImageHeader, BIN_MAGIC_FLASH,
      CHECKSUM_INIT, padCount, IMAGE_PADDING, hLen, u32le, List.replicate]
  · rw [hb]
    simp [romChunk, otherChunks, otherPayloads, hc, hp, hp0, binImageHeader, BIN_MAGIC_FLASH,
      CHECKSUM_INIT, padCount, IMAGE_PADDING, hLen, u32le, List.replicate]

/-- C4 (amended) at the ELF object of scenario 1. -/
theorem scenario1_image_witness :
    sampleHost.LoadElf "scenario1.elf" = some scenario1Elf ∧
    sampleHost.openRoom "out.bin" = some none ∧
    scenario1Elf.GetElfSection "A" = some ⟨0x34, 0x1000, 10, "A"⟩ ∧
    scenario1Elf.GetElfSectionData ⟨0x34, 0x1000, 10, "A"⟩ = some [1, 2, 3, 4, 5, 6, 7, 8, 9, 10] ∧
    ∃ out,
      CreateBinFile sampleHost "scenario1.elf" "out.bin" 0 0 0 [] ["A"] = (true, some out) ∧
      out.bytes =
        [0xE9, 1, 0, 0x00] ++ u32le scenario1Elf.e_entry ++ (u32le 0x1000 ++ u32le 12) ++
          [1, 2, 3, 4, 5, 6, 7, 8, 9, 10] ++ [0xA5, 0xA5] ++ [0, 0, 0] ++
          [xor8 0xEF ([1, 2, 3, 4, 5, 6, 7, 8, 9, 10] ++ [0xA5, 0xA5])] ∧
      out.bytes.length = 32 :=
  ⟨rfl, rfl, rfl, rfl,
    scenario1_image sampleHost scenario1Elf "scenario1.elf" "out.bin" ⟨0x34, 0x1000, 10, "A"⟩
      [1, 2, 3, 4, 5, 6, 7, 8, 9, 10] rfl rfl rfl rfl rfl rfl rfl⟩

/-- C5. End-to-end scenario 2: for a zboot build with no ROM sections, one
present 4-byte section "B", version 0x00000002 and description "fw",
`CreateZbootFile` succeeds; the header has magic 0x279BFBF1, count 1, version 2
and the 88-byte description "fw" followed by 86 NUL bytes; the checksum is the
sum of the header words, the two chunk-header words and the one payload word;
the output is 120 + 8 + 4 + 4 = 136 bytes long. -/
theorem scenario2_image (host : Host) (elf : MyElf_File) (inFile outFile : String)
    (buildDate : Nat) (sec : MyElf_Section) (b0 b1 b2 b3 : Nat)
    (hElf : host.LoadElf inFile = some elf) (hOut : host.openRoom outFile = some none)
    (hSec : elf.GetElfSection "B" = some sec) (hSize : sec.size = 4)
    (hData : elf.GetElfSectionData sec = some [b0, b1, b2, b3]) :
    ∃ out header chksum,
      CreateZbootFile host inFile outFile 0x00000002 buildDate (some (cstr "fw")) [] ["B"] =
        (true, some out) ∧
      header =
        u32le 0x279BFBF1 ++ u32le 1 ++ u32le elf.e_entry ++ u32le 2 ++ u32le buildDate ++
          List.replicate 12 0 ++ (cstr "fw" ++ List.replicate 86 0) ∧
      chksum =
        ((words32 header).sum + (sec.address % 2 ^ 32 + 4) + le32 b0 b1 b2 b3) % 2 ^ 32 ∧
      out.bytes =
        header ++ (u32le sec.address ++ u32le 4) ++ [b0, b1, b2, b3] ++ u32le chksum ∧
      header.length = 120 ∧ out.bytes.length = 136 := by
  have hr : readable elf ([] ++ ["B"]) = true := by
    simp [readable, hSec, hData]
  have hd : dataSized elf ([] ++ ["B"]) = true := by
    simp [dataSized, hSec, hData, hSize]
  have hf : sectionsFit elf [] ["B"] = true := by
    simp [sectionsFit, otherFit, groupSize, sectionSizeOf, hSec, hSize, SECTION_PADDING]
  obtain ⟨out, hout⟩ := CreateZbootFile_unbounded host elf inFile outFile 2 buildDate
    (some (cstr "fw")) [] ["B"] hElf hOut hr hd hf
  obtain ⟨_, hb, _⟩ := CreateZbootFile_layout host elf inFile outFile 2 buildDate
    (some (cstr "fw")) [] ["B"] out hElf hd hf hout
  have hp : groupPayload elf ["B"] SECTION_PADDING = [b0, b1, b2, b3] := by
    simp [groupPayload, concatSections, sectionBytes, hSec, hSize, hData, padCount,
      SECTION_PADDING]
  have haddr : u32le (groupAddress elf ["B"] false) = u32le sec.address := by
    simp only [groupAddress, firstAddress, hSec, hSize]
    by_cases h0 : sec.address % 2 ^ 32 = 0
    · simp only [h0, u32le]
      simp
      omega
    · simp only [h0, u32le]
      simp
      omega
  have hc : chunk elf ["B"] false = u32le sec.address ++ u32le 4 ++ [b0, b1, b2, b3] := by
    simp [chunk, hp, haddr]
  have hh : zbootImageHeader elf 2 buildDate (some (cstr "fw")) ([] : List String).length
      ["B"].length =
      u32le 0x279BFBF1 ++ u32le 1 ++ u32le elf.e_entry ++ u32le 2 ++ u32le buildDate ++
          List.replicate 12 0 ++ (cstr "fw" ++ List.replicate 86 0) := by
    simp [zbootImageHeader, ZBOOT_MAGIC, strncpy, cstr, u32le, List.replicate]
  refine ⟨out, _, _, hout, rfl, rfl, ?_, ?_, ?_⟩
  · rw [hb, hh]
    simp only [romChunk, otherChunks, hc, if_true, List.append_nil]
    have hlen : (u32le 0x279BFBF1 ++ u32le 1 ++ u32le elf.e_entry ++ u32le 2 ++ u32le buildDate ++
          List.replicate 12 0 ++ (cstr "fw" ++ List.replicate 86 0)).length % 4 = 0 := by
      simp [u32le_length, cstr]
    have hw : ∀ H : List Nat, H.length % 4 = 0 →
        wordSum (H ++ (u32le sec.address ++ u32le 4 ++ [b0, b1, b2, b3])) =
          ((words32 H).sum + (sec.address % 2 ^ 32 + 4) + le32 b0 b1 b2 b3) % 2 ^ 32 := by
      intro H hH
      unfold wordSum
      rw [words32_append _ _ hH, List.append_assoc (u32le sec.address),
        words32_append (u32le sec.address) _ (by rw [u32le_length]),
        words32_append (u32le 4) _ (by rw [u32le_length])]
      have hw4 : words32 [b0, b1, b2, b3] = [le32 b0 b1 b2 b3] := rfl
      rw [words32_u32le, words32_u32le, hw4]
      simp only [List.sum_append, List.sum_cons, List.sum_nil]
      omega
    rw [hw _ hlen]
    simp only [List.append_assoc]
  · simp [u32le_length, cstr]
  · rw [hb]
    simp [zbootImageHeader_length, romChunk, otherChunks, hc, u32le_length]

/-- C5 at the ELF object of scenario 2, built at date 1000. -/
theorem scenario2_image_witness :
    sampleHost.LoadElf "scenario2.elf" = some scenario2Elf ∧
    sampleHost.openRoom "out.bin" = some none ∧
    scenario2Elf.GetElfSection "B" = some ⟨0x34, 0x3ffe8000, 4, "B"⟩ ∧
    scenario2Elf.GetElfSectionData ⟨0x34, 0x3ffe8000, 4, "B"⟩ = some [0xde, 0xad, 0xbe, 0xef] ∧
    ∃ out header chksum,
      CreateZbootFile sampleHost "scenario2.elf" "out.bin" 0x00000002 1000 (some (cstr "fw")) []
        ["B"] = (true, some out) ∧
      header =
        u32le 0x279BFBF1 ++ u32le 1 ++ u32le scenario2Elf.e_entry ++ u32le 2 ++ u32le 1000 ++
          List.replicate 12 0 ++ (cstr "fw" ++ List.replicate 86 0) ∧
      chksum =
        ((words32 header).sum + (0x3ffe8000 % 2 ^ 32 + 4) + le32 0xde 0xad 0xbe 0xef) % 2 ^ 32 ∧
      out.bytes =
        header ++ (u32le 0x3ffe8000 ++ u32le 4) ++ [0xde, 0xad, 0xbe, 0xef] ++ u32le chksum ∧
      header.length = 120 ∧ out.bytes.length = 136 :=
  ⟨rfl, rfl, rfl, rfl,
    scenario2_image sampleHost scenario2Elf "scenario2.elf" "out.bin" 1000
      ⟨0x34, 0x3ffe8000, 4, "B"⟩ 0xde 0xad 0xbe 0xef rfl rfl rfl rfl rfl⟩

/-- C6, as stated, fails. For the sample application, which has no section
".missing", the raw exporter returns success and leaves an empty output file. -/
theorem export_absent_section_succeeds :
    appElf.GetElfSection ".missing" = none ∧
    ExportElfSection sampleHost "app.elf" "lib.bin" ".missing" =
      (true, some { bytes := [], room := none }) := by
  decide

/-- C6, amended. For every ELF source that opens and every section name that is
not present in it, the raw exporter writes no bytes to the output; it returns
success when the output file opens (leaving it empty) and failure only when the
output file does not open. -/
theorem export_absent_section (host : Host) (elf : MyElf_File)
    (inFile outFile sectionName : String)
    (hElf : host.LoadElf inFile = some elf)
    (hAbsent : elf.GetElfSection sectionName = none) :
    (ExportElfSection host inFile outFile sectionName).1 = (host.openRoom outFile).isSome ∧
    ∀ out, (ExportElfSection host inFile outFile sectionName).2 = some out → out.bytes = [] := by
  unfold ExportElfSection fopen
  simp only [hElf]
  cases host.openRoom outFile with
  | none => simp
  | some room =>
    simp [WriteElfSection, readSections, hAbsent, padSection, checksumData, writeHeader,
      writeData]

/-- C6 (amended) at the sample application, which has no section ".missing". -/
theorem export_absent_section_witness :
    sampleHost.LoadElf "app.elf" = some appElf ∧
    appElf.GetElfSection ".missing" = none ∧
    (ExportElfSection sampleHost "app.elf" "lib.bin" ".missing").1 =
      (sampleHost.openRoom "lib.bin").isSome ∧
    ∀ out, (ExportElfSection sampleHost "app.elf" "lib.bin" ".missing").2 = some out →
      out.bytes = [] :=
  ⟨rfl, rfl, export_absent_section sampleHost appElf "app.elf" "lib.bin" ".missing" rfl rfl⟩

/-- C7. For every flash or zboot build in which the ELF and the output open and
every data read and write succeeds, the build returns success, whichever of the
listed ROM and other section names are absent from the ELF source; an absent
name contributes no payload bytes: among other names of a group it changes
nothing in what is written, and alone in a group it leaves the 8-byte chunk
header (address 0, size 0) without payload. -/
theorem builds_tolerate_absent_sections (host : Host) (elf : MyElf_File)
    (inFile outFile : String) (flashMode flashClock flashSize buildVersion buildDate : Nat)
    (buildDescription : Option (List Nat)) (romSectionList otherSectionList : List String)
    (hElf : host.LoadElf inFile = some elf) (hOut : host.openRoom outFile = some none)
    (hRead : readable elf (romSectionList ++ otherSectionList) = true)
    (hData : dataSized elf (romSectionList ++ otherSectionList) = true)
    (hFit : sectionsFit elf romSectionList otherSectionList = true) :
    (∃ out, CreateBinFile host inFile outFile flashMode flashClock flashSize
        romSectionList otherSectionList = (true, some out)) ∧
    (∃ out, CreateZbootFile host inFile outFile buildVersion buildDate buildDescription
        romSectionList otherSectionList = (true, some out)) ∧
    (∀ name, elf.GetElfSection name = none →
      (∀ (pre post : List String) (fd : FILE) (addHeader zeroAddress : Bool) (padto : Nat)
          (chksum : Option Nat) (checksumSize : Nat), pre ++ post ≠ [] →
        WriteElfSection elf fd (pre ++ name :: post) addHeader zeroAddress padto chksum
            checksumSize =
          WriteElfSection elf fd (pre ++ post) addHeader zeroAddress padto chksum checksumSize) ∧
      (∀ (fd : FILE) (chksum : Nat) (checksumSize : Nat),
          fd.room = none → checksumSize = 4 ∨ checksumSize = 1 →
        (WriteElfSection elf fd [name] true false SECTION_PADDING (some chksum)
            checksumSize).success = true ∧
        (WriteElfSection elf fd [name] true false SECTION_PADDING (some chksum)
            checksumSize).fd.bytes = fd.bytes ++ (u32le 0 ++ u32le 0))) := by
  refine ⟨?_, ?_, ?_⟩
  · exact CreateBinFile_unbounded host elf inFile outFile flashMode flashClock flashSize
      romSectionList otherSectionList hElf hOut hRead hData hFit
  · exact CreateZbootFile_unbounded host elf inFile outFile buildVersion buildDate
      buildDescription romSectionList otherSectionList hElf hOut hRead hData hFit
  · intro name hAbsent
    refine ⟨?_, ?_⟩
    · intro pre post fd ah za padto chk csz hne
      exact WriteElfSection_absent elf name hAbsent pre post hne fd ah za padto chk csz
    · intro fd chk csz hroom hc
      exact WriteElfSection_absent_single elf name hAbsent fd false (some chk) csz hroom
        (Or.inr hc) (Or.inr rfl)

/-- C7 at the sample application, with an absent name in each list. -/
theorem builds_tolerate_absent_sections_witness :
    sampleHost.LoadElf "app.elf" = some appElf ∧
    sampleHost.openRoom "app.bin" = some none ∧
    readable appElf ([".irom0.text", ".missing"] ++ [".text", ".absent", ".data"]) = true ∧
    dataSized appElf ([".irom0.text", ".missing"] ++ [".text", ".absent", ".data"]) = true ∧
    sectionsFit appElf [".irom0.text", ".missing"] [".text", ".absent", ".data"] = true ∧
    (∃ out, CreateBinFile sampleHost "app.elf" "app.bin" 2 15 4
        [".irom0.text", ".missing"] [".text", ".absent", ".data"] = (true, some out)) ∧
    (∃ out, CreateZbootFile sampleHost "app.elf" "app.bin" 1 1000 none
        [".irom0.text", ".missing"] [".text", ".absent", ".data"] = (true, some out)) ∧
    (∀ name, appElf.GetElfSection name = none →
      (∀ (pre post : List String) (fd : FILE) (addHeader zeroAddress : Bool) (padto : Nat)
          (chksum : Option Nat) (checksumSize : Nat), pre ++ post ≠ [] →
        WriteElfSection appElf fd (pre ++ name :: post) addHeader zeroAddress padto chksum
            checksumSize =
          WriteElfSection appElf fd (pre ++ post) addHeader zeroAddress padto chksum
            checksumSize) ∧
      (∀ (fd : FILE) (chksum : Nat) (checksumSize : Nat),
          fd.room = none → checksumSize = 4 ∨ checksumSize = 1 →
        (WriteElfSection appElf fd [name] true false SECTION_PADDING (some chksum)
            checksumSize).success = true ∧
        (WriteElfSection appElf fd [name] true false SECTION_PADDING (some chksum)
            checksumSize).fd.bytes = fd.bytes ++ (u32le 0 ++ u32le 0))) :=
  ⟨rfl, rfl, by decide, by decide, by decide,
    builds_tolerate_absent_sections sampleHost appElf "app.elf" "app.bin" 2 15 4 1 1000 none
      [".irom0.text", ".missing"] [".text", ".absent", ".data"] rfl rfl (by decide) (by decide)
      (by decide)⟩

/-- C8. For every ELF source that opens, every output that opens and every list
of section names whose data reads succeed, the header-file exporter returns
failure if and only if at least one listed name is absent from the ELF source;
in particular a non-empty list of only absent names fails, and no section after
the first absent one is emitted: the file is the one written for the names
before it. -/
theorem header_export_fails_iff_absent (host : Host) (elf : MyElf_File)
    (inFile outFile : String) (sections : List String)
    (hElf : host.LoadElf inFile = some elf) (hOut : (host.openRoom outFile).isSome = true)
    (hRead : headerReadable elf sections = true) :
    ((CreateHeaderFile host inFile outFile sections).1 = false ↔
      ∃ name ∈ sections, elf.GetElfSection name = none) ∧
    (sections ≠ [] → (∀ name ∈ sections, elf.GetElfSection name = none) →
      (CreateHeaderFile host inFile outFile sections).1 = false) ∧
    (∀ (pre post : List String) (name : String),
      sections = pre ++ name :: post → elf.GetElfSection name = none →
      CreateHeaderFile host inFile outFile sections =
        (false, (CreateHeaderFile host inFile outFile pre).2)) := by
  obtain ⟨room, hroom⟩ := Option.isSome_iff_exists.mp hOut
  have hiff : (CreateHeaderFile host inFile outFile sections).1 = false ↔
      ∃ name ∈ sections, elf.GetElfSection name = none := by
    simp only [CreateHeaderFile, hElf, fopen, hroom, Option.map_some']
    exact headerSections_flag elf sections _ hRead
  refine ⟨hiff, ?_, ?_⟩
  · intro hne hall
    rw [hiff]
    cases sections with
    | nil => exact absurd rfl hne
    | cons n rest => exact ⟨n, List.mem_cons_self _ _, hall n (List.mem_cons_self _ _)⟩
  · intro pre post name hs hAbsent
    subst hs
    simp only [CreateHeaderFile, hElf, fopen, hroom, Option.map_some']
    rw [headerSections_absent elf name hAbsent]

/-- C8 at the sample application, with an absent name between two present ones. -/
theorem header_export_fails_iff_absent_witness :
    sampleHost.LoadElf "app.elf" = some appElf ∧
    (sampleHost.openRoom "app.h").isSome = true ∧
    headerReadable appElf [".text", ".missing", ".rodata"] = true ∧
    ((CreateHeaderFile sampleHost "app.elf" "app.h" [".text", ".missing", ".rodata"]).1 = false ↔
      ∃ name ∈ [".text", ".missing", ".rodata"], appElf.GetElfSection name = none) ∧
    ([".text", ".missing", ".rodata"] ≠ [] →
      (∀ name ∈ [".text", ".missing", ".rodata"], appElf.GetElfSection name = none) →
      (CreateHeaderFile sampleHost "app.elf" "app.h" [".text", ".missing", ".rodata"]).1 = false) ∧
    (∀ (pre post : List String) (name : String),
      [".text", ".missing", ".rodata"] = pre ++ name :: post →
      appElf.GetElfSection name = none →
      CreateHeaderFile sampleHost "app.elf" "app.h" [".text", ".missing", ".rodata"] =
        (false, (CreateHeaderFile sampleHost "app.elf" "app.h" pre).2)) :=
  ⟨rfl, rfl, by decide,
    header_export_fails_iff_absent sampleHost appElf "app.elf" "app.h"
      [".text", ".missing", ".rodata"] rfl rfl (by decide)⟩

/-- C9. For every ordered list of section names, the payload a successful
`WriteElfSection` call writes, between the optional chunk header and the
alignment padding, is the concatenation in list order of the bytes of exactly
those names that resolve to a section of non-zero size; absent names and
zero-size sections contribute nothing. In particular the raw exporter (one
present name, no header, no alignment, no checksum) writes exactly that
section's bytes. -/
theorem aggregator_concatenates (elf : MyElf_File) (fd : FILE) (names : List String)
    (addHeader zeroAddress : Bool) (padto : Nat) (chksum : Option Nat) (checksumSize : Nat)
    (hData : dataSized elf names = true) (hFit : groupSize elf names + padto < 2 ^ 32)
    (hOk : (WriteElfSection elf fd names addHeader zeroAddress padto chksum
      checksumSize).success = true) :
    (∃ header padding,
      (WriteElfSection elf fd names addHeader zeroAddress padto chksum checksumSize).fd.bytes =
        fd.bytes ++ header ++ concatSections elf names ++ padding ∧
      header.length = (if addHeader = true ∧ names ≠ [] then 8 else 0) ∧
      padding = List.replicate (padCount padto (concatSections elf names).length) 0xA5) ∧
    (∀ name rest, concatSections elf (name :: rest) =
      sectionBytes elf name ++ concatSections elf rest) ∧
    (∀ name, elf.GetElfSection name = none → sectionBytes elf name = []) ∧
    (∀ name sec, elf.GetElfSection name = some sec → sec.size = 0 → sectionBytes elf name = []) ∧
    (∀ name sec buffer, elf.GetElfSection name = some sec → sec.size ≠ 0 →
      elf.GetElfSectionData sec = some buffer → sectionBytes elf name = buffer) ∧
    (∀ (host : Host) (inFile outFile sectionName : String) (sec : MyElf_Section)
        (buffer : List Nat),
      host.LoadElf inFile = some elf → host.openRoom outFile = some none →
      elf.GetElfSection sectionName = some sec → elf.GetElfSectionData sec = some buffer →
      buffer.length = sec.size → sec.size < 2 ^ 32 →
      ExportElfSection host inFile outFile sectionName =
        (true, some { bytes := buffer, room := none })) := by
  refine ⟨?_, fun _ _ => rfl, ?_, ?_, ?_, ?_⟩
  · by_cases hne : names = []
    · subst hne
      refine ⟨[], [], ?_, by simp, by simp [concatSections, padCount]⟩
      simp [WriteElfSection, concatSections]
    · obtain ⟨_, _, w3, _⟩ := WriteElfSection_spec elf fd names addHeader zeroAddress padto
        chksum checksumSize hne hData hFit hOk
      refine ⟨if addHeader = true then
          u32le (groupAddress elf names zeroAddress) ++ u32le (groupPayload elf names padto).length
        else [], List.replicate (padCount padto (concatSections elf names).length) 0xA5,
        ?_, ?_, rfl⟩
      · rw [w3, groupPayload, ← List.append_assoc]
      · cases addHeader <;> simp [hne, u32le_length]
  · intro name h
    simp [sectionBytes, h]
  · intro name sec h hz
    simp [sectionBytes, h, hz]
  · intro name sec buffer h hz hb
    simp [sectionBytes, h, hz, hb]
  · intro host inFile outFile sectionName sec buffer hElf hOut hSec hBuf hLen hSize
    have hd : dataSized elf [sectionName] = true := by
      simp [dataSized, hSec, hBuf, hLen]
    have hr : readable elf [sectionName] = true := by
      simp [readable, hSec, hBuf]
    have hf : groupSize elf [sectionName] + 0 < 2 ^ 32 := by
      simp only [groupSize, sectionSizeOf, hSec]; omega
    have hroom : ({ bytes := [], room := none } : FILE).room = none := rfl
    obtain ⟨u1, u2⟩ := WriteElfSection_unbounded elf ⟨[], none⟩ [sectionName] false false 0 none 0
      hroom hr hd hf (Or.inl rfl) (Or.inl rfl)
    obtain ⟨_, _, w3, _⟩ := WriteElfSection_spec elf ⟨[], none⟩ [sectionName] false false 0
      none 0 (by simp) hd hf u1
    have hbytes : (WriteElfSection elf ⟨[], none⟩ [sectionName] false false 0 none 0).fd.bytes =
        buffer := by
      rw [w3]
      by_cases hz : sec.size = 0
      · have : buffer = [] := List.eq_nil_of_length_eq_zero (by omega)
        simp [groupPayload, concatSections, sectionBytes, hSec, hz, padCount, this]
      · simp [groupPayload, concatSections, sectionBytes, hSec, hz, hBuf, padCount]
    simp only [ExportElfSection, hElf, fopen, hOut, Option.map_some', u1]
    generalize WriteElfSection elf ⟨[], none⟩ [sectionName] false false 0 none 0 = w at *
    obtain ⟨s, ⟨b, r⟩, c⟩ := w
    simp only at u2 hbytes
    subst u2 hbytes
    rfl

/-- C9 at the sample application: a group of a present, an absent, an empty and a present
section, and the raw export of ".irom0.text". -/
theorem aggregator_concatenates_witness :
    dataSized appElf [".irom0.text", ".missing", ".rodata", ".text"] = true ∧
    groupSize appElf [".irom0.text", ".missing", ".rodata", ".text"] + 4 < 2 ^ 32 ∧
    (WriteElfSection appElf ⟨[], none⟩ [".irom0.text", ".missing", ".rodata", ".text"] true true 4
      (some 0xEF) 1).success = true ∧
    concatSections appElf [".irom0.text", ".missing", ".rodata", ".text"] =
      [0x12, 0xc1, 0xf0, 0x09, 0x01, 0x0d] ++ [0x36, 0x41, 0x00, 0x1d, 0xf0] ∧
    (∃ header padding,
      (WriteElfSection appElf ⟨[], none⟩ [".irom0.text", ".missing", ".rodata", ".text"] true
        true 4 (some 0xEF) 1).fd.bytes =
        [] ++ header ++ concatSections appElf [".irom0.text", ".missing", ".rodata", ".text"] ++
          padding ∧
      header.length =
        (if true = true ∧ [".irom0.text", ".missing", ".rodata", ".text"] ≠ [] then 8 else 0) ∧
      padding = List.replicate
        (padCount 4 (concatSections appElf
          [".irom0.text", ".missing", ".rodata", ".text"]).length) 0xA5) ∧
    ExportElfSection sampleHost "app.elf" "lib.bin" ".irom0.text" =
      (true, some { bytes := [0x12, 0xc1, 0xf0, 0x09, 0x01, 0x0d], room := none }) :=
  ⟨by decide, by decide, by decide, by decide,
    (aggregator_concatenates appElf ⟨[], none⟩ [".irom0.text", ".missing", ".rodata", ".text"]
      true true 4 (some 0xEF) 1 (by decide) (by decide) (by decide)).1,
    (aggregator_concatenates appElf ⟨[], none⟩ [".irom0.text", ".missing", ".rodata", ".text"]
      true true 4 (some 0xEF) 1 (by decide) (by decide) (by decide)).2.2.2.2.2
      sampleHost "app.elf" "lib.bin" ".irom0.text" ⟨0x1000, 0x40210000, 6, ".irom0.text"⟩
      [0x12, 0xc1, 0xf0, 0x09, 0x01, 0x0d] rfl rfl rfl rfl rfl (by decide)⟩

/-- C10. For every concatenated length L (with L plus the alignment below
`2 ^ 32`) and every alignment A > 0, the aggregator appends exactly
pad = (A - L mod A) mod A bytes after the section bytes, every appended byte is
0xA5, the section bytes are unchanged, and the resulting payload length L + pad
is a multiple of A; with A = 0 nothing is appended. Stated for the padding phase
of `WriteElfSection` and for what a successful call writes. -/
theorem aggregator_padding (A : Nat) (st : WState)
    (hSuccess : st.success = true) (hLen : st.data.length = st.totalSize)
    (hFit : st.totalSize + A < 2 ^ 32) :
    (padSection A st).data =
      st.data ++ List.replicate ((A - st.totalSize % A) % A) 0xA5 ∧
    (padSection A st).totalSize = st.totalSize + (A - st.totalSize % A) % A ∧
    (padSection A st).data.length = (padSection A st).totalSize ∧
    (0 < A → (padSection A st).totalSize % A = 0) ∧
    (A = 0 → padSection A st = st) ∧
    (∀ (elf : MyElf_File) (fd : FILE) (names : List String) (zeroAddress : Bool)
        (chksum : Option Nat) (checksumSize : Nat),
      names ≠ [] → dataSized elf names = true → groupSize elf names + A < 2 ^ 32 →
      (WriteElfSection elf fd names false zeroAddress A chksum checksumSize).success = true →
      (WriteElfSection elf fd names false zeroAddress A chksum checksumSize).fd.bytes =
        fd.bytes ++ concatSections elf names ++
          List.replicate ((A - (concatSections elf names).length % A) % A) 0xA5) := by
  have hp := padSection_spec A st hSuccess hFit
  refine ⟨?_, ?_, ?_, ?_, ?_, ?_⟩
  · rw [hp]; rfl
  · rw [hp]; rfl
  · rw [hp]; simp [hLen, padCount]
  · intro hA
    rw [hp]
    exact padCount_aligned A st.totalSize hA
  · intro hA
    subst hA
    simp [padSection]
  · intro elf fd names za chk csz hne hd hf hok
    obtain ⟨_, _, w3, _⟩ := WriteElfSection_spec elf fd names false za A chk csz hne hd hf hok
    rw [w3]
    simp [groupPayload, padCount]

/-- C10 at a buffer of 6 bytes and alignment 4. -/
theorem aggregator_padding_witness :
    (⟨true, [1, 2, 3, 4, 5, 6], 6, 0⟩ : WState).success = true ∧
    (⟨true, [1, 2, 3, 4, 5, 6], 6, 0⟩ : WState).data.length = 6 ∧
    6 + 4 < 2 ^ 32 ∧
    (padSection 4 ⟨true, [1, 2, 3, 4, 5, 6], 6, 0⟩).data =
      [1, 2, 3, 4, 5, 6] ++ List.replicate ((4 - 6 % 4) % 4) 0xA5 ∧
    (padSection 4 ⟨true, [1, 2, 3, 4, 5, 6], 6, 0⟩).totalSize = 6 + (4 - 6 % 4) % 4 ∧
    (0 < 4 → (padSection 4 ⟨true, [1, 2, 3, 4, 5, 6], 6, 0⟩).totalSize % 4 = 0) :=
  ⟨rfl, rfl, by decide,
    (aggregator_padding 4 ⟨true, [1, 2, 3, 4, 5, 6], 6, 0⟩ rfl rfl (by decide)).1,
    (aggregator_padding 4 ⟨true, [1, 2, 3, 4, 5, 6], 6, 0⟩ rfl rfl (by decide)).2.1,
    (aggregator_padding 4 ⟨true, [1, 2, 3, 4, 5, 6], 6, 0⟩ rfl rfl (by decide)).2.2.2.1⟩

/-! ## The stream only grows -/

theorem fwrite_extends (buf : List Nat) (fd : FILE) :
    ∃ tail, (fwrite buf fd).2.bytes = fd.bytes ++ tail := by
  unfold fwrite
  cases fd.room with
  | none => exact ⟨buf, rfl⟩
  | some r => exact ⟨buf.take r, rfl⟩

theorem writeHeader_extends (st : WState) (s : Bool) (fd : FILE) (ah : Bool) (chk : Option Nat)
    (csz : Nat) : ∃ tail, (writeHeader st s fd ah chk csz).fd.bytes = fd.bytes ++ tail := by
  unfold writeHeader
  by_cases h : s = true ∧ ah = true
  · rw [if_pos h]
    by_cases h4 : csz = 4
    · cases chk with
      | none => simp only [h4, if_true]; exact fwrite_extends _ _
      | some c => simp only [h4, if_true]; exact fwrite_extends _ _
    · simp only [h4, if_false]
      exact fwrite_extends _ _
  · rw [if_neg h]
    exact ⟨[], by simp⟩

theorem writeData_extends (st : WState) (r : WResult) :
    ∃ tail, (writeData st r).fd.bytes = r.fd.bytes ++ tail := by
  unfold writeData
  by_cases h : r.success = true ∧ st.totalSize > 0
  · rw [if_pos h]
    exact fwrite_extends _ _
  · rw [if_neg h]
    exact ⟨[], by simp⟩

theorem WriteElfSection_extends (elf : MyElf_File) (fd : FILE) (names : List String)
    (ah za : Bool) (padto : Nat) (chk : Option Nat) (csz : Nat) :
    ∃ tail, (WriteElfSection elf fd names ah za padto chk csz).fd.bytes = fd.bytes ++ tail := by
  unfold WriteElfSection
  split_ifs
  · exact ⟨[], by simp⟩
  · simp only
    obtain ⟨t1, h1⟩ := writeData_extends
      (padSection padto (readSections elf za names ⟨true, [], 0, 0⟩))
      (writeHeader (padSection padto (readSections elf za names ⟨true, [], 0, 0⟩))
        (checksumData (padSection padto (readSections elf za names ⟨true, [], 0, 0⟩)) chk csz).1
        fd ah
        (checksumData (padSection padto (readSections elf za names ⟨true, [], 0, 0⟩)) chk csz).2
        csz)
    obtain ⟨t2, h2⟩ := writeHeader_extends
      (padSection padto (readSections elf za names ⟨true, [], 0, 0⟩))
      (checksumData (padSection padto (readSections elf za names ⟨true, [], 0, 0⟩)) chk csz).1
      fd ah
      (checksumData (padSection padto (readSections elf za names ⟨true, [], 0, 0⟩)) chk csz).2
      csz
    exact ⟨t2 ++ t1, by rw [h1, h2, List.append_assoc]⟩

theorem writeOtherSections_extends (elf : MyElf_File) (csz : Nat) :
    ∀ (other : List String) (r : WResult),
      ∃ tail, (writeOtherSections elf csz other r).fd.bytes = r.fd.bytes ++ tail := by
  intro other
  induction other with
  | nil => intro r; exact ⟨[], by simp [writeOtherSections]⟩
  | cons n rest ih =>
    intro r
    simp only [writeOtherSections]
    split_ifs
    · exact ⟨[], by simp⟩
    · obtain ⟨t1, h1⟩ := ih (WriteElfSection elf r.fd [n] true false SECTION_PADDING r.chksum csz)
      obtain ⟨t2, h2⟩ := WriteElfSection_extends elf r.fd [n] true false SECTION_PADDING
        r.chksum csz
      exact ⟨t2 ++ t1, by rw [h1, h2, List.append_assoc]⟩

theorem writeRomSections_extends (elf : MyElf_File) (csz : Nat) (rom : List String)
    (r : WResult) :
    ∃ tail, (writeRomSections elf csz rom r).fd.bytes = r.fd.bytes ++ tail := by
  unfold writeRomSections
  split_ifs
  · exact WriteElfSection_extends _ _ _ _ _ _ _ _
  · exact ⟨[], by simp⟩

theorem writeOtherSections_success_flag (elf : MyElf_File) (csz : Nat) (other : List String)
    (r : WResult) (h : (writeOtherSections elf csz other r).success = true) :
    r.success = true := by
  by_cases hs : r.success = true
  · exact hs
  · simp only [Bool.not_eq_true] at hs
    rw [writeOtherSections_failed elf csz other r hs] at h
    rw [hs] at h
    exact absurd h (by simp)

theorem writeRomSections_success_flag (elf : MyElf_File) (csz : Nat) (rom : List String)
    (r : WResult) (h : (writeRomSections elf csz rom r).success = true) :
    r.success = true := by
  by_cases hs : r.success = true
  · exact hs
  · unfold writeRomSections at h
    simp only [hs, false_and, if_false] at h
    exact absurd h hs

theorem binSections_starts (elf : MyElf_File) (fd : FILE) (fm fc fs : Nat)
    (rom other : List String)
    (h : (binSections elf fd fm fc fs rom other).success = true) :
    ∃ tail, (binSections elf fd fm fc fs rom other).fd.bytes =
      fd.bytes ++ binImageHeader elf fm fc fs rom.length other.length ++ tail := by
  unfold binSections at h ⊢
  simp only at h ⊢
  have o1 := writeOtherSections_success_flag _ _ _ _ h
  have r1 := writeRomSections_success_flag _ _ _ _ o1
  simp only at r1
  have hn : (fwrite (binImageHeader elf fm fc fs rom.length other.length) fd).1 = 8 := by
    by_contra hne
    simp [hne] at r1
  have hb := fwrite_complete _ fd (by rw [hn, binImageHeader_length])
  obtain ⟨ta, ha⟩ := writeOtherSections_extends elf 1 other
    (writeRomSections elf 1 rom
      { success := if (fwrite (binImageHeader elf fm fc fs rom.length other.length) fd).1 ≠ 8
                   then false else true,
        fd := (fwrite (binImageHeader elf fm fc fs rom.length other.length) fd).2,
        chksum := some CHECKSUM_INIT })
  obtain ⟨tb, hb2⟩ := writeRomSections_extends elf 1 rom
      { success := if (fwrite (binImageHeader elf fm fc fs rom.length other.length) fd).1 ≠ 8
                   then false else true,
        fd := (fwrite (binImageHeader elf fm fc fs rom.length other.length) fd).2,
        chksum := some CHECKSUM_INIT }
  simp only at hb2
  exact ⟨tb ++ ta, by rw [ha, hb2, hb]; simp only [List.append_assoc]⟩

theorem zbootSections_starts (elf : MyElf_File) (fd : FILE) (v d : Nat)
    (desc : Option (List Nat)) (rom other : List String)
    (h : (zbootSections elf fd v d desc rom other).success = true) :
    ∃ tail, (zbootSections elf fd v d desc rom other).fd.bytes =
      fd.bytes ++ zbootImageHeader elf v d desc rom.length other.length ++ tail := by
  unfold zbootSections at h ⊢
  simp only at h ⊢
  have o1 := writeOtherSections_success_flag _ _ _ _ h
  have r1 := writeRomSections_success_flag _ _ _ _ o1
  simp only at r1
  have hn : (fwrite (zbootImageHeader elf v d desc rom.length other.length) fd).1 = 120 := by
    by_contra hne
    simp [hne] at r1
  have hb := fwrite_complete _ fd (by rw [hn, zbootImageHeader_length])
  obtain ⟨ta, ha⟩ := writeOtherSections_extends elf 4 other
    (writeRomSections elf 4 rom
      { success := if (fwrite (zbootImageHeader elf v d desc rom.length other.length) fd).1
                     ≠ 120 then false else true,
        fd := (fwrite (zbootImageHeader elf v d desc rom.length other.length) fd).2,
        chksum := some (sum32 0 (zbootImageHeader elf v d desc rom.length other.length)) })
  obtain ⟨tb, hb2⟩ := writeRomSections_extends elf 4 rom
      { success := if (fwrite (zbootImageHeader elf v d desc rom.length other.length) fd).1
                     ≠ 120 then false else true,
        fd := (fwrite (zbootImageHeader elf v d desc rom.length other.length) fd).2,
        chksum := some (sum32 0 (zbootImageHeader elf v d desc rom.length other.length)) }
  simp only at hb2
  exact ⟨tb ++ ta, by rw [ha, hb2, hb]; simp only [List.append_assoc]⟩

/-- A successful flash build starts its output with the image header. -/
theorem CreateBinFile_starts (host : Host) (inFile outFile : String) (fm fc fs : Nat)
    (rom other : List String) (out : FILE)
    (h : CreateBinFile host inFile outFile fm fc fs rom other = (true, some out)) :
    ∃ elf tail, host.LoadElf inFile = some elf ∧
      out.bytes = binImageHeader elf fm fc fs rom.length other.length ++ tail := by
  unfold CreateBinFile at h
  cases hElf : host.LoadElf inFile with
  | none => simp [hElf] at h
  | some elf =>
    cases hfd : fopen host outFile with
    | none => simp [hElf, hfd] at h
    | some fd =>
      have hfd0 : fd.bytes = [] := by
        unfold fopen at hfd
        cases hr : host.openRoom outFile with
        | none => simp [hr] at hfd
        | some r => simp [hr] at hfd; rw [← hfd]
      simp only [hElf, hfd, Prod.mk.injEq, Option.some.injEq] at h
      obtain ⟨t1, t2⟩ := binTrailer_spec _ h.1
      rw [h.2] at t2
      obtain ⟨tail, ht⟩ := binSections_starts elf fd fm fc fs rom other t1
      rw [ht, hfd0] at t2
      exact ⟨elf, _, rfl, by rw [t2]; simp only [List.nil_append, List.append_assoc]; rfl⟩

/-- A successful zboot build starts its output with the image header. -/
theorem CreateZbootFile_starts (host : Host) (inFile outFile : String) (v d : Nat)
    (desc : Option (List Nat)) (rom other : List String) (out : FILE)
    (h : CreateZbootFile host inFile outFile v d desc rom other = (true, some out)) :
    ∃ elf tail, host.LoadElf inFile = some elf ∧
      out.bytes = zbootImageHeader elf v d desc rom.length other.length ++ tail := by
  unfold CreateZbootFile at h
  cases hElf : host.LoadElf inFile with
  | none => simp [hElf] at h
  | some elf =>
    cases hfd : fopen host outFile with
    | none => simp [hElf, hfd] at h
    | some fd =>
      have hfd0 : fd.bytes = [] := by
        unfold fopen at hfd
        cases hr : host.openRoom outFile with
        | none => simp [hr] at hfd
        | some r => simp [hr] at hfd; rw [← hfd]
      simp only [hElf, hfd] at h
      by_cases hs : (zbootSections elf fd v d desc rom other).success = true
      · simp only [hs, if_true, Prod.mk.injEq, Option.some.injEq] at h
        obtain ⟨tc, hc⟩ := fwrite_extends
          (u32le ((zbootSections elf fd v d desc rom other).chksum.getD 0))
          (zbootSections elf fd v d desc rom other).fd
        rw [h.2] at hc
        obtain ⟨tail, ht⟩ := zbootSections_starts elf fd v d desc rom other hs
        rw [ht, hfd0] at hc
        exact ⟨elf, _, rfl, by rw [hc]; simp only [List.nil_append, List.append_assoc]; rfl⟩
      · simp [hs] at h

/-! ## The address field of a group -/

theorem firstAddress_of_nonzero (elf : MyElf_File) :
    ∀ names : List String, firstNonEmptyAddress elf names ≠ 0 →
      firstAddress elf names = firstNonEmptyAddress elf names := by
  intro names
  induction names with
  | nil => intro _; rfl
  | cons n rest ih =>
    intro h
    simp only [firstAddress, firstNonEmptyAddress] at h ⊢
    cases hsec : elf.GetElfSection n with
    | none =>
      simp only [hsec] at h ⊢
      exact ih h
    | some sec =>
      simp only [hsec] at h ⊢
      by_cases hz : sec.size = 0
      · simp only [hz, if_true] at h ⊢
        exact ih h
      · simp only [hz, if_false] at h ⊢
        rw [if_neg h]

theorem firstAddress_single (elf : MyElf_File) (n : String) :
    firstAddress elf [n] = firstNonEmptyAddress elf [n] := by
  simp only [firstAddress, firstNonEmptyAddress]
  cases elf.GetElfSection n with
  | none => rfl
  | some sec =>
    simp only
    by_cases hz : sec.size = 0
    · simp [hz]
    · by_cases h0 : sec.address % 2 ^ 32 = 0
      · rw [if_neg hz, if_neg hz, if_pos h0, h0]
      · rw [if_neg hz, if_neg hz, if_neg h0]

/-- C11, as stated, fails. With the group [".vectors", ".text"], where ".vectors"
is a non-empty section loaded at address 0 and ".text" is loaded at 0x40100000,
the address field written is 0x40100000 and not 0, the load address of the first
non-empty section. -/
theorem chunk_address_skips_zero_address :
    firstNonEmptyAddress zeroBaseElf [".vectors", ".text"] = 0 ∧
    (WriteElfSection zeroBaseElf ⟨[], none⟩ [".vectors", ".text"] true false 4 none 0).success
      = true ∧
    (WriteElfSection zeroBaseElf ⟨[], none⟩ [".vectors", ".text"] true false 4 none 0).fd.bytes
      = u32le 0x40100000 ++ u32le 8 ++ [1, 2, 3, 4, 5, 6, 7, 8] ∧
    u32le 0x40100000 ≠ u32le (firstNonEmptyAddress zeroBaseElf [".vectors", ".text"]) := by
  decide

/-- C11, amended. For every group of section names, the address field of the
chunk header a successful `WriteElfSection` call writes is 0 when `zeroAddress`
is set, and otherwise the load address of the first name in list order that
resolves to a non-empty section with a non-zero load address (0 when there is
none). That is the load address of the first non-empty section whenever this
address is not 0, and always when the group has one name. -/
theorem chunk_address_field (elf : MyElf_File) (fd : FILE) (names : List String)
    (zeroAddress : Bool) (padto : Nat) (chksum : Option Nat) (checksumSize : Nat)
    (hNames : names ≠ []) (hData : dataSized elf names = true)
    (hFit : groupSize elf names + padto < 2 ^ 32)
    (hOk : (WriteElfSection elf fd names true zeroAddress padto chksum checksumSize).success
      = true) :
    (∃ rest,
      (WriteElfSection elf fd names true zeroAddress padto chksum checksumSize).fd.bytes =
        fd.bytes ++ u32le (if zeroAddress = true then 0 else firstAddress elf names) ++ rest) ∧
    (firstNonEmptyAddress elf names ≠ 0 →
      firstAddress elf names = firstNonEmptyAddress elf names) ∧
    (∀ name, firstAddress elf [name] = firstNonEmptyAddress elf [name]) := by
  obtain ⟨_, _, w3, _⟩ := WriteElfSection_spec elf fd names true zeroAddress padto chksum
    checksumSize hNames hData hFit hOk
  refine ⟨⟨u32le (groupPayload elf names padto).length ++ groupPayload elf names padto, ?_⟩,
    firstAddress_of_nonzero elf names, firstAddress_single elf⟩
  rw [w3]
  simp only [if_true, groupAddress, List.append_assoc]

/-- C11 (amended) at the group [".vectors", ".text"] of an ELF object whose first
section is loaded at address 0. -/
theorem chunk_address_field_witness :
    dataSized zeroBaseElf [".vectors", ".text"] = true ∧
    groupSize zeroBaseElf [".vectors", ".text"] + 4 < 2 ^ 32 ∧
    firstAddress zeroBaseElf [".vectors", ".text"] = 0x40100000 ∧
    ∃ rest,
      (WriteElfSection zeroBaseElf ⟨[], none⟩ [".vectors", ".text"] true false 4
        (some 0xEF) 1).fd.bytes =
        [] ++ u32le (if false = true then 0 else firstAddress zeroBaseElf [".vectors", ".text"])
          ++ rest :=
  ⟨by decide, by decide, by decide,
    (chunk_address_field zeroBaseElf ⟨[], none⟩ [".vectors", ".text"] false 4 (some 0xEF) 1
      (by decide) (by decide) (by decide) (by decide)).1⟩

/-! ## The image headers and the build date -/

theorem flags2_small (fs fc : Nat) (hs : fs < 16) (hc : fc < 16) :
    ((fs <<< 4) ||| (fc &&& 0xf)) % 256 = (fs <<< 4) ||| fc := by
  interval_cases fs <;> interval_cases fc <;> rfl

/-- C12. For every successful flash binary build with flash mode, size and clock
codes below 16 and a section count below 256, the first 8 bytes of the output
are 0xE9, the section count len(other) + (1 if rom non-empty else 0), the flash
mode code, (size code << 4) | clock code, and the ELF entry address as 4
little-endian bytes. -/
theorem flash_header_bytes (host : Host) (inFile outFile : String)
    (flashMode flashClock flashSize : Nat) (romSectionList otherSectionList : List String)
    (out : FILE)
    (hMode : flashMode < 16) (hSize : flashSize < 16) (hClock : flashClock < 16)
    (hCount : otherSectionList.length + (if romSectionList = [] then 0 else 1) < 256)
    (hOk : CreateBinFile host inFile outFile flashMode flashClock flashSize
      romSectionList otherSectionList = (true, some out)) :
    ∃ elf, host.LoadElf inFile = some elf ∧
      out.bytes.take 8 =
        [0xE9, otherSectionList.length + (if romSectionList = [] then 0 else 1), flashMode,
          (flashSize <<< 4) ||| flashClock,
          elf.e_entry % 256, elf.e_entry / 256 % 256, elf.e_entry / 65536 % 256,
          elf.e_entry / 16777216 % 256] := by
  obtain ⟨elf, tail, hElf, hb⟩ := CreateBinFile_starts host inFile outFile flashMode flashClock
    flashSize romSectionList otherSectionList out hOk
  refine ⟨elf, hElf, ?_⟩
  rw [hb, List.take_left' (binImageHeader_length _ _ _ _ _ _)]
  have hrom : (if romSectionList.length > 0 then 1 else 0) =
      (if romSectionList = [] then 0 else 1) := by
    cases romSectionList <;> simp
  simp only [binImageHeader, BIN_MAGIC_FLASH, u32le, hrom, flags2_small _ _ hSize hClock,
    Nat.mod_eq_of_lt hCount, Nat.mod_eq_of_lt (show flashMode < 256 by omega)]
  rfl

/-- C12 at the sample application: mode DIO (2), clock 80 MHz (15), size 4M (4). -/
theorem flash_header_bytes_witness :
    ∃ out,
      CreateBinFile sampleHost "app.elf" "app.bin" 2 15 4 [".irom0.text", ".rodata"]
        [".text", ".missing", ".data"] = (true, some out) ∧
      ∃ elf, sampleHost.LoadElf "app.elf" = some elf ∧
        out.bytes.take 8 =
          [0xE9, [".text", ".missing", ".data"].length +
              (if [".irom0.text", ".rodata"] = [] then 0 else 1), 2,
            (4 <<< 4) ||| 15,
            elf.e_entry % 256, elf.e_entry / 256 % 256, elf.e_entry / 65536 % 256,
            elf.e_entry / 16777216 % 256] :=
  ⟨_, rfl, flash_header_bytes sampleHost "app.elf" "app.bin" 2 15 4
      [".irom0.text", ".rodata"] [".text", ".missing", ".data"] _
      (by decide) (by decide) (by decide) (by decide) rfl⟩

/-- C14. For every Unix time t representable in 32 bits, the zboot build date
`GetZbootTimestamp` computes is 0 when t < 946684800 and t - 946684800
otherwise; 946684800 maps to 0, every earlier time to 0, and 946684801 to 1. -/
theorem zboot_timestamp (t : Nat) (hTime : t < 2 ^ 32) :
    GetZbootTimestamp t = (if t < 946684800 then 0 else t - 946684800) ∧
    GetZbootTimestamp 946684800 = 0 ∧
    (t < 946684800 → GetZbootTimestamp t = 0) ∧
    GetZbootTimestamp 946684801 = 1 := by
  have hmod : t % 2 ^ 32 = t := Nat.mod_eq_of_lt hTime
  refine ⟨?_, by decide, ?_, by decide⟩
  · simp only [GetZbootTimestamp, SECONDS_BETWEEN_1970_AND_2000, hmod]
  · intro h
    simp only [GetZbootTimestamp, SECONDS_BETWEEN_1970_AND_2000, hmod, h, if_true]

/-- C14 at the time 1000000000 (2001-09-09). -/
theorem zboot_timestamp_witness :
    1000000000 < 2 ^ 32 ∧
    GetZbootTimestamp 1000000000 = (if 1000000000 < 946684800 then 0 else 1000000000 - 946684800) ∧
    GetZbootTimestamp 1000000000 = 53315200 :=
  ⟨by decide, (zboot_timestamp 1000000000 (by decide)).1, by decide⟩

theorem strncpy_of_string (d : List Nat) (n : Nat) (h : ∀ b ∈ d, b ≠ 0) :
    strncpy d n = d.take n ++ List.replicate (n - d.length) 0 := by
  have ht : d.takeWhile (fun b => decide (b ≠ 0)) = d := by
    rw [List.takeWhile_eq_self_iff]
    intro b hb
    simpa using h b hb
  simp only [strncpy, ht]

theorem zbootImageHeader_split (elf : MyElf_File) (v date : Nat) (desc : Option (List Nat))
    (rc oc : Nat) :
    ∃ fields, fields.length = 20 ∧
      zbootImageHeader elf v date desc rc oc =
        fields ++ List.replicate 12 0 ++
          (match desc with
           | some d => strncpy d 88
           | none => strcpy (List.replicate 88 0) ZBOOT_DEFAULT_BUILD_DESCRIPTION) :=
  ⟨u32le ZBOOT_MAGIC ++ u32le (oc + (if rc > 0 then 1 else 0)) ++ u32le elf.e_entry ++
      u32le v ++ u32le date, by simp [u32le_length], by
    simp only [zbootImageHeader]
    rfl⟩

/-- C13. For every build description string d (a C string: no NUL byte in it),
the 88-byte description field of the zboot header is the first min(len(d), 88)
bytes of d followed by NUL bytes up to 88 bytes, so no NUL is present when
len(d) >= 88; when no description is supplied the field is "zboot application"
followed by NUL bytes; the three reserved words of the header are 0; and the
header so filled is the first 120 bytes of a successful build's output. -/
theorem zboot_description_field (elf : MyElf_File) (buildVersion buildDate : Nat)
    (romSectionCount otherSectionCount : Nat) (d : List Nat) (hString : ∀ b ∈ d, b ≠ 0) :
    (zbootImageHeader elf buildVersion buildDate (some d) romSectionCount
        otherSectionCount).drop 32 =
      d.take 88 ++ List.replicate (88 - d.length) 0 ∧
    (d.take 88 ++ List.replicate (88 - d.length) 0).length = 88 ∧
    (88 ≤ d.length →
      ∀ b ∈ (zbootImageHeader elf buildVersion buildDate (some d) romSectionCount
        otherSectionCount).drop 32, b ≠ 0) ∧
    (zbootImageHeader elf buildVersion buildDate none romSectionCount
        otherSectionCount).drop 32 =
      cstr "zboot application" ++ List.replicate 71 0 ∧
    (∀ desc, ((zbootImageHeader elf buildVersion buildDate desc romSectionCount
        otherSectionCount).drop 20).take 12 = List.replicate 12 0) ∧
    (∀ (host : Host) (inFile outFile : String) (desc : Option (List Nat))
        (romSectionList otherSectionList : List String) (out : FILE),
      host.LoadElf inFile = some elf →
      CreateZbootFile host inFile outFile buildVersion buildDate desc romSectionList
        otherSectionList = (true, some out) →
      out.bytes.take 120 =
        zbootImageHeader elf buildVersion buildDate desc romSectionList.length
          otherSectionList.length) := by
  have hdrop : ∀ desc, (zbootImageHeader elf buildVersion buildDate desc romSectionCount
        otherSectionCount).drop 32 =
      (match desc with
       | some d => strncpy d 88
       | none => strcpy (List.replicate 88 0) ZBOOT_DEFAULT_BUILD_DESCRIPTION) := by
    intro desc
    obtain ⟨fields, hl, hh⟩ := zbootImageHeader_split elf buildVersion buildDate desc
      romSectionCount otherSectionCount
    rw [hh]
    exact List.drop_left' (by simp [hl])
  refine ⟨?_, ?_, ?_, ?_, ?_, ?_⟩
  · rw [hdrop]
    exact strncpy_of_string d 88 hString
  · simp only [List.length_append, List.length_take, List.length_replicate]
    omega
  · intro hlen b hb
    rw [hdrop] at hb
    simp only at hb
    rw [strncpy_of_string d 88 hString] at hb
    rw [List.mem_append] at hb
    rcases hb with hb | hb
    · exact hString b (List.mem_of_mem_take hb)
    · have : 88 - d.length = 0 := by omega
      rw [this] at hb
      simp at hb
  · rw [hdrop]
    decide
  · intro desc
    obtain ⟨fields, hl, hh⟩ := zbootImageHeader_split elf buildVersion buildDate desc
      romSectionCount otherSectionCount
    rw [hh, List.append_assoc, List.drop_left' hl, List.take_left' (by simp)]
  · intro host inFile outFile desc rom other out hElf hOk
    obtain ⟨elf2, tail, hElf2, hb⟩ := CreateZbootFile_starts host inFile outFile buildVersion
      buildDate desc rom other out hOk
    rw [hElf] at hElf2
    cases hElf2
    rw [hb, List.take_left' (zbootImageHeader_length _ _ _ _ _ _)]

/-- C13 at the description "fw" of scenario 2. -/
theorem zboot_description_field_witness :
    (∀ b ∈ cstr "fw", b ≠ 0) ∧
    (zbootImageHeader scenario2Elf 2 1000 (some (cstr "fw")) 0 1).drop 32 =
      (cstr "fw").take 88 ++ List.replicate (88 - (cstr "fw").length) 0 ∧
    (zbootImageHeader scenario2Elf 2 1000 none 0 1).drop 32 =
      cstr "zboot application" ++ List.replicate 71 0 :=
  ⟨by decide,
    (zboot_description_field scenario2Elf 2 1000 0 1 (cstr "fw") (by decide)).1,
    (zboot_description_field scenario2Elf 2 1000 0 1 (cstr "fw") (by decide)).2.2.2.1⟩

/-! ## The 8-bit checksum as an XOR of bytes -/

theorem xor8_cons (c b : Nat) (l : List Nat) : xor8 c (b :: l) = xor8 (c ^^^ b) l := rfl

theorem xor8_xor (d : Nat) : ∀ (l : List Nat) (c : Nat), xor8 (c ^^^ d) l = xor8 c l ^^^ d := by
  intro l
  induction l with
  | nil => intro c; rfl
  | cons b rest ih =>
    intro c
    rw [xor8_cons, xor8_cons, ← ih]
    congr 1
    rw [Nat.xor_assoc, Nat.xor_comm d b, ← Nat.xor_assoc]

theorem xor8_insert (c b : Nat) (pre post : List Nat) :
    xor8 c (pre ++ b :: post) = xor8 c (pre ++ post) ^^^ b := by
  rw [xor8_append, xor8_cons, xor8_xor, xor8_append]

theorem xor8_perm (c : Nat) {l1 l2 : List Nat} (h : l1.Perm l2) : xor8 c l1 = xor8 c l2 := by
  unfold xor8
  apply List.Perm.foldl_eq' h
  intro x _ y _ z
  rw [Nat.xor_assoc, Nat.xor_comm x y, ← Nat.xor_assoc]

theorem xor8Chunks_flatten : ∀ (chunks : List (List Nat)) (c : Nat),
    xor8Chunks c chunks = xor8 c chunks.flatten := by
  intro chunks
  induction chunks with
  | nil => intro c; rfl
  | cons ch rest ih =>
    intro c
    simp only [xor8Chunks, List.foldl_cons, List.flatten_cons] at ih ⊢
    rw [ih, xor8_append]

theorem otherPayloads_flatten (elf : MyElf_File) : ∀ other : List String,
    otherPayloads elf other =
      (other.map fun n => groupPayload elf [n] SECTION_PADDING).flatten := by
  intro other
  induction other with
  | nil => rfl
  | cons n rest ih => simp only [otherPayloads, List.map_cons, List.flatten_cons, ih]

theorem words32_zero_sum : ∀ l : List Nat, (∀ b ∈ l, b = 0) → (words32 l).sum = 0 := by
  intro l
  induction l using words32.induct with
  | case1 => intro _; rfl
  | case2 b0 =>
    intro h
    have h0 := h b0 (by simp)
    subst h0; rfl
  | case3 b0 b1 =>
    intro h
    have h0 := h b0 (by simp)
    have h1 := h b1 (by simp)
    subst h0 h1; rfl
  | case4 b0 b1 b2 =>
    intro h
    have h0 := h b0 (by simp)
    have h1 := h b1 (by simp)
    have h2 := h b2 (by simp)
    subst h0 h1 h2; rfl
  | case5 b0 b1 b2 b3 rest ih =>
    intro h
    have h0 := h b0 (by simp)
    have h1 := h b1 (by simp)
    have h2 := h b2 (by simp)
    have h3 := h b3 (by simp)
    have hr := ih (fun b hb => h b (by simp [hb]))
    subst h0 h1 h2 h3
    simp only [words32, List.sum_cons, hr]
    rfl

/-- C15. For every `WriteElfSection` call with a header, a 32-bit accumulator of
value c, alignment 4 and padded payload P, the accumulator after a successful
call is c + address + size + (sum of the little-endian 32-bit words of P) modulo
`2 ^ 32`: the two header fields are added exactly once, and a payload of
all-zero words contributes 0. -/
theorem sum32_accumulates (elf : MyElf_File) (fd : FILE) (names : List String)
    (zeroAddress : Bool) (c : Nat)
    (hData : dataSized elf names = true)
    (hFit : groupSize elf names + SECTION_PADDING < 2 ^ 32)
    (hAcc : c < 2 ^ 32)
    (hOk : (WriteElfSection elf fd names true zeroAddress SECTION_PADDING (some c) 4).success
      = true) :
    (WriteElfSection elf fd names true zeroAddress SECTION_PADDING (some c) 4).chksum =
      some ((c + groupAddress elf names zeroAddress +
        (groupPayload elf names SECTION_PADDING).length +
        (words32 (groupPayload elf names SECTION_PADDING)).sum) % 2 ^ 32) ∧
    (groupPayload elf names SECTION_PADDING).length % 4 = 0 ∧
    (names ≠ [] →
      (WriteElfSection elf fd names true zeroAddress SECTION_PADDING (some c) 4).fd.bytes =
        fd.bytes ++ (u32le (groupAddress elf names zeroAddress) ++
          u32le (groupPayload elf names SECTION_PADDING).length) ++
          groupPayload elf names SECTION_PADDING) ∧
    ((∀ b ∈ groupPayload elf names SECTION_PADDING, b = 0) →
      (WriteElfSection elf fd names true zeroAddress SECTION_PADDING (some c) 4).chksum =
        some ((c + groupAddress elf names zeroAddress +
          (groupPayload elf names SECTION_PADDING).length) % 2 ^ 32)) := by
  have hal := groupPayload_aligned elf names
  have hmain : (WriteElfSection elf fd names true zeroAddress SECTION_PADDING (some c) 4).chksum =
      some ((c + groupAddress elf names zeroAddress +
        (groupPayload elf names SECTION_PADDING).length +
        (words32 (groupPayload elf names SECTION_PADDING)).sum) % 2 ^ 32) := by
    by_cases hne : names = []
    · subst hne
      have h0 : groupPayload elf [] SECTION_PADDING = [] := by
        simp [groupPayload, concatSections, padCount]
      have ha : groupAddress elf [] zeroAddress = 0 := by
        cases zeroAddress <;> simp [groupAddress, firstAddress]
      simp only [WriteElfSection, List.length_nil, if_true, h0, ha, words32, List.sum_nil,
        List.length_nil, Nat.add_zero, Option.some.injEq]
      omega
    · obtain ⟨_, _, _, w4⟩ := WriteElfSection_spec elf fd names true zeroAddress SECTION_PADDING
        (some c) 4 hne hData hFit hOk
      rw [w4]
      simp only [foldedChecksum, if_true, Option.some.injEq]
      rw [sum32_eq _ _ hAcc]
      omega
  refine ⟨hmain, hal, ?_, ?_⟩
  · intro hne
    obtain ⟨_, _, w3, _⟩ := WriteElfSection_spec elf fd names true zeroAddress SECTION_PADDING
      (some c) 4 hne hData hFit hOk
    rw [w3]
    simp only [if_true, List.append_assoc]
  · intro hz
    rw [hmain, words32_zero_sum _ hz, Nat.add_zero]

/-- C15 at the group [".text"] of the sample application, starting from the
accumulator value 0xfffffff0. -/
theorem sum32_accumulates_witness :
    dataSized appElf [".text"] = true ∧
    groupSize appElf [".text"] + SECTION_PADDING < 2 ^ 32 ∧
    0xfffffff0 < 2 ^ 32 ∧
    groupPayload appElf [".text"] SECTION_PADDING = [0x36, 0x41, 0x00, 0x1d, 0xf0, 0xa5, 0xa5, 0xa5] ∧
    (WriteElfSection appElf ⟨[], none⟩ [".text"] true false SECTION_PADDING
      (some 0xfffffff0) 4).chksum =
      some ((0xfffffff0 + groupAddress appElf [".text"] false +
        (groupPayload appElf [".text"] SECTION_PADDING).length +
        (words32 (groupPayload appElf [".text"] SECTION_PADDING)).sum) % 2 ^ 32) :=
  ⟨by decide, by decide, by decide, by decide,
    (sum32_accumulates appElf ⟨[], none⟩ [".text"] false 0xfffffff0 (by decide) (by decide)
      (by decide) (by decide)).1⟩

/-- C16. For every initial 8-bit checksum value and every byte buffer split into
consecutive chunks in any way, folding the chunks one after another gives the
checksum of the whole buffer, and the result does not depend on the order in
which the chunks are folded; the flash encoder's loop over the other sections,
one `WriteElfSection` call per section, folds the payloads of the sections in
this way. -/
theorem xor8_chunks_order (c : Nat) (chunks : List (List Nat)) :
    xor8Chunks c chunks = xor8 c chunks.flatten ∧
    (∀ buffer pre post : List Nat, buffer = pre ++ post →
      xor8 c buffer = xor8 (xor8 c pre) post) ∧
    (∀ chunks2 : List (List Nat), chunks.Perm chunks2 →
      xor8Chunks c chunks2 = xor8Chunks c chunks) ∧
    (∀ (elf : MyElf_File) (other : List String) (r : WResult),
      dataSized elf other = true → otherFit elf other = true → r.chksum = some c →
      (writeOtherSections elf 1 other r).success = true →
      (writeOtherSections elf 1 other r).chksum =
        some (xor8Chunks c (other.map fun n => groupPayload elf [n] SECTION_PADDING))) := by
  refine ⟨xor8Chunks_flatten chunks c, ?_, ?_, ?_⟩
  · intro buffer pre post h
    rw [h, xor8_append]
  · intro chunks2 hp
    rw [xor8Chunks_flatten, xor8Chunks_flatten]
    exact (xor8_perm c hp.flatten).symm
  · intro elf other r hd hf hc hok
    rw [writeOtherSections_xor elf other r c hd hf hc hok, xor8Chunks_flatten,
      otherPayloads_flatten]

/-- C17, as stated, fails. Removing the zero byte at position 1 of the buffer
[1, 0, 2] leaves the 8-bit checksum unchanged. -/
theorem xor8_misses_zero_byte :
    xor8 CHECKSUM_INIT ([1, 0, 2].eraseIdx 1) = xor8 CHECKSUM_INIT [1, 0, 2] := by
  decide

/-- C17, amended. For every initial 8-bit checksum value, every non-empty byte
buffer and every position in it, the checksum of the buffer with the byte at
that position removed differs from the checksum of the full buffer if and only
if the removed byte is not 0; the two checksums differ by exactly that byte. -/
theorem xor8_omission (c : Nat) (buffer : List Nat) (i : Nat) (hPos : i < buffer.length) :
    xor8 c buffer = xor8 c (buffer.eraseIdx i) ^^^ buffer[i] ∧
    (xor8 c (buffer.eraseIdx i) ≠ xor8 c buffer ↔ buffer[i] ≠ 0) := by
  have hsplit : buffer = buffer.take i ++ buffer[i] :: buffer.drop (i + 1) := by
    rw [← List.drop_eq_getElem_cons hPos, List.take_append_drop]
  have herase : buffer.eraseIdx i = buffer.take i ++ buffer.drop (i + 1) :=
    List.eraseIdx_eq_take_drop_succ buffer i
  have hx : xor8 c buffer = xor8 c (buffer.eraseIdx i) ^^^ buffer[i] := by
    rw [herase, ← xor8_insert]
    exact congrArg (xor8 c) hsplit
  refine ⟨hx, ?_⟩
  rw [hx]
  constructor
  · intro hne hz
    apply hne
    rw [hz, Nat.xor_zero]
  · intro hnz heq
    apply hnz
    have : xor8 c (buffer.eraseIdx i) ^^^ 0 = xor8 c (buffer.eraseIdx i) ^^^ buffer[i] := by
      rw [Nat.xor_zero]; exact heq
    exact (Nat.xor_right_inj.mp this).symm

/-- C17 (amended) at the buffer [1, 0, 2]: position 2 holds a non-zero byte,
position 1 the byte 0. -/
theorem xor8_omission_witness :
    2 < [1, 0, 2].length ∧
    (xor8 CHECKSUM_INIT ([1, 0, 2].eraseIdx 2) ≠ xor8 CHECKSUM_INIT [1, 0, 2] ↔
      [1, 0, 2][2] ≠ 0) ∧
    xor8 CHECKSUM_INIT ([1, 0, 2].eraseIdx 2) ≠ xor8 CHECKSUM_INIT [1, 0, 2] :=
  ⟨by decide, (xor8_omission CHECKSUM_INIT [1, 0, 2] 2 (by decide)).2, by decide⟩

/-! ## The identifier of the header-file exporter -/

/-- C18 on the code: for the section name ".irom0.text.library_section_xyz" of 31
characters, `strncpy(name, sect->name, 31)` fills `char name[31]` without a
terminator, so the identifier keeps all 31 characters (and `strlen` reads on
past the array), where the first 30 characters are asked for. -/
theorem fixName_keeps_31_characters :
    (".irom0.text.library_section_xyz" : String).length = 31 ∧
    fixName ".irom0.text.library_section_xyz" = "_irom0_text_library_section_xyz".toList ∧
    (fixName ".irom0.text.library_section_xyz").length = 31 ∧
    identifierOf ".irom0.text.library_section_xyz" = "_irom0_text_library_section_xy".toList ∧
    fixName ".irom0.text.library_section_xyz" ≠ identifierOf ".irom0.text.library_section_xyz" := by
  decide

/-- For a section name of at most 30 characters the identifier of
`CreateHeaderFile` is the one asked for: the name with every '.' replaced by
'_'. -/
theorem fixName_short (name : String) (h : name.length ≤ 30) :
    fixName name = identifierOf name ∧ '.' ∉ fixName name ∧ (fixName name).length ≤ 30 := by
  have hl : name.toList.length ≤ 30 := h
  have h31 : name.toList.take 31 = name.toList := List.take_of_length_le (by omega)
  have h30 : name.toList.take 30 = name.toList := List.take_of_length_le hl
  refine ⟨by simp only [fixName, identifierOf, h31, h30], ?_, ?_⟩
  · simp only [fixName, List.mem_map, not_exists, not_and]
    intro c _
    by_cases hc : c = '.'
    · simp [hc]
    · simp [hc]
  · simp only [fixName, List.length_map, h31]
    exact hl

/-! ## The size field and the checksum width -/

/-- C19. For every successful `WriteElfSection` call with a header, the size
field of the 8-byte chunk header is the exact number of payload bytes written
right after the header, the 0xA5 alignment bytes included, so a reader that
skips that many bytes after the chunk header stands at whatever is written next
(the next chunk header or the image trailer). A call with an empty list of names
writes no header and no payload. -/
theorem chunk_size_field (elf : MyElf_File) (fd : FILE) (names : List String)
    (zeroAddress : Bool) (padto : Nat) (chksum : Option Nat) (checksumSize : Nat)
    (hData : dataSized elf names = true) (hFit : groupSize elf names + padto < 2 ^ 32)
    (hOk : (WriteElfSection elf fd names true zeroAddress padto chksum checksumSize).success
      = true) :
    (names ≠ [] →
      ∃ address size payload,
        (WriteElfSection elf fd names true zeroAddress padto chksum checksumSize).fd.bytes =
          fd.bytes ++ (u32le address ++ u32le size) ++ payload ∧
        payload =
          concatSections elf names ++
            List.replicate (padCount padto (concatSections elf names).length) 0xA5 ∧
        payload.length = size ∧ size < 2 ^ 32 ∧
        ∀ rest, skipChunk ((u32le address ++ u32le size) ++ payload ++ rest) = some rest) ∧
    (names = [] →
      (WriteElfSection elf fd names true zeroAddress padto chksum checksumSize).fd.bytes =
        fd.bytes) := by
  constructor
  · intro hne
    obtain ⟨hr, _, w3, _⟩ := WriteElfSection_spec elf fd names true zeroAddress padto chksum
      checksumSize hne hData hFit hOk
    have hcl := concatSections_length elf names hr hData
    have hlt : (groupPayload elf names padto).length < 2 ^ 32 := by
      simp only [groupPayload, List.length_append, List.length_replicate, hcl]
      rcases Nat.eq_zero_or_pos padto with h0 | hpos
      · subst h0; simp only [padCount_zero]; omega
      · have := padCount_lt padto (groupSize elf names) hpos
        omega
    refine ⟨groupAddress elf names zeroAddress, (groupPayload elf names padto).length,
      groupPayload elf names padto, ?_, rfl, rfl, hlt, ?_⟩
    · rw [w3]; simp only [if_true, List.append_assoc]
    · intro rest
      generalize hP : groupPayload elf names padto = P at hlt
      have hdec : le32 (P.length % 256) (P.length / 256 % 256) (P.length / 65536 % 256)
          (P.length / 16777216 % 256) = P.length := by
        simp only [le32]; omega
      simp only [u32le, List.cons_append, List.nil_append, skipChunk, hdec, List.length_append,
        Nat.le_add_right, if_true, List.drop_left]
  · intro he
    subst he
    simp [WriteElfSection]

/-- C19 at the group [".text"] of the sample application: 5 section bytes, size
field 8. -/
theorem chunk_size_field_witness :
    dataSized appElf [".text"] = true ∧
    groupSize appElf [".text"] + 4 < 2 ^ 32 ∧
    (WriteElfSection appElf ⟨[], none⟩ [".text"] true false 4 (some 0xEF) 1).fd.bytes =
      u32le 0x40100000 ++ u32le 8 ++ [0x36, 0x41, 0x00, 0x1d, 0xf0, 0xa5, 0xa5, 0xa5] ∧
    ([".text"] ≠ [] →
      ∃ address size payload,
        (WriteElfSection appElf ⟨[], none⟩ [".text"] true false 4 (some 0xEF) 1).fd.bytes =
          [] ++ (u32le address ++ u32le size) ++ payload ∧
        payload =
          concatSections appElf [".text"] ++
            List.replicate (padCount 4 (concatSections appElf [".text"]).length) 0xA5 ∧
        payload.length = size ∧ size < 2 ^ 32 ∧
        ∀ rest, skipChunk ((u32le address ++ u32le size) ++ payload ++ rest) = some rest) :=
  ⟨by decide, by decide, by decide,
    (chunk_size_field appElf ⟨[], none⟩ [".text"] false 4 (some 0xEF) 1 (by decide) (by decide)
      (by decide)).1⟩

/-- C20, as stated, fails. With an empty list of names the call returns success
before it looks at the checksum width (here 2). -/
theorem invalid_width_empty_list_succeeds :
    WriteElfSection appElf ⟨[], none⟩ [] true false 4 (some 0xEF) 2 =
      { success := true, fd := ⟨[], none⟩, chksum := some 0xEF } := by
  decide

/-- C20, amended. For every `WriteElfSection` call given a non-empty list of
section names, a non-null checksum accumulator and a checksum width other than 1
or 4 bytes, the call returns failure, writes neither a chunk header nor any
payload byte to the output, and leaves the accumulator unchanged. (With an empty
list the call returns success, also writing nothing and leaving the accumulator
unchanged.) -/
theorem invalid_checksum_width (elf : MyElf_File) (fd : FILE) (names : List String)
    (addHeader zeroAddress : Bool) (padto c checksumSize : Nat)
    (hNames : names ≠ []) (hNot1 : checksumSize ≠ 1) (hNot4 : checksumSize ≠ 4) :
    WriteElfSection elf fd names addHeader zeroAddress padto (some c) checksumSize =
      { success := false, fd := fd, chksum := some c } ∧
    WriteElfSection elf fd [] addHeader zeroAddress padto (some c) checksumSize =
      { success := true, fd := fd, chksum := some c } := by
  have hlen : ¬ names.length = 0 := by
    intro h; exact hNames (List.eq_nil_of_length_eq_zero h)
  have hck : ∀ st : WState, checksumData st (some c) checksumSize = (false, some c) := by
    intro st
    unfold checksumData
    by_cases hs : st.success = true
    · simp [hs, hNot1, hNot4]
    · simp only [Bool.not_eq_true] at hs
      simp [hs]
  refine ⟨?_, by simp [WriteElfSection]⟩
  simp only [WriteElfSection, hlen, if_false, hck]
  simp [writeHeader, writeData]

/-- C20 (amended) at the group [".text"] of the sample application and the
width 2. -/
theorem invalid_checksum_width_witness :
    [".text"] ≠ [] ∧ (2 : Nat) ≠ 1 ∧ (2 : Nat) ≠ 4 ∧
    WriteElfSection appElf ⟨[], none⟩ [".text"] true false 4 (some 0xEF) 2 =
      { success := false, fd := ⟨[], none⟩, chksum := some 0xEF } :=
  ⟨by decide, by decide, by decide,
    (invalid_checksum_width appElf ⟨[], none⟩ [".text"] true false 4 0xEF 2 (by decide)
      (by decide) (by decide)).1⟩

/-! ## Payloads depend on the section bytes only -/

theorem concatSections_congr (elf1 elf2 : MyElf_File) :
    ∀ names : List String, (∀ n ∈ names, sectionBytes elf1 n = sectionBytes elf2 n) →
      concatSections elf1 names = concatSections elf2 names := by
  intro names
  induction names with
  | nil => intro _; rfl
  | cons n rest ih =>
    intro h
    simp only [concatSections]
    rw [h n (List.mem_cons_self _ _), ih (fun m hm => h m (List.mem_cons_of_mem _ hm))]

theorem groupPayload_congr (elf1 elf2 : MyElf_File) (names : List String) (A : Nat)
    (h : ∀ n ∈ names, sectionBytes elf1 n = sectionBytes elf2 n) :
    groupPayload elf1 names A = groupPayload elf2 names A := by
  simp only [groupPayload, concatSections_congr elf1 elf2 names h]

theorem otherPayloads_congr (elf1 elf2 : MyElf_File) :
    ∀ other : List String, (∀ n ∈ other, sectionBytes elf1 n = sectionBytes elf2 n) →
      otherPayloads elf1 other = otherPayloads elf2 other := by
  intro other
  induction other with
  | nil => intro _; rfl
  | cons n rest ih =>
    intro h
    simp only [otherPayloads]
    rw [groupPayload_congr elf1 elf2 [n] _ (by
        intro m hm
        rw [List.mem_singleton] at hm
        subst hm
        exact h m (List.mem_cons_self _ _)),
      ih (fun m hm => h m (List.mem_cons_of_mem _ hm))]

/-- C21. For every successful flash binary build the trailing checksum byte is
0xEF XORed with exactly the payload bytes of all groups (section bytes and their
0xA5 alignment bytes) and nothing else: two builds whose sections have the same
bytes produce the same checksum byte, whatever their flash header parameters,
entry addresses and section load addresses. -/
theorem flash_checksum_ignores_addresses (host1 host2 : Host) (elf1 elf2 : MyElf_File)
    (inFile1 outFile1 inFile2 outFile2 : String)
    (flashMode1 flashClock1 flashSize1 flashMode2 flashClock2 flashSize2 : Nat)
    (romSectionList otherSectionList : List String) (out1 out2 : FILE)
    (hElf1 : host1.LoadElf inFile1 = some elf1) (hElf2 : host2.LoadElf inFile2 = some elf2)
    (hData1 : dataSized elf1 (romSectionList ++ otherSectionList) = true)
    (hData2 : dataSized elf2 (romSectionList ++ otherSectionList) = true)
    (hFit1 : sectionsFit elf1 romSectionList otherSectionList = true)
    (hFit2 : sectionsFit elf2 romSectionList otherSectionList = true)
    (hSame : ∀ n ∈ romSectionList ++ otherSectionList, sectionBytes elf1 n = sectionBytes elf2 n)
    (hOk1 : CreateBinFile host1 inFile1 outFile1 flashMode1 flashClock1 flashSize1
      romSectionList otherSectionList = (true, some out1))
    (hOk2 : CreateBinFile host2 inFile2 outFile2 flashMode2 flashClock2 flashSize2
      romSectionList otherSectionList = (true, some out2)) :
    out1.bytes.getLast? =
      some (xor8 CHECKSUM_INIT
        (concatSections elf1 romSectionList ++
          List.replicate (padCount SECTION_PADDING (concatSections elf1 romSectionList).length)
            0xA5 ++
          otherPayloads elf1 otherSectionList)) ∧
    out2.bytes.getLast? = out1.bytes.getLast? := by
  obtain ⟨_, h1⟩ := CreateBinFile_layout host1 elf1 inFile1 outFile1 flashMode1 flashClock1
    flashSize1 romSectionList otherSectionList out1 hElf1 hData1 hFit1 hOk1
  obtain ⟨_, h2⟩ := CreateBinFile_layout host2 elf2 inFile2 outFile2 flashMode2 flashClock2
    flashSize2 romSectionList otherSectionList out2 hElf2 hData2 hFit2 hOk2
  have hrom := groupPayload_congr elf1 elf2 romSectionList SECTION_PADDING
    (fun n hn => hSame n (List.mem_append_left _ hn))
  have hoth := otherPayloads_congr elf1 elf2 otherSectionList
    (fun n hn => hSame n (List.mem_append_right _ hn))
  have e1 : out1.bytes.getLast? =
      some (xor8 CHECKSUM_INIT
        (groupPayload elf1 romSectionList SECTION_PADDING ++ otherPayloads elf1 otherSectionList)) := by
    rw [h1]; simp
  have e2 : out2.bytes.getLast? =
      some (xor8 CHECKSUM_INIT
        (groupPayload elf2 romSectionList SECTION_PADDING ++ otherPayloads elf2 otherSectionList)) := by
    rw [h2]; simp
  refine ⟨?_, ?_⟩
  · rw [e1]; rfl
  · rw [e1, e2, hrom, hoth]

/-- C21 at the sample application and the same application linked at other load
addresses, built with different flash parameters: both images end in the byte
119, the header, the entry address and the chunk headers differ. -/
theorem flash_checksum_ignores_addresses_witness :
    (∀ n ∈ [".irom0.text", ".rodata"] ++ [".text", ".missing", ".data"],
      sectionBytes appElf n = sectionBytes movedElf n) ∧
    ∃ out1 out2,
      CreateBinFile sampleHost "app.elf" "app.bin" 2 15 4 [".irom0.text", ".rodata"]
        [".text", ".missing", ".data"] = (true, some out1) ∧
      CreateBinFile movedHost "moved.elf" "moved.bin" 0 0 0 [".irom0.text", ".rodata"]
        [".text", ".missing", ".data"] = (true, some out2) ∧
      out1.bytes.take 24 ≠ out2.bytes.take 24 ∧
      out1.bytes.getLast? = some 119 ∧
      out2.bytes.getLast? = out1.bytes.getLast? :=
  ⟨by decide, _, _, rfl, rfl, by decide, by decide,
    (flash_checksum_ignores_addresses sampleHost movedHost appElf movedElf "app.elf" "app.bin"
      "moved.elf" "moved.bin" 2 15 4 0 0 0 [".irom0.text", ".rodata"]
      [".text", ".missing", ".data"] _ _ rfl rfl (by decide) (by decide) (by decide) (by decide)
      (by decide) rfl rfl).2⟩

/-! ## Groups without bytes -/

theorem readSections_noBytes (elf : MyElf_File) (za : Bool) :
    ∀ (names : List String) (st : WState), (∀ n ∈ names, givesNoBytes elf n = true) →
      readSections elf za names st = st := by
  intro names
  induction names with
  | nil => intro st _; rfl
  | cons n rest ih =>
    intro st h
    have hn := h n (List.mem_cons_self _ _)
    have hrest := ih st (fun m hm => h m (List.mem_cons_of_mem _ hm))
    by_cases hs : st.success = false
    · exact readSections_failed elf za _ st hs
    · simp only [givesNoBytes] at hn
      cases hsec : elf.GetElfSection n with
      | none => simp [readSections, hs, hsec, hrest]
      | some sec =>
        simp only [hsec, decide_eq_true_eq] at hn
        simp [readSections, hs, hsec, hn, hrest]

/-- With a header, the width 4 and no accumulator, a call for a group without
bytes faults in the header phase: the header fields are added through the
`NULL` pointer. -/
theorem WriteElfSection_null_sum32_faults (elf : MyElf_File) (fd : FILE) (names : List String)
    (zeroAddress : Bool) (padto : Nat) (hNames : names ≠ [])
    (hEmpty : ∀ n ∈ names, givesNoBytes elf n = true) :
    (WriteElfSection elf fd names true zeroAddress padto none 4).fault = true ∧
    (WriteElfSection elf fd names true zeroAddress padto none 4).success = false := by
  have hlen : ¬ names.length = 0 := by
    intro h; exact hNames (List.eq_nil_of_length_eq_zero h)
  have hst : padSection padto (readSections elf zeroAddress names ⟨true, [], 0, 0⟩) =
      ⟨true, [], 0, 0⟩ := by
    rw [readSections_noBytes elf zeroAddress names _ hEmpty]
    simp [padSection]
  simp only [WriteElfSection, hlen, if_false, hst]
  simp [writeData, writeHeader, checksumData]

/-- C22. For every `WriteElfSection` call with a header and a non-empty list of
names in which every name is absent or resolves to a zero-size section, on a
stream that takes the write, the call succeeds, writes exactly one 8-byte chunk
header with address 0 and size 0 and no payload, and leaves the checksum
accumulator (8-bit or 32-bit) unchanged, and so does a call without an
accumulator whose width is not 4; with an empty list of names the call succeeds
and writes nothing at all. -/
theorem empty_group_chunk (elf : MyElf_File) (fd : FILE) (names : List String)
    (zeroAddress : Bool) (padto c : Nat)
    (hNames : names ≠ [])
    (hEmpty : ∀ n ∈ names, givesNoBytes elf n = true)
    (hRoom : fd.room = none) (hAcc : c < 2 ^ 32) :
    WriteElfSection elf fd names true zeroAddress padto (some c) 1 =
      { success := true, fd := { bytes := fd.bytes ++ (u32le 0 ++ u32le 0), room := none },
        chksum := some c } ∧
    WriteElfSection elf fd names true zeroAddress padto (some c) 4 =
      { success := true, fd := { bytes := fd.bytes ++ (u32le 0 ++ u32le 0), room := none },
        chksum := some c } ∧
    (∀ checksumSize, checksumSize ≠ 4 →
      WriteElfSection elf fd names true zeroAddress padto none checksumSize =
        { success := true, fd := { bytes := fd.bytes ++ (u32le 0 ++ u32le 0), room := none },
          chksum := none }) ∧
    (∀ (addHeader : Bool) (chksum : Option Nat) (checksumSize : Nat),
      WriteElfSection elf fd [] addHeader zeroAddress padto chksum checksumSize =
        { success := true, fd := fd, chksum := chksum }) ∧
    (∀ n ∈ names, elf.GetElfSection n = none ∨
      ∃ sec, elf.GetElfSection n = some sec ∧ sec.size = 0) := by
  have hlen : ¬ names.length = 0 := by
    intro h; exact hNames (List.eq_nil_of_length_eq_zero h)
  have hst : padSection padto (readSections elf zeroAddress names ⟨true, [], 0, 0⟩) =
      ⟨true, [], 0, 0⟩ := by
    rw [readSections_noBytes elf zeroAddress names _ hEmpty]
    simp [padSection]
  have hmod : c % 4294967296 = c := Nat.mod_eq_of_lt hAcc
  refine ⟨?_, ?_, ?_, ?_, ?_⟩
  · simp only [WriteElfSection, hlen, if_false, hst]
    simp [writeData, writeHeader, checksumData, fwrite_unbounded _ _ hRoom, u32le, xor8]
  · simp only [WriteElfSection, hlen, if_false, hst]
    simp [writeData, writeHeader, checksumData, fwrite_unbounded _ _ hRoom, u32le, sum32, hmod]
  · intro csz h4
    simp only [WriteElfSection, hlen, if_false, hst]
    simp [writeData, writeHeader, checksumData, fwrite_unbounded _ _ hRoom, u32le, h4]
  · intro ah chk csz
    simp [WriteElfSection]
  · intro n hn
    have := hEmpty n hn
    simp only [givesNoBytes] at this
    cases hsec : elf.GetElfSection n with
    | none => exact Or.inl rfl
    | some sec =>
      simp only [hsec, decide_eq_true_eq] at this
      exact Or.inr ⟨sec, rfl, this⟩

/-- C22 at the group [".missing", ".rodata"] of the sample application: an absent
name and an empty section. -/
theorem empty_group_chunk_witness :
    [".missing", ".rodata"] ≠ [] ∧
    (∀ n ∈ [".missing", ".rodata"], givesNoBytes appElf n = true) ∧
    (⟨[0xE9], none⟩ : FILE).room = none ∧ 0xEF < 2 ^ 32 ∧
    WriteElfSection appElf ⟨[0xE9], none⟩ [".missing", ".rodata"] true false 4 (some 0xEF) 1 =
      { success := true, fd := { bytes := [0xE9] ++ (u32le 0 ++ u32le 0), room := none },
        chksum := some 0xEF } ∧
    WriteElfSection appElf ⟨[0xE9], none⟩ [".missing", ".rodata"] true false 4 (some 0xEF) 4 =
      { success := true, fd := { bytes := [0xE9] ++ (u32le 0 ++ u32le 0), room := none },
        chksum := some 0xEF } :=
  ⟨by decide, by decide, rfl, by decide,
    (empty_group_chunk appElf ⟨[0xE9], none⟩ [".missing", ".rodata"] false 4 0xEF (by decide)
      (by decide) rfl (by decide)).1,
    (empty_group_chunk appElf ⟨[0xE9], none⟩ [".missing", ".rodata"] false 4 0xEF (by decide)
      (by decide) rfl (by decide)).2.1⟩

/-! ## Reading the chunks of an image -/

theorem skipChunk_chunk (a : Nat) (P rest : List Nat) (hP : P.length < 2 ^ 32) :
    skipChunk (u32le a ++ u32le P.length ++ P ++ rest) = some rest := by
  have hdec : le32 (P.length % 256) (P.length / 256 % 256) (P.length / 65536 % 256)
      (P.length / 16777216 % 256) = P.length := by
    simp only [le32]; omega
  simp only [u32le, List.cons_append, List.nil_append, skipChunk, hdec, List.length_append,
    Nat.le_add_right, if_true, List.drop_left]

theorem skipChunks_add : ∀ (a b : Nat) (bytes rest : List Nat),
    skipChunks a bytes = some rest → skipChunks (a + b) bytes = skipChunks b rest := by
  intro a
  induction a with
  | zero =>
    intro b bytes rest h
    simp only [skipChunks, Option.some.injEq] at h
    rw [Nat.zero_add, h]
  | succ k ih =>
    intro b bytes rest h
    rw [show k + 1 + b = (k + b) + 1 by omega]
    simp only [skipChunks] at h ⊢
    cases hs : skipChunk bytes with
    | none => simp [hs] at h
    | some r =>
      simp only [hs] at h ⊢
      exact ih b r rest h

theorem sectionBytes_length_le (elf : MyElf_File) (n : String)
    (hd : dataSized elf [n] = true) : (sectionBytes elf n).length ≤ sectionSizeOf elf n := by
  simp only [dataSized, Bool.and_true] at hd
  simp only [sectionBytes, sectionSizeOf]
  cases hsec : elf.GetElfSection n with
  | none => simp
  | some sec =>
    simp only [hsec] at hd ⊢
    by_cases hz : sec.size = 0
    · simp [hz]
    · cases hbuf : elf.GetElfSectionData sec with
      | none => simp [hz]
      | some buffer =>
        simp only [hbuf, decide_eq_true_eq] at hd
        simp [hz, hd]

theorem concatSections_length_le (elf : MyElf_File) :
    ∀ names : List String, dataSized elf names = true →
      (concatSections elf names).length ≤ groupSize elf names := by
  intro names
  induction names with
  | nil => intro _; simp [concatSections, groupSize]
  | cons n rest ih =>
    intro hd
    obtain ⟨hd1, hd2⟩ := dataSized_single elf n rest hd
    have h1 := sectionBytes_length_le elf n hd1
    have h2 := ih hd2
    simp only [concatSections, groupSize, List.length_append]
    omega

theorem groupPayload_length_lt (elf : MyElf_File) (names : List String)
    (hd : dataSized elf names = true) (hf : groupSize elf names + SECTION_PADDING < 2 ^ 32) :
    (groupPayload elf names SECTION_PADDING).length < 2 ^ 32 := by
  have h1 := concatSections_length_le elf names hd
  have h2 := padCount_lt SECTION_PADDING (concatSections elf names).length (by decide)
  simp only [groupPayload, List.length_append, List.length_replicate]
  omega

theorem chunk_length (elf : MyElf_File) (names : List String) (za : Bool) :
    (chunk elf names za).length = 8 + (groupPayload elf names SECTION_PADDING).length := by
  simp only [chunk, List.length_append, u32le_length]

theorem skipChunk_of_chunk (elf : MyElf_File) (names : List String) (za : Bool)
    (rest : List Nat)
    (hd : dataSized elf names = true) (hf : groupSize elf names + SECTION_PADDING < 2 ^ 32) :
    skipChunk (chunk elf names za ++ rest) = some rest := by
  unfold chunk
  exact skipChunk_chunk _ _ rest (groupPayload_length_lt elf names hd hf)

theorem skipChunks_otherChunks (elf : MyElf_File) :
    ∀ (other : List String) (rest : List Nat),
      dataSized elf other = true → otherFit elf other = true →
      skipChunks other.length (otherChunks elf other ++ rest) = some rest := by
  intro other
  induction other with
  | nil => intro rest _ _; rfl
  | cons n tl ih =>
    intro rest hd hf
    obtain ⟨hd1, hd2⟩ := dataSized_single elf n tl hd
    simp only [otherFit, Bool.and_eq_true, decide_eq_true_eq] at hf
    simp only [List.length_cons, skipChunks, otherChunks, List.append_assoc]
    rw [skipChunk_of_chunk elf [n] false _ hd1 (by rw [groupSize_single]; exact hf.1)]
    exact ih rest hd2 hf.2

theorem otherChunks_length (elf : MyElf_File) :
    ∀ other : List String,
      (otherChunks elf other).length =
        8 * other.length +
          (other.map fun n => (groupPayload elf [n] SECTION_PADDING).length).sum := by
  intro other
  induction other with
  | nil => rfl
  | cons n tl ih =>
    simp only [otherChunks, List.length_append, chunk_length, ih, List.length_cons,
      List.map_cons, List.sum_cons]
    omega

theorem otherChunks_aligned (elf : MyElf_File) :
    ∀ other : List String, (otherChunks elf other).length % 4 = 0 := by
  intro other
  induction other with
  | nil => rfl
  | cons n tl ih =>
    have := groupPayload_aligned elf [n]
    simp only [otherChunks, List.length_append, chunk_length]
    omega

theorem imageGroups_length (rom other : List String) :
    (imageGroups rom other).length = other.length + (if rom = [] then 0 else 1) := by
  unfold imageGroups
  by_cases h : rom = []
  · simp [h]
  · simp [h]

theorem imageChunks_length (elf : MyElf_File) (rom other : List String) :
    (romChunk elf rom ++ otherChunks elf other).length =
      8 * (other.length + (if rom = [] then 0 else 1)) +
        ((imageGroups rom other).map fun g => (groupPayload elf g SECTION_PADDING).length).sum := by
  have hmap : ((other.map fun n => [n]).map
      fun g => (groupPayload elf g SECTION_PADDING).length) =
      other.map fun n => (groupPayload elf [n] SECTION_PADDING).length := by
    rw [List.map_map]; rfl
  unfold imageGroups romChunk
  by_cases h : rom = []
  · simp only [h, if_true, List.nil_append, otherChunks_length, hmap, Nat.add_zero]
  · simp only [h, if_false, List.length_append, chunk_length, otherChunks_length,
      List.map_append, List.map_cons, List.map_nil, List.sum_append, List.sum_cons,
      List.sum_nil, hmap]
    omega

theorem skipChunks_imageChunks (elf : MyElf_File) (rom other : List String) (rest : List Nat)
    (hd : dataSized elf (rom ++ other) = true) (hf : sectionsFit elf rom other = true) :
    skipChunks (other.length + (if rom = [] then 0 else 1))
      (romChunk elf rom ++ otherChunks elf other ++ rest) = some rest := by
  rw [dataSized_append, Bool.and_eq_true] at hd
  simp only [sectionsFit, Bool.and_eq_true, decide_eq_true_eq] at hf
  have ho := skipChunks_otherChunks elf other rest hd.2 hf.2
  unfold romChunk
  by_cases h : rom = []
  · simp only [h, if_true, List.nil_append, Nat.add_zero]
    exact ho
  · simp only [h, if_false, List.append_assoc]
    rw [Nat.add_comm, skipChunks_add 1 other.length _ (otherChunks elf other ++ rest)]
    · exact ho
    · simp only [skipChunks]
      rw [skipChunk_of_chunk elf rom true _ hd.1 hf.1]

/-- C23. For every successful zboot build, the number of 8-byte chunk headers in
the output equals the header's count field len(other) + (1 if rom non-empty else
0), also when listed names are absent or empty: a reader that skips that many
chunks after the 120-byte header stands at the 4-byte checksum. The output
length is 120 + 8 * count + (sum of the 4-byte-padded payload lengths of all
groups) + 4, a multiple of 4. -/
theorem zboot_chunk_count (host : Host) (elf : MyElf_File) (inFile outFile : String)
    (buildVersion buildDate : Nat) (buildDescription : Option (List Nat))
    (romSectionList otherSectionList : List String) (out : FILE)
    (hElf : host.LoadElf inFile = some elf)
    (hData : dataSized elf (romSectionList ++ otherSectionList) = true)
    (hFit : sectionsFit elf romSectionList otherSectionList = true)
    (hOk : CreateZbootFile host inFile outFile buildVersion buildDate buildDescription
      romSectionList otherSectionList = (true, some out)) :
    (imageGroups romSectionList otherSectionList).length =
      otherSectionList.length + (if romSectionList = [] then 0 else 1) ∧
    (out.bytes.drop 4).take 4 =
      u32le (otherSectionList.length + (if romSectionList = [] then 0 else 1)) ∧
    (∃ chksum,
      skipChunks (otherSectionList.length + (if romSectionList = [] then 0 else 1))
        (out.bytes.drop 120) = some (u32le chksum)) ∧
    out.bytes.length =
      120 + 8 * (otherSectionList.length + (if romSectionList = [] then 0 else 1)) +
        ((imageGroups romSectionList otherSectionList).map
          fun g => (groupPayload elf g SECTION_PADDING).length).sum + 4 ∧
    (∀ g ∈ imageGroups romSectionList otherSectionList,
      (groupPayload elf g SECTION_PADDING).length % 4 = 0) ∧
    out.bytes.length % 4 = 0 := by
  obtain ⟨_, hb, hal⟩ := CreateZbootFile_layout host elf inFile outFile buildVersion buildDate
    buildDescription romSectionList otherSectionList out hElf hData hFit hOk
  have hlen := zbootImageHeader_length elf buildVersion buildDate buildDescription
    romSectionList.length otherSectionList.length
  have hchunks := imageChunks_length elf romSectionList otherSectionList
  have hrom : (if romSectionList.length > 0 then 1 else 0) =
      (if romSectionList = [] then 0 else 1) := by
    cases romSectionList <;> simp
  have htotal : out.bytes.length =
      120 + 8 * (otherSectionList.length + (if romSectionList = [] then 0 else 1)) +
        ((imageGroups romSectionList otherSectionList).map
          fun g => (groupPayload elf g SECTION_PADDING).length).sum + 4 := by
    rw [hb]
    simp only [List.length_append, u32le_length, hlen] at hchunks ⊢
    omega
  refine ⟨imageGroups_length _ _, ?_, ?_, htotal, ?_, ?_⟩
  · rw [hb]
    simp only [zbootImageHeader, hrom, List.append_assoc]
    rw [List.drop_left' (u32le_length _), List.take_left' (u32le_length _)]
  · refine ⟨wordSum (zbootImageHeader elf buildVersion buildDate buildDescription
      romSectionList.length otherSectionList.length ++ romChunk elf romSectionList ++
      otherChunks elf otherSectionList), ?_⟩
    rw [hb]
    simp only [List.append_assoc]
    rw [List.drop_left' hlen, ← List.append_assoc]
    exact skipChunks_imageChunks elf romSectionList otherSectionList _ hData hFit
  · intro g _
    exact groupPayload_aligned elf g
  · rw [hb]
    simp only [List.length_append, u32le_length] at hal ⊢
    omega

/-- C23 at the sample application with a ROM group holding an empty section and an
absent name among the other sections: 4 chunks, 176 bytes. -/
theorem zboot_chunk_count_witness :
    sampleHost.LoadElf "app.elf" = some appElf ∧
    dataSized appElf ([".irom0.text", ".rodata"] ++ [".text", ".missing", ".data"]) = true ∧
    sectionsFit appElf [".irom0.text", ".rodata"] [".text", ".missing", ".data"] = true ∧
    ∃ out,
      CreateZbootFile sampleHost "app.elf" "app.bin" 1 1000 none [".irom0.text", ".rodata"]
        [".text", ".missing", ".data"] = (true, some out) ∧
      out.bytes.length = 176 ∧
      (∃ chksum,
        skipChunks ([".text", ".missing", ".data"].length +
            (if [".irom0.text", ".rodata"] = [] then 0 else 1))
          (out.bytes.drop 120) = some (u32le chksum)) ∧
      out.bytes.length =
        120 + 8 * ([".text", ".missing", ".data"].length +
            (if [".irom0.text", ".rodata"] = [] then 0 else 1)) +
          ((imageGroups [".irom0.text", ".rodata"] [".text", ".missing", ".data"]).map
            fun g => (groupPayload appElf g SECTION_PADDING).length).sum + 4 :=
  ⟨rfl, by decide, by decide, _, rfl, by decide,
    (zboot_chunk_count sampleHost appElf "app.elf" "app.bin" 1 1000 none
      [".irom0.text", ".rodata"] [".text", ".missing", ".data"] _ rfl (by decide) (by decide)
      rfl).2.2.1,
    (zboot_chunk_count sampleHost appElf "app.elf" "app.bin" 1 1000 none
      [".irom0.text", ".rodata"] [".text", ".missing", ".data"] _ rfl (by decide) (by decide)
      rfl).2.2.2.1⟩

/-! ## The address of a group with leading zero addresses -/

theorem firstAddress_skip (elf : MyElf_File) (n : String) (rest : List String)
    (h : givesNoAddress elf n = true) :
    firstAddress elf (n :: rest) = firstAddress elf rest := by
  simp only [firstAddress]
  simp only [givesNoAddress] at h
  cases hsec : elf.GetElfSection n with
  | none => rfl
  | some sec =>
    simp only [hsec, Bool.or_eq_true, decide_eq_true_eq] at h ⊢
    by_cases hz : sec.size = 0
    · rw [if_pos hz]
    · rw [if_neg hz]
      cases h with
      | inl h => exact absurd h hz
      | inr h => rw [if_pos h]

theorem firstAddress_skip_all (elf : MyElf_File) (pre rest : List String)
    (h : ∀ m ∈ pre, givesNoAddress elf m = true) :
    firstAddress elf (pre ++ rest) = firstAddress elf rest := by
  induction pre with
  | nil => rfl
  | cons m pre ih =>
    rw [List.cons_append, firstAddress_skip elf m _ (h m (List.mem_cons_self _ _))]
    exact ih fun k hk => h k (List.mem_cons_of_mem _ hk)

theorem firstAddress_none (elf : MyElf_File) (names : List String)
    (h : ∀ m ∈ names, givesNoAddress elf m = true) : firstAddress elf names = 0 := by
  have := firstAddress_skip_all elf names [] h
  rw [List.append_nil] at this
  exact this

theorem firstAddress_hit (elf : MyElf_File) (n : String) (rest : List String)
    (sec : MyElf_Section) (hsec : elf.GetElfSection n = some sec) (hz : sec.size ≠ 0)
    (ha : sec.address % 2 ^ 32 ≠ 0) :
    firstAddress elf (n :: rest) = sec.address % 2 ^ 32 := by
  simp only [firstAddress, hsec]
  rw [if_neg hz, if_neg ha]

theorem firstAddress_first_nonzero (elf : MyElf_File) (pre : List String) (n : String)
    (post : List String) (sec : MyElf_Section)
    (hpre : ∀ m ∈ pre, givesNoAddress elf m = true)
    (hsec : elf.GetElfSection n = some sec) (hz : sec.size ≠ 0)
    (ha : sec.address % 2 ^ 32 ≠ 0) :
    firstAddress elf (pre ++ n :: post) = sec.address % 2 ^ 32 := by
  rw [firstAddress_skip_all elf pre _ hpre]
  exact firstAddress_hit elf n post sec hsec hz ha

/-- C24. For every successful `WriteElfSection` call with a header and
`zeroAddress` clear, the address field of the chunk header is the load address
of the first name in list order that resolves to a non-empty section with a
non-zero load address (every name before it is absent, or resolves to an empty
section or to a section with load address 0), and 0 when no name resolves to
such a section. A leading non-empty section with load address 0 does not fix
the address: the non-zero address of the section after it is written. -/
theorem chunk_address_first_nonzero (elf : MyElf_File) (fd : FILE) (names : List String)
    (padto : Nat) (chksum : Option Nat) (checksumSize : Nat)
    (hNames : names ≠ []) (hData : dataSized elf names = true)
    (hFit : groupSize elf names + padto < 2 ^ 32)
    (hOk : (WriteElfSection elf fd names true false padto chksum checksumSize).success = true) :
    (∀ pre n post sec, names = pre ++ n :: post →
      (∀ m ∈ pre, givesNoAddress elf m = true) →
      elf.GetElfSection n = some sec → sec.size ≠ 0 → sec.address % 2 ^ 32 ≠ 0 →
      ((WriteElfSection elf fd names true false padto chksum checksumSize).fd.bytes.drop
        fd.bytes.length).take 4 = u32le (sec.address % 2 ^ 32)) ∧
    ((∀ m ∈ names, givesNoAddress elf m = true) →
      ((WriteElfSection elf fd names true false padto chksum checksumSize).fd.bytes.drop
        fd.bytes.length).take 4 = u32le 0) ∧
    (∀ n0 n1 post sec0 sec1, names = n0 :: n1 :: post →
      elf.GetElfSection n0 = some sec0 → sec0.size ≠ 0 → sec0.address % 2 ^ 32 = 0 →
      elf.GetElfSection n1 = some sec1 → sec1.size ≠ 0 → sec1.address % 2 ^ 32 ≠ 0 →
      ((WriteElfSection elf fd names true false padto chksum checksumSize).fd.bytes.drop
        fd.bytes.length).take 4 = u32le (sec1.address % 2 ^ 32)) ∧
    (∀ m, givesNoAddress elf m =
      match elf.GetElfSection m with
      | none => true
      | some sec => sec.size = 0 || sec.address % 2 ^ 32 = 0) := by
  obtain ⟨_, _, w3, _⟩ := WriteElfSection_spec elf fd names true false padto chksum
    checksumSize hNames hData hFit hOk
  have hfield : ((WriteElfSection elf fd names true false padto chksum checksumSize).fd.bytes.drop
      fd.bytes.length).take 4 = u32le (firstAddress elf names) := by
    rw [w3]
    simp only [if_true, groupAddress, List.append_assoc, Bool.false_eq_true, if_false]
    rw [List.drop_left, List.take_left' (u32le_length _)]
  refine ⟨?_, ?_, ?_, fun m => rfl⟩
  · intro pre n post sec hn hpre hsec hz ha
    rw [hfield, hn, firstAddress_first_nonzero elf pre n post sec hpre hsec hz ha]
  · intro hall
    rw [hfield, firstAddress_none elf names hall]
  · intro n0 n1 post sec0 sec1 hn h0 hz0 ha0 h1 hz1 ha1
    have hpre : ∀ m ∈ [n0], givesNoAddress elf m = true := by
      intro m hm
      rw [List.mem_singleton] at hm
      subst hm
      simp only [givesNoAddress, h0, Bool.or_eq_true, decide_eq_true_eq]
      exact Or.inr ha0
    have := firstAddress_first_nonzero elf [n0] n1 post sec1 hpre h1 hz1 ha1
    rw [hfield, hn]
    exact congrArg u32le this

/-- C24 at the group [".vectors", ".text"] of an ELF object whose first section is
non-empty and loaded at address 0: the address field is the load address
0x40100000 of ".text". -/
theorem chunk_address_first_nonzero_witness :
    [".vectors", ".text"] ≠ ([] : List String) ∧
    dataSized zeroBaseElf [".vectors", ".text"] = true ∧
    groupSize zeroBaseElf [".vectors", ".text"] + 4 < 2 ^ 32 ∧
    (WriteElfSection zeroBaseElf ⟨[0xE9], none⟩ [".vectors", ".text"] true false 4
      (some 0xEF) 1).success = true ∧
    ((WriteElfSection zeroBaseElf ⟨[0xE9], none⟩ [".vectors", ".text"] true false 4
      (some 0xEF) 1).fd.bytes.drop 1).take 4 = [0x00, 0x00, 0x10, 0x40] :=
  ⟨by decide, by decide, by decide, by decide,
    (chunk_address_first_nonzero zeroBaseElf ⟨[0xE9], none⟩ [".vectors", ".text"] 4 (some 0xEF) 1
      (by decide) (by decide) (by decide) (by decide)).2.2.1 ".vectors" ".text" []
      ⟨0x34, 0, 4, ".vectors"⟩ ⟨0x38, 0x40100000, 4, ".text"⟩ rfl rfl (by decide) (by decide)
      rfl (by decide) (by decide)⟩

end Ztool
